import Mathlib

/-!
# AssetFix: the loose-file index (`looseFiles.cpp`)

A shallow embedding of the open-addressing hash set of `looseFiles.cpp`
and of the directory scan that fills it, followed by theorems about it.

Conventions of the embedding.

* A C string is the list of its bytes before the terminating NUL, each byte
  given by its unsigned value (`IsCStr`: every byte is in `1..255`).  Reading
  `*p` at the end of the list yields the terminator `0`.  The source's `char`
  is signed, but every test it makes on a `char` (`== '/'`, `>= 'A' && <= 'Z'`)
  has the same outcome on the unsigned byte value, and `+= 32` is only applied
  to `65..90`.
* `uint32_t` values are naturals reduced with `u32` after every operation
  that can exceed 32 bits.
* The three globals `g_hashTable`, `g_hashCapacity`, `g_hashCount` (and
  `g_wowDirLen`) form the record `Globals`; a slot whose `key` pointer is
  null is `none`.
* An operation returns `none` when the C program has no defined result:
  an access outside the slot array, a null table dereference, a probe
  loop that never exits, or a path written beyond its `char[MAX_PATH]`
  buffer.
-/

namespace LooseFiles

/-! ## Machine integers and C strings -/

/-- Reduction of a natural number to `uint32_t`. -/
def u32 (n : Nat) : Nat := n % 4294967296

/-- Well-formed C string contents: no NUL byte, every byte below 256. -/
def IsCStr (s : List Nat) : Prop := ∀ c ∈ s, 0 < c ∧ c < 256

instance (s : List Nat) : Decidable (IsCStr s) := by
  unfold IsCStr; infer_instance

/-! ## Path normalizer (`computeHash`, `normalizePath`, `pathcmp`) -/

/-- Per-byte step of `computeHash`:
`if (c == '/') c = '\\'; if (c >= 'A' && c <= 'Z') c += 32;`. -/
def hashChar (c : Nat) : Nat :=
  let c1 := if c = 47 then 92 else c
  if 65 ≤ c1 ∧ c1 ≤ 90 then c1 + 32 else c1

/-- Loop of `computeHash`: `hash = ((hash << 5) + hash) + (uint8_t)c` in
32-bit arithmetic. -/
def computeHashLoop : Nat → List Nat → Nat
  | hash, [] => hash
  | hash, c :: str =>
    computeHashLoop (u32 (u32 (u32 (hash <<< 5) + hash) + hashChar c)) str

/-- Source `computeHash`: djb2 over the normalized bytes, seed 5381. -/
def computeHash (str : List Nat) : Nat := computeHashLoop 5381 str

/-- Per-byte step of `normalizePath`:
`if (*p == '/') *p = '\\'; else if (*p >= 'A' && *p <= 'Z') *p += 32;`. -/
def normChar (c : Nat) : Nat :=
  if c = 47 then 92 else if 65 ≤ c ∧ c ≤ 90 then c + 32 else c

/-- Source `normalizePath` (the in-place rewrite, as a function). -/
def normalizePath : List Nat → List Nat
  | [] => []
  | c :: p => normChar c :: normalizePath p

/-- Per-byte step of `pathcmp`:
`if (c >= 'A' && c <= 'Z') c += 32; if (c == '/') c = '\\';`. -/
def cmpChar (c : Nat) : Nat :=
  let c1 := if 65 ≤ c ∧ c ≤ 90 then c + 32 else c
  if c1 = 47 then 92 else c1

/-- Source `pathcmp`: case-insensitive, slash-normalized comparison. -/
def pathcmp : List Nat → List Nat → Int
  | ca :: a, cb :: b =>
    if cmpChar ca ≠ cmpChar cb then (cmpChar ca : Int) - (cmpChar cb : Int)
    else pathcmp a b
  | [], [] => 0
  | [], cb :: _ => (0 : Int) - (cb : Int)
  | ca :: _, [] => (ca : Int) - 0

/-- The C runtime `tolower` in the default "C" locale: only `A`-`Z` change. -/
def tolowerC (c : Nat) : Nat := if 65 ≤ c ∧ c ≤ 90 then c + 32 else c

/-- The C runtime `_stricmp` (not part of this repository) as documented for
the default "C" locale: the two strings are compared byte by byte after
`tolower`; the result is the difference at the first mismatch.  It folds
case only, `'/'` and `'\\'` stay different. -/
def _stricmp : List Nat → List Nat → Int
  | ca :: a, cb :: b =>
    if tolowerC ca ≠ tolowerC cb then (tolowerC ca : Int) - (tolowerC cb : Int)
    else _stricmp a b
  | [], [] => 0
  | [], cb :: _ => (0 : Int) - (tolowerC cb : Int)
  | ca :: _, [] => (tolowerC ca : Int) - 0

/-! ## The hash set -/

/-- Source `HASH_SET_INITIAL_SIZE`. -/
def HASH_SET_INITIAL_SIZE : Nat := 1024

/-- Source `HASH_SET_MAX_LOAD` (percent). -/
def HASH_SET_MAX_LOAD : Nat := 70

/-- Source `struct HashEntry` of an occupied slot (`key` non-null). -/
structure HashEntry where
  key : List Nat
  diskPath : List Nat
  hash : Nat
deriving DecidableEq, Repr

/-- The slot array: `none` is a slot whose `key` is null (as `calloc` leaves it). -/
abbrev Table := List (Option HashEntry)

/-- The file-scope variables of `looseFiles.cpp`; `g_hashTable = none` is
the null pointer. -/
structure Globals where
  g_hashTable : Option Table
  g_hashCapacity : Nat
  g_hashCount : Nat
  g_wowDirLen : Nat
deriving DecidableEq, Repr

/-- The state at program start: the static initialisers. -/
def Globals.initial : Globals := ⟨none, 0, 0, 0⟩

/-- Outcome of the allocations one call may perform: the `calloc` of
`hashSet_grow` and the two `malloc`s of `hashSet_insert` (`true` = a
non-null pointer is returned). -/
structure Alloc where
  calloc : Bool
  keyMalloc : Bool
  diskMalloc : Bool
deriving DecidableEq, Repr

/-- Every allocation succeeds. -/
def Alloc.ok : Alloc := ⟨true, true, true⟩

/-- `capacity - 1` in `uint32_t` arithmetic. -/
def maskOf (cap : Nat) : Nat := u32 (cap + 4294967295)

/-- The linear-probe loop common to `hashSet_grow`, `hashSet_insert` and
`hashSet_lookup`:
`while (tbl[slot].key) { if (stop) return ...; slot = (slot + 1) & mask; }`.
The result is the slot at which the loop ends and its content (`none` when it
ends at an empty slot).  `fuel` bounds the number of slots examined; the
callers pass the capacity, after which the slot sequence has repeated. -/
def probe (stop : HashEntry → Bool) (tbl : Table) (mask : Nat) :
    Nat → Nat → Option (Nat × Option HashEntry)
  | 0, _ => none
  | fuel + 1, slot =>
    match tbl[slot]? with
    | none => none
    | some none => some (slot, none)
    | some (some e) =>
      if stop e then some (slot, some e)
      else probe stop tbl mask fuel (u32 (slot + 1) &&& mask)

/-- The `for` loop of `hashSet_grow` over the old slot indices: every
occupied old slot is copied to the first empty slot found from
`hash & (newCap - 1)`. -/
def rehash (old : Table) (newCap : Nat) : List Nat → Table → Option Table
  | [], newTable => some newTable
  | i :: rest, newTable =>
    match old[i]? with
    | none => none
    | some none => rehash old newCap rest newTable
    | some (some e) =>
      match probe (fun _ => false) newTable (maskOf newCap) newCap
          (e.hash &&& maskOf newCap) with
      | none => none
      | some (slot, _) => rehash old newCap rest (newTable.set slot (some e))

/-- Source `hashSet_grow`.  The Boolean is the return value. -/
def hashSet_grow (callocOk : Bool) (s : Globals) : Option (Bool × Globals) :=
  let newCap :=
    if s.g_hashCapacity ≠ 0 then u32 (s.g_hashCapacity * 2) else HASH_SET_INITIAL_SIZE
  if !callocOk then some (false, s)
  else
    match rehash (s.g_hashTable.getD []) newCap (List.range s.g_hashCapacity)
        (List.replicate newCap none) with
    | none => none
    | some newTable =>
      some (true, { s with g_hashTable := some newTable, g_hashCapacity := newCap })

/-- The test that ends the probe of `hashSet_insert` with "already present"
(lines 80-81): `tbl[slot].hash == h && _stricmp(tbl[slot].key, key) == 0`. -/
def stopInsert (key : List Nat) (e : HashEntry) : Bool :=
  e.hash == computeHash key && _stricmp e.key key == 0

/-- The test that ends the probe of `hashSet_lookup` with a hit (lines
127-128): `tbl[slot].hash == h && pathcmp(tbl[slot].key, key) == 0`. -/
def stopLookup (key : List Nat) (e : HashEntry) : Bool :=
  e.hash == computeHash key && pathcmp e.key key == 0

/-- Lines 76-103 of `hashSet_insert`, after the load test: probe from the home
slot, return `true` at an equal stored key, otherwise allocate and store the
new entry at the empty slot found. -/
def insertAt (a : Alloc) (s : Globals) (key diskPath : List Nat) :
    Option (Bool × Globals) :=
  let h := computeHash key
  match s.g_hashTable with
  | none => none
  | some tbl =>
    match probe (stopInsert key) tbl (maskOf s.g_hashCapacity) s.g_hashCapacity
        (h &&& maskOf s.g_hashCapacity) with
    | none => none
    | some (_, some _) => some (true, s)
    | some (slot, none) =>
      if !a.keyMalloc then some (false, s)
      else if !a.diskMalloc then some (false, s)
      else
        some (true,
          { s with
            g_hashTable := some (tbl.set slot (some ⟨normalizePath key, diskPath, h⟩)),
            g_hashCount := u32 (s.g_hashCount + 1) })

/-- Source `hashSet_insert`.  The Boolean is the return value. -/
def hashSet_insert (a : Alloc) (s : Globals) (key diskPath : List Nat) :
    Option (Bool × Globals) :=
  if u32 (s.g_hashCount * 100) ≥ u32 (s.g_hashCapacity * HASH_SET_MAX_LOAD) then
    match hashSet_grow a.calloc s with
    | none => none
    | some (false, s1) => some (false, s1)
    | some (true, s1) => insertAt a s1 key diskPath
  else insertAt a s key diskPath

/-- Source `hashSet_lookup`: `some none` is the null result (not found),
`some (some d)` the stored disk path. -/
def hashSet_lookup (s : Globals) (key : List Nat) : Option (Option (List Nat)) :=
  match s.g_hashTable with
  | none => some none
  | some tbl =>
    if s.g_hashCapacity = 0 then some none
    else
      let h := computeHash key
      match probe (stopLookup key) tbl (maskOf s.g_hashCapacity) s.g_hashCapacity
          (h &&& maskOf s.g_hashCapacity) with
      | none => none
      | some (_, some e) => some (some e.diskPath)
      | some (_, none) => some none

/-- Source `looseFiles_lookup`. -/
def looseFiles_lookup (s : Globals) (gamePath : List Nat) : Option (Option (List Nat)) :=
  hashSet_lookup s gamePath


/-! ## Directory scanning (`isMpqFile`, `scanDirectory`, `looseFiles_init`) -/

/-- Source `isMpqFile`: `_stricmp(filename + len - 4, ".mpq") == 0` for names
of at least four bytes. -/
def isMpqFile (filename : List Nat) : Bool :=
  if filename.length < 4 then false
  else _stricmp (filename.drop (filename.length - 4)) [46, 109, 112, 113] == 0

/-- The test that skips `.` and `..`:
`cFileName[0] == '.' && (cFileName[1] == '\0' ||
  (cFileName[1] == '.' && cFileName[2] == '\0'))`. -/
def isDotEntry : List Nat → Bool
  | [46] => true
  | [46, 46] => true
  | _ => false

mutual
/-- One entry reported by a `FindFirstFileA`/`FindNextFileA` search
(`WIN32_FIND_DATAA`): its `cFileName` and, when `FILE_ATTRIBUTE_DIRECTORY` is
set, whether a search of that directory opens, and what that search lists. -/
inductive DirEntry where
  | file (cFileName : List Nat)
  | dir (cFileName : List Nat) (opens : Bool) (listing : Listing)
/-- The entries a search reports, in order. -/
inductive Listing where
  | nil
  | cons (e : DirEntry) (rest : Listing)
end

/-- Source `MAX_PATH` (the Windows headers): the size of the path buffers
`dirBuf`, `dataPath`, `searchPath` and `childPath`. -/
def MAX_PATH : Nat := 260

/-- A string fits a `char[MAX_PATH]` buffer together with its terminating NUL.
`wsprintfA` and `strcat` do not check it: writing a longer string overruns the
buffer, which has no defined result. -/
def fitsPath (p : List Nat) : Bool := decide (p.length < MAX_PATH)

mutual
/-- Body of the `do ... while (FindNextFileA)` loop of `scanDirectory` for one
entry.  `insert` stands for the call `hashSet_insert(gameKey, diskPath)` acting
on a state `σ`.  `childPath` is formatted for every entry other than `.` and
`..`; the result is `none` when it does not fit its buffer.  For a directory
the recursive call `scanDirectory(childPath, baseDirLen)` formats its
`searchPath` (`childPath` followed by `\*`), `none` when that does not fit,
and then loops over the listing of the child directory unless its search does
not open.  For a regular file that is not an archive, `gameKey` and `diskPath`
point `baseDirLen` and `g_wowDirLen` bytes into `childPath`; an offset beyond
the end of the string points at bytes that were never written, `none`. -/
def scanEntry {σ : Type} (insert : σ → List Nat → List Nat → σ) (g_wowDirLen : Nat)
    (fullPath : List Nat) (baseDirLen : Nat) : DirEntry → σ → Option σ
  | DirEntry.file cFileName, st =>
    if isDotEntry cFileName then some st
    else if !fitsPath (fullPath ++ 92 :: cFileName) then none
    else if !isMpqFile cFileName then
      if baseDirLen ≤ (fullPath ++ 92 :: cFileName).length ∧
          g_wowDirLen ≤ (fullPath ++ 92 :: cFileName).length then
        some (insert st ((fullPath ++ 92 :: cFileName).drop baseDirLen)
          ((fullPath ++ 92 :: cFileName).drop g_wowDirLen))
      else none
    else some st
  | DirEntry.dir cFileName opens listing, st =>
    if isDotEntry cFileName then some st
    else if !fitsPath (fullPath ++ 92 :: cFileName) then none
    else if !fitsPath ((fullPath ++ 92 :: cFileName) ++ [92, 42]) then none
    else if opens then
      scanLoop insert g_wowDirLen (fullPath ++ 92 :: cFileName) baseDirLen listing st
    else some st
/-- The loop of `scanDirectory` over the entries of one search. -/
def scanLoop {σ : Type} (insert : σ → List Nat → List Nat → σ) (g_wowDirLen : Nat)
    (fullPath : List Nat) (baseDirLen : Nat) : Listing → σ → Option σ
  | Listing.nil, st => some st
  | Listing.cons e rest, st =>
    match scanEntry insert g_wowDirLen fullPath baseDirLen e st with
    | none => none
    | some st1 => scanLoop insert g_wowDirLen fullPath baseDirLen rest st1
end

/-- Source `scanDirectory`: `searchPath` (`fullPath` followed by `\*`) is
formatted first, `none` when it does not fit its buffer; nothing happens when
`FindFirstFileA` returns `INVALID_HANDLE_VALUE` (`opens = false`), otherwise
the loop runs over the listing. -/
def scanDirectory {σ : Type} (insert : σ → List Nat → List Nat → σ) (g_wowDirLen : Nat)
    (fullPath : List Nat) (baseDirLen : Nat) (opens : Bool) (listing : Listing) (st : σ) :
    Option σ :=
  if !fitsPath (fullPath ++ [92, 42]) then none
  else if opens then scanLoop insert g_wowDirLen fullPath baseDirLen listing st
  else some st

/-- The handler that records the calls to `hashSet_insert` in order. -/
def recordCall (st : List (List Nat × List Nat)) (gameKey diskPath : List Nat) :
    List (List Nat × List Nat) :=
  st ++ [(gameKey, diskPath)]

/-- The call `hashSet_insert(gameKey, diskPath)` as `scanDirectory` makes it:
the return value is dropped.  The state carries the number of calls made so far,
`alloc` gives the allocation outcomes of each call, and `none` is a run without
a defined result. -/
def scanInsert (alloc : Nat → Alloc) (st : Nat × Option Globals) (gameKey diskPath : List Nat) :
    Nat × Option Globals :=
  (st.1 + 1,
    st.2.bind fun g => (hashSet_insert (alloc st.1) g gameKey diskPath).map Prod.snd)

/-- Index of the last occurrence of `c` (C `strrchr`), scanning from index `i`. -/
def strrchrFrom (c : Nat) : List Nat → Nat → Option Nat → Option Nat
  | [], _, found => found
  | x :: rest, i, found => strrchrFrom c rest (i + 1) (if x = c then some i else found)

/-- The root used when `wowDir` is null: `GetModuleFileNameA` stores the module
file name in `dirBuf` (`none` when it does not fit with its NUL); it is cut
after its last `'\\'`, or `'\\'` is appended by `strcat` when it has none,
`none` when that overruns `dirBuf`. -/
def moduleDir (moduleFileName : List Nat) : Option (List Nat) :=
  if !fitsPath moduleFileName then none
  else
    match strrchrFrom 92 moduleFileName 0 none with
    | some i => some (moduleFileName.take (i + 1))
    | none =>
      if fitsPath (moduleFileName ++ [92]) then some (moduleFileName ++ [92]) else none

/-- The string `"Data"`. -/
def dataName : List Nat := [68, 97, 116, 97]

/-- The root `looseFiles_init` works with: `wowDir`, or the directory of the
module when `wowDir` is null. -/
def initRoot (moduleFileName : List Nat) (wowDir : Option (List Nat)) : Option (List Nat) :=
  match wowDir with
  | some w => some w
  | none => moduleDir moduleFileName

/-- Source `looseFiles_init`.  `moduleFileName` is what `GetModuleFileNameA`
returns; `fileAttr path` is what `GetFileAttributesA` finds at `path` (`none`
for `INVALID_FILE_ATTRIBUTES`), a directory coming with the listing its search
yields; `callocOk` and `alloc` are the allocation outcomes.  `dataPath` (the
root followed by `Data`) is formatted into its buffer, `none` when it does not
fit. -/
def looseFiles_init (moduleFileName : List Nat) (fileAttr : List Nat → Option DirEntry)
    (callocOk : Bool) (alloc : Nat → Alloc) (wowDir : Option (List Nat)) (s : Globals) :
    Option Globals :=
  match initRoot moduleFileName wowDir with
  | none => none
  | some dir =>
    match hashSet_grow callocOk { s with g_wowDirLen := dir.length } with
    | none => none
    | some (_, s2) =>
      if !fitsPath (dir ++ dataName) then none
      else
        match fileAttr (dir ++ dataName) with
        | some (DirEntry.dir _ opens listing) =>
          (scanDirectory (scanInsert alloc) s2.g_wowDirLen (dir ++ dataName)
            (s2.g_wowDirLen + 5) opens listing (0, some s2)).bind Prod.snd
        | _ => some s2

/-- Source `looseFiles_cleanup`.  The loop frees the strings of the slots
`0 .. g_hashCapacity - 1`, which has no defined result when the slot array is
shorter than that; freeing does not change the modelled state, and the four
globals are reset. -/
def looseFiles_cleanup (s : Globals) : Option Globals :=
  match s.g_hashTable with
  | some tbl => if tbl.length < s.g_hashCapacity then none else some ⟨none, 0, 0, 0⟩
  | none => some ⟨none, 0, 0, 0⟩

/-- Whether a reversed file name starts with `q`, `p`, `m`, `.` in either case:
the name ends in `.mpq`. -/
def endsMpqRev : List Nat → Bool
  | c3 :: c2 :: c1 :: c0 :: _ =>
    c0 == 46 && (c1 == 109 || c1 == 77) && (c2 == 112 || c2 == 80) && (c3 == 113 || c3 == 81)
  | _ => false

/-- No recorded call has a key ending in `.mpq`. -/
def NoMpqCalls (calls : List (List Nat × List Nat)) : Prop :=
  ∀ c ∈ calls, isMpqFile c.1 = false


/-! ## Notions used to state the properties of the hash set -/

/-- Slot reached after `d` probe steps from slot `a` in a table of `cap` slots. -/
def pos (cap a d : Nat) : Nat := (a + d) % cap

/-- The occupied entries of a slot array, in slot order. -/
def entries (t : Table) : List HashEntry := t.filterMap id

/-- Capacity is a power of two that fits 32 bits (`2^0 .. 2^31`). -/
def PowCap (cap : Nat) : Prop := ∃ e, e ≤ 31 ∧ cap = 2 ^ e

/-- Well-formedness of a slot array of `cap` slots: stored keys are normalized
C strings with their cached hash, and every entry is reachable from its home
slot `hash % cap` through occupied slots only. -/
structure TableOk (t : Table) (cap : Nat) : Prop where
  len : t.length = cap
  pow : PowCap cap
  keys : ∀ e ∈ entries t,
    IsCStr e.key ∧ normalizePath e.key = e.key ∧ e.hash = computeHash e.key
  chain : ∀ i e, t[i]? = some (some e) →
    ∃ d, pos cap (e.hash % cap) d = i ∧
      ∀ d2, d2 < d → ∃ e2, t[pos cap (e.hash % cap) d2]? = some (some e2)

/-- Invariant of a populated table `t`: well-formed slots, at least the initial
capacity, `g_hashCount` counting the occupied slots, and the load bound the
pre-insert test of `hashSet_insert` maintains. -/
structure Populated (s : Globals) (t : Table) : Prop where
  tbl : s.g_hashTable = some t
  ok : TableOk t s.g_hashCapacity
  big : 1024 ≤ s.g_hashCapacity
  cnt : s.g_hashCount = (entries t).length
  load : s.g_hashCount * 100 < s.g_hashCapacity * 70 + 100

/-- State invariant: no table yet (or a zero-slot table), or a populated one. -/
def Inv (s : Globals) : Prop :=
  ((s.g_hashTable = none ∨ s.g_hashTable = some []) ∧
      s.g_hashCapacity = 0 ∧ s.g_hashCount = 0) ∨
    ∃ t, Populated s t

/-- The occupied entries of the current table (none without a table). -/
def content (s : Globals) : List HashEntry := entries (s.g_hashTable.getD [])

/-- The table right after the first `hashSet_grow`: 1024 empty slots. -/
def fresh : Globals := ⟨some (List.replicate 1024 none), 1024, 0, 0⟩

/-- States reachable from the initial globals: `looseFiles_init` records the
root length and calls `hashSet_grow`, the scan calls `hashSet_insert` with
C-string keys; any allocation may fail.  Only calls with a defined result
produce a state. -/
inductive Reachable : Globals → Prop
  | initial : Reachable Globals.initial
  | wowDir {s : Globals} (n : Nat) : Reachable s → Reachable { s with g_wowDirLen := n }
  | grow {s s2 : Globals} {callocOk b : Bool} :
      Reachable s → hashSet_grow callocOk s = some (b, s2) → Reachable s2
  | insert {s s2 : Globals} {a : Alloc} {key diskPath : List Nat} {b : Bool} :
      Reachable s → IsCStr key → hashSet_insert a s key diskPath = some (b, s2) →
      Reachable s2

/-- Successive `hashSet_insert` calls with every allocation succeeding;
`none` as soon as a call has no defined result or returns `false`. -/
def insertAll : Globals → List (List Nat × List Nat) → Option Globals
  | s, [] => some s
  | s, kv :: rest =>
    match hashSet_insert Alloc.ok s kv.1 kv.2 with
    | some (true, s1) => insertAll s1 rest
    | _ => none

/-- The entry `hashSet_insert` stores for a (key, disk path) pair. -/
def toEntry (kv : List Nat × List Nat) : HashEntry :=
  ⟨normalizePath kv.1, kv.2, computeHash kv.1⟩

/-- A family of pairwise different keys: the byte `'k'` followed by the decimal
digits of `i` (least significant first). -/
def numKey (i : Nat) : List Nat := 107 :: (Nat.digits 10 i).map (fun d => d + 48)

/-- The first `n` keys of the family, each paired with itself as disk path. -/
def numPairs (n : Nat) : List (List Nat × List Nat) :=
  (List.range n).map fun i => (numKey i, numKey i)

/-- The load test at the head of `hashSet_insert` (line 72), in 32-bit
arithmetic: when it holds the table is grown first. -/
def AtThreshold (s : Globals) : Prop :=
  u32 (s.g_hashCount * 100) ≥ u32 (s.g_hashCapacity * HASH_SET_MAX_LOAD)

instance (s : Globals) : Decidable (AtThreshold s) := by
  unfold AtThreshold; infer_instance

/-- No two occupied slots hold keys that `pathcmp` reports equal. -/
def KeysUnique (s : Globals) : Prop :=
  ∀ (i j : Nat) (e1 e2 : HashEntry), i ≠ j →
    (s.g_hashTable.getD [])[i]? = some (some e1) →
    (s.g_hashTable.getD [])[j]? = some (some e2) →
    pathcmp e1.key e2.key ≠ 0

/-! ## Concrete inputs used by the examples -/

/-- Key `"a\b"`. -/
def keyBackslash : List Nat := [97, 92, 98]

/-- Key `"a/b"`: the same path as `keyBackslash` with the other separator. -/
def keySlash : List Nat := [97, 47, 98]

/-- Key `"A\B"`: the same path as `keyBackslash` in upper case. -/
def keyUpper : List Nat := [65, 92, 66]

/-- Disk path `"x"`. -/
def diskX : List Nat := [120]

/-- Disk path `"y"`. -/
def diskY : List Nat := [121]

/-- Key `"b\yc"`, whose hash 2090099711 has home slot 1023, the last slot of
the initial table. -/
def keyLast : List Nat := [98, 92, 121, 99]

/-- Key `"b/yc"`: the same path as `keyLast` with the other separator. -/
def keyLastSlash : List Nat := [98, 47, 121, 99]

/-- Entry stored for `"a\b"` (or `"a/b"`, `"A\B"`) with disk path `"x"`. -/
def entryAX : HashEntry := ⟨keyBackslash, diskX, 193485764⟩

/-- Entry stored for `"a\b"` (or `"a/b"`) with disk path `"y"`. -/
def entryAY : HashEntry := ⟨keyBackslash, diskY, 193485764⟩

/-- Entry stored for `"b\yc"` (or `"b/yc"`) with disk path `"x"`. -/
def entryLX : HashEntry := ⟨keyLast, diskX, 2090099711⟩

/-- Entry stored for `"b\yc"` (or `"b/yc"`) with disk path `"y"`. -/
def entryLY : HashEntry := ⟨keyLast, diskY, 2090099711⟩

/-- 1024 slots, `entryAX` in its home slot 964. -/
def tblOne : Table := (List.replicate 1024 none).set 964 (some entryAX)

/-- As `tblOne`, with `entryAY` in the next slot. -/
def tblTwo : Table := ((List.replicate 1024 none).set 964 (some entryAX)).set 965 (some entryAY)

/-- 1024 slots, `entryLX` in its home slot 1023. -/
def tblLast : Table := (List.replicate 1024 none).set 1023 (some entryLX)

/-- As `tblLast`, with `entryLY` wrapped around to slot 0. -/
def tblWrapped : Table :=
  ((List.replicate 1024 none).set 1023 (some entryLX)).set 0 (some entryLY)

/-- 2048 slots, `entryLY` in slot 1023 and `entryLX` in slot 1024. -/
def tblGrown : Table :=
  ((List.replicate 2048 none).set 1023 (some entryLY)).set 1024 (some entryLX)

/-- The fresh table after `hashSet_insert("a\b", "x")`. -/
def oneEntry : Globals := ⟨some tblOne, 1024, 1, 0⟩

/-- The fresh table after `hashSet_insert("a\b", "x")` and
`hashSet_insert("a/b", "y")`: two entries with the same stored key. -/
def twoCopies : Globals := ⟨some tblTwo, 1024, 2, 0⟩

/-- The fresh table after `hashSet_insert("b\yc", "x")`. -/
def lastSlot : Globals := ⟨some tblLast, 1024, 1, 0⟩

/-- The fresh table after `hashSet_insert("b\yc", "x")` and
`hashSet_insert("b/yc", "y")`: the first entry in slot 1023, the second one,
with the same stored key, wrapped around to slot 0. -/
def wrappedDuplicate : Globals := ⟨some tblWrapped, 1024, 2, 0⟩

/-- The table `wrappedDuplicate` after `hashSet_grow`: the entry that was in
slot 0 now comes first. -/
def grownDuplicate : Globals := ⟨some tblGrown, 2048, 2, 0⟩

/-- File name `"."`. -/
def nameDot : List Nat := [46]

/-- File name `".."`. -/
def nameDotDot : List Nat := [46, 46]

/-- Directory name `"Character"`. -/
def nameCharacter : List Nat := [67, 104, 97, 114, 97, 99, 116, 101, 114]

/-- Directory name `"Human"`. -/
def nameHuman : List Nat := [72, 117, 109, 97, 110]

/-- File name `"HumanMale.m2"`. -/
def nameHumanMale : List Nat := [72, 117, 109, 97, 110, 77, 97, 108, 101, 46, 109, 50]

/-- File name `"patch-5.MPQ"`. -/
def namePatch : List Nat := [112, 97, 116, 99, 104, 45, 53, 46, 77, 80, 81]

/-- What a search of the `Data` folder of the scenario lists: `.`, `..`, the
directory `Character` (holding `.`, `..` and the directory `Human`, which holds
`.`, `..` and the file `HumanMale.m2`) and the file `patch-5.MPQ`. -/
def scenarioListing : Listing :=
  Listing.cons (DirEntry.dir nameDot true Listing.nil)
    (Listing.cons (DirEntry.dir nameDotDot true Listing.nil)
      (Listing.cons
        (DirEntry.dir nameCharacter true
          (Listing.cons (DirEntry.dir nameDot true Listing.nil)
            (Listing.cons (DirEntry.dir nameDotDot true Listing.nil)
              (Listing.cons
                (DirEntry.dir nameHuman true
                  (Listing.cons (DirEntry.dir nameDot true Listing.nil)
                    (Listing.cons (DirEntry.dir nameDotDot true Listing.nil)
                      (Listing.cons (DirEntry.file nameHumanMale) Listing.nil))))
                Listing.nil))))
        (Listing.cons (DirEntry.file namePatch) Listing.nil)))

/-- Game key `"Character\Human\HumanMale.m2"` as the scan passes it. -/
def keyHumanMale : List Nat :=
  [67, 104, 97, 114, 97, 99, 116, 101, 114, 92, 72, 117, 109, 97, 110, 92,
    72, 117, 109, 97, 110, 77, 97, 108, 101, 46, 109, 50]

/-- Query `"character\human\humanmale.m2"`. -/
def keyHumanMaleLower : List Nat :=
  [99, 104, 97, 114, 97, 99, 116, 101, 114, 92, 104, 117, 109, 97, 110, 92,
    104, 117, 109, 97, 110, 109, 97, 108, 101, 46, 109, 50]

/-- Query `"Character/Human/HumanMale.M2"`. -/
def keyHumanMaleMixed : List Nat :=
  [67, 104, 97, 114, 97, 99, 116, 101, 114, 47, 72, 117, 109, 97, 110, 47,
    72, 117, 109, 97, 110, 77, 97, 108, 101, 46, 77, 50]

/-- Disk path `"Data\Character\Human\HumanMale.m2"`. -/
def diskHumanMale : List Nat :=
  [68, 97, 116, 97, 92, 67, 104, 97, 114, 97, 99, 116, 101, 114, 92, 72, 117, 109, 97, 110,
    92, 72, 117, 109, 97, 110, 77, 97, 108, 101, 46, 109, 50]

/-- Query `"patch-5.mpq"`. -/
def keyPatchLower : List Nat := [112, 97, 116, 99, 104, 45, 53, 46, 109, 112, 113]

/-- Entry stored for `HumanMale.m2`. -/
def entryHumanMale : HashEntry := ⟨keyHumanMaleLower, diskHumanMale, 1753967368⟩

/-- 1024 slots, `entryHumanMale` in its home slot 776. -/
def tblScenario : Table := (List.replicate 1024 none).set 776 (some entryHumanMale)

/-- The fresh table when the root has length `n`. -/
def freshAt (n : Nat) : Globals := ⟨some (List.replicate 1024 none), 1024, 0, n⟩

/-- The state after the scan of the scenario, for a root of length `n`. -/
def scenarioState (n : Nat) : Globals := ⟨some tblScenario, 1024, 1, n⟩

/-- Root `"C:\"`. -/
def rootC : List Nat := [67, 58, 92]

/-- A file system in which `C:\Data` is a directory listing `scenarioListing`
and nothing else exists. -/
def scenarioFs (path : List Nat) : Option DirEntry :=
  if path = [67, 58, 92, 68, 97, 116, 97] then
    some (DirEntry.dir dataName true scenarioListing)
  else none

/-! ## Notions used by the claims on hashing, scanning and the hook -/

/-- The DJB2 hash as the specification words it: start at 5381 and for each
byte `c` set `h := (h * 33 + c) mod 2^32`. -/
def djb2 (bytes : List Nat) : Nat :=
  bytes.foldl (fun h c => (h * 33 + c) % 4294967296) 5381

/-- Successive `hashSet_insert` calls with the given allocation outcomes, the
return values dropped (as `scanDirectory` drops them); `none` as soon as a call
has no defined result. -/
def runInserts : Globals → List (Alloc × List Nat × List Nat) → Option Globals
  | s, [] => some s
  | s, c :: rest =>
    match hashSet_insert c.1 s c.2.1 c.2.2 with
    | some (_, s1) => runInserts s1 rest
    | none => none

/-- The `cFileName` of a directory entry. -/
def DirEntry.name : DirEntry → List Nat
  | DirEntry.file cFileName => cFileName
  | DirEntry.dir cFileName _ _ => cFileName

/-- Every entry of the listing is `.` or `..`: the directory is empty. -/
def allDots : Listing → Bool
  | Listing.nil => true
  | Listing.cons e rest => isDotEntry e.name && allDots rest

/-- Path components joined by `'\\'`. -/
def joinPath : List (List Nat) → List Nat
  | [] => []
  | [c] => c
  | c :: d :: rest => c ++ 92 :: joinPath (d :: rest)

/-- Directory names appended to a path, each preceded by `'\\'`. -/
def dirSuffix : List (List Nat) → List Nat
  | [] => []
  | c :: rest => 92 :: c ++ dirSuffix rest

mutual
/-- The scan of the entry reaches the regular file `name` below the directories
`dirs`: neither the file nor a directory on the way is `.` or `..`, and the
search of every directory on the way opens. -/
inductive EntryHasFile : DirEntry → List (List Nat) → List Nat → Prop
  | file (name : List Nat) : isDotEntry name = false →
      EntryHasFile (DirEntry.file name) [] name
  | dir (d : List Nat) (sub : Listing) (dirs : List (List Nat)) (name : List Nat) :
      isDotEntry d = false → ListingHasFile sub dirs name →
      EntryHasFile (DirEntry.dir d true sub) (d :: dirs) name
/-- The scan of the listing reaches the regular file `name` below the
directories `dirs`. -/
inductive ListingHasFile : Listing → List (List Nat) → List Nat → Prop
  | head (e : DirEntry) (rest : Listing) (dirs : List (List Nat)) (name : List Nat) :
      EntryHasFile e dirs name → ListingHasFile (Listing.cons e rest) dirs name
  | tail (e : DirEntry) (rest : Listing) (dirs : List (List Nat)) (name : List Nat) :
      ListingHasFile rest dirs name → ListingHasFile (Listing.cons e rest) dirs name
end

/-- The pair `c` is anchored at a non-archive file that the scan of the listing
reaches, the listing being that of the directory `base` below `Data`: the key
is the path of the file relative to the `Data` folder, its components joined by
`'\\'`, and the disk path is `"Data\\"` followed by the key. -/
def Anchored (l : Listing) (base : List (List Nat)) (c : List Nat × List Nat) : Prop :=
  ∃ dirs name, ListingHasFile l dirs name ∧ isMpqFile name = false ∧
    c.1 = joinPath (base ++ dirs ++ [name]) ∧ c.2 = dataName ++ 92 :: c.1

/-- As `Anchored`, for one entry. -/
def AnchoredEntry (e : DirEntry) (base : List (List Nat)) (c : List Nat × List Nat) : Prop :=
  ∃ dirs name, EntryHasFile e dirs name ∧ isMpqFile name = false ∧
    c.1 = joinPath (base ++ dirs ++ [name]) ∧ c.2 = dataName ++ 92 :: c.1

mutual
/-- Every path the scan formats for the entry fits its buffer, the entry lying
in a directory whose path has `fullLen` bytes: the child path (the directory
path, `'\\'` and the name) and, for a directory, its search path (two bytes
more) and the paths below it when its search opens.  Nothing is formatted for
`.` and `..`. -/
def entryFits (fullLen : Nat) : DirEntry → Bool
  | DirEntry.file cFileName =>
    isDotEntry cFileName || decide (fullLen + 1 + cFileName.length < MAX_PATH)
  | DirEntry.dir cFileName opens listing =>
    isDotEntry cFileName ||
      (decide (fullLen + 1 + cFileName.length + 2 < MAX_PATH) &&
        (!opens || listingFits (fullLen + 1 + cFileName.length) listing))
/-- Every path the scan formats for the entries of the listing fits. -/
def listingFits (fullLen : Nat) : Listing → Bool
  | Listing.nil => true
  | Listing.cons e rest => entryFits fullLen e && listingFits fullLen rest
end

/-- Every path that `scanDirectory` formats fits its buffer, for a directory
whose path has `fullLen` bytes: the search path (two bytes more) and, when the
search opens, the paths of the listing. -/
def scanFits (fullLen : Nat) (opens : Bool) (listing : Listing) : Bool :=
  decide (fullLen + 2 < MAX_PATH) && (!opens || listingFits fullLen listing)

/-- What `Hook_CheckFileExistence` does at its `return` statement: it returns a
value, or it returns what the original routine returns for the given
arguments. -/
inductive HookOutcome where
  | returns (value : Nat)
  | callsOriginal (filename : Option (List Nat)) (flags : Nat) (outputBuffer : Nat)
deriving DecidableEq, Repr

/-- The value a hook outcome returns, given the original routine. -/
def HookOutcome.value (original : Option (List Nat) → Nat → Nat → Nat) : HookOutcome → Nat
  | HookOutcome.returns v => v
  | HookOutcome.callsOriginal filename flags outputBuffer => original filename flags outputBuffer

/-- Source `Hook_CheckFileExistence` (`dllmain.cpp`): `filename = none` is the
null pointer, `flags` a `uint32_t`, `outputBuffer` the pointer passed through.
`none` when the lookup has no defined result. -/
def Hook_CheckFileExistence (s : Globals) (filename : Option (List Nat)) (flags : Nat)
    (outputBuffer : Nat) : Option HookOutcome :=
  match filename with
  | some f =>
    match looseFiles_lookup s f with
    | none => none
    | some none => some (HookOutcome.returns 0)
    | some (some diskPath) =>
      some (HookOutcome.callsOriginal (some diskPath) (flags ||| 1) outputBuffer)
  | none => some (HookOutcome.callsOriginal none flags outputBuffer)

/-- A file system in which nothing exists: `GetFileAttributesA` fails for every
path. -/
def emptyFs (_path : List Nat) : Option DirEntry := none

/-- The key `"a~"`. -/
def keyTilde : List Nat := [97, 126]

/-- The key `"b]"`, which has the same hash as `"a~"`. -/
def keyBracket : List Nat := [98, 93]

/-- Allocation outcomes of a call in which `calloc` succeeds and the `malloc`
of the key copy fails. -/
def keyMallocFails : Alloc := ⟨true, false, true⟩

/-! ## What the program itself can pass and be granted -/

/-- The keys `scanDirectory`, the only caller of `hashSet_insert`, can pass:
C strings without `'/'`, being the `cFileName`s of a search joined by `'\\'`
(`'/'` cannot occur in a file name). -/
def IsScanKey (k : List Nat) : Prop := IsCStr k ∧ 47 ∉ k

instance (k : List Nat) : Decidable (IsScanKey k) := by
  unfold IsScanKey; infer_instance

/-- States the program can reach from the initial globals: as `Reachable`, the
keys inserted being keys that `scanDirectory` can pass. -/
inductive ScanReachable : Globals → Prop
  | initial : ScanReachable Globals.initial
  | wowDir {s : Globals} (n : Nat) : ScanReachable s → ScanReachable { s with g_wowDirLen := n }
  | grow {s s2 : Globals} {callocOk b : Bool} :
      ScanReachable s → hashSet_grow callocOk s = some (b, s2) → ScanReachable s2
  | insert {s s2 : Globals} {a : Alloc} {key diskPath : List Nat} {b : Bool} :
      ScanReachable s → IsScanKey key → hashSet_insert a s key diskPath = some (b, s2) →
      ScanReachable s2

/-- Size of `struct HashEntry` on the 32-bit x86 target of the DLL: two
pointers and a `uint32_t`. -/
def sizeofHashEntry : Nat := 12

/-- The largest `size_t` on the 32-bit target. -/
def SIZE_MAX : Nat := 4294967295

/-- The number of bytes `calloc(newCap, sizeof(HashEntry))` in `hashSet_grow`
asks for. -/
def growBytes (s : Globals) : Nat :=
  (if s.g_hashCapacity ≠ 0 then u32 (s.g_hashCapacity * 2) else HASH_SET_INITIAL_SIZE)
    * sizeofHashEntry

/-- Along the run of `insertAll`, in which every allocation succeeds, every
`calloc` made asks for at most `SIZE_MAX` bytes; `calloc` returns null for
more, so every run of the program in which all allocations succeed has this
property. -/
def callocsFit : Globals → List (List Nat × List Nat) → Bool
  | _, [] => true
  | s, kv :: rest =>
    (!decide (AtThreshold s) || decide (growBytes s ≤ SIZE_MAX)) &&
      match hashSet_insert Alloc.ok s kv.1 kv.2 with
      | some (true, s1) => callocsFit s1 rest
      | _ => true

/-! ## Inputs with paths that do not fit `MAX_PATH` -/

/-- A root of 227 bytes ending in `'\\'`: 226 times `a`, then `'\\'`. -/
def longRoot : List Nat := List.replicate 226 97 ++ [92]

/-- A file system in which the root followed by `Data` is a directory listing
`scenarioListing`, and nothing else exists. -/
def scenarioAt (root path : List Nat) : Option DirEntry :=
  if path = root ++ dataName then some (DirEntry.dir dataName true scenarioListing)
  else none

/-- A file name of 252 bytes, 252 times `a`. -/
def longName : List Nat := List.replicate 252 97

/-- A listing with one regular file, named `longName`. -/
def longListing : Listing := Listing.cons (DirEntry.file longName) Listing.nil

/-- A file system in which `C:\Data` is a directory listing `longListing`, and
nothing else exists. -/
def longNameFs (path : List Nat) : Option DirEntry :=
  if path = rootC ++ dataName then some (DirEntry.dir dataName true longListing)
  else none

/-- A root of 256 bytes, 256 times `a`. -/
def root256 : List Nat := List.replicate 256 97

/-- A root of 254 bytes, 254 times `a`. -/
def root254 : List Nat := List.replicate 254 97

/-- A file system in which the root followed by `Data` is a directory whose
search lists nothing, and nothing else exists. -/
def emptyDataAt (root path : List Nat) : Option DirEntry :=
  if path = root ++ dataName then some (DirEntry.dir dataName true Listing.nil)
  else none

mutual
/-- Every `cFileName` in the entry and below it is a C string without `'/'`, as
the file names a search reports are. -/
def entryNamesOk : DirEntry → Bool
  | DirEntry.file cFileName => decide (IsScanKey cFileName)
  | DirEntry.dir cFileName _ listing => decide (IsScanKey cFileName) && listingNamesOk listing
/-- Every `cFileName` in the listing and below it is a C string without `'/'`. -/
def listingNamesOk : Listing → Bool
  | Listing.nil => true
  | Listing.cons e rest => entryNamesOk e && listingNamesOk rest
end

/-! ## Byte-level facts -/

theorem hashChar_eq_normChar (c : Nat) : hashChar c = normChar c := by
  unfold hashChar normChar
  by_cases h : c = 47
  · subst h; decide
  · simp [h]

theorem cmpChar_eq_normChar (c : Nat) : cmpChar c = normChar c := by
  unfold cmpChar normChar
  by_cases h : c = 47
  · subst h; decide
  · by_cases h2 : 65 ≤ c ∧ c ≤ 90
    · have : c + 32 ≠ 47 := by omega
      simp [h, h2, this]
    · simp [h, h2]

theorem normChar_idem (c : Nat) : normChar (normChar c) = normChar c := by
  unfold normChar
  split_ifs <;> omega

theorem normChar_pos {c : Nat} (h : 0 < c) : 0 < normChar c := by
  unfold normChar; split_ifs <;> omega

theorem normChar_lt {c : Nat} (h : c < 256) : normChar c < 256 := by
  unfold normChar; split_ifs <;> omega

theorem normalizePath_eq_map (p : List Nat) : normalizePath p = p.map normChar := by
  induction p with
  | nil => rfl
  | cons c p ih => simp [normalizePath, ih]

theorem normalizePath_idem (p : List Nat) :
    normalizePath (normalizePath p) = normalizePath p := by
  induction p with
  | nil => rfl
  | cons c p ih => simp [normalizePath, ih, normChar_idem]

theorem isCStr_cons {c : Nat} {s : List Nat} :
    IsCStr (c :: s) ↔ (0 < c ∧ c < 256) ∧ IsCStr s := by
  simp [IsCStr]

theorem isCStr_normalizePath {p : List Nat} (h : IsCStr p) : IsCStr (normalizePath p) := by
  induction p with
  | nil => simpa [normalizePath] using h
  | cons c p ih =>
    rw [isCStr_cons] at h
    simp only [normalizePath]
    rw [isCStr_cons]
    exact ⟨⟨normChar_pos h.1.1, normChar_lt h.1.2⟩, ih h.2⟩

theorem computeHashLoop_normalize (h : Nat) (p : List Nat) :
    computeHashLoop h (normalizePath p) = computeHashLoop h p := by
  induction p generalizing h with
  | nil => rfl
  | cons c p ih =>
    simp only [normalizePath, computeHashLoop, hashChar_eq_normChar, normChar_idem, ih]

theorem computeHash_normalize (p : List Nat) :
    computeHash (normalizePath p) = computeHash p :=
  computeHashLoop_normalize 5381 p

theorem computeHash_congr {p q : List Nat} (h : normalizePath p = normalizePath q) :
    computeHash p = computeHash q := by
  rw [← computeHash_normalize p, ← computeHash_normalize q, h]

theorem pathcmp_eq_zero_iff {a b : List Nat} (ha : IsCStr a) (hb : IsCStr b) :
    pathcmp a b = 0 ↔ normalizePath a = normalizePath b := by
  induction a generalizing b with
  | nil =>
    cases b with
    | nil => simp [pathcmp, normalizePath]
    | cons cb b =>
      have := (isCStr_cons.1 hb).1.1
      simp only [pathcmp, normalizePath]
      constructor
      · intro h; omega
      · intro h; simp at h
  | cons ca a ih =>
    cases b with
    | nil =>
      have := (isCStr_cons.1 ha).1.1
      simp only [pathcmp, normalizePath]
      constructor
      · intro h; omega
      · intro h; simp at h
    | cons cb b =>
      simp only [pathcmp, normalizePath, cmpChar_eq_normChar]
      by_cases hc : normChar ca = normChar cb
      · simp [hc, ih (isCStr_cons.1 ha).2 (isCStr_cons.1 hb).2]
      · simp only [ne_eq, hc, not_false_eq_true, if_true, List.cons.injEq, false_and, iff_false]
        omega

/-- The result of `pathcmp stored key` being zero depends on `key` only through
its normal form. -/
theorem pathcmp_zero_congr (a : List Nat) {p q : List Nat} (hp : IsCStr p) (hq : IsCStr q)
    (h : normalizePath p = normalizePath q) : (pathcmp a p = 0 ↔ pathcmp a q = 0) := by
  induction a generalizing p q with
  | nil =>
    cases p with
    | nil => cases q with
      | nil => rfl
      | cons cq q => simp [normalizePath] at h
    | cons cp p => cases q with
      | nil => simp [normalizePath] at h
      | cons cq q =>
        have := (isCStr_cons.1 hp).1.1
        have := (isCStr_cons.1 hq).1.1
        simp only [pathcmp]
        constructor <;> intro h' <;> omega
  | cons ca a ih =>
    cases p with
    | nil => cases q with
      | nil => rfl
      | cons cq q => simp [normalizePath] at h
    | cons cp p => cases q with
      | nil => simp [normalizePath] at h
      | cons cq q =>
        simp only [normalizePath, List.cons.injEq] at h
        simp only [pathcmp, cmpChar_eq_normChar, h.1]
        by_cases hc : normChar ca = normChar cq
        · simp [hc, ih (isCStr_cons.1 hp).2 (isCStr_cons.1 hq).2 h.2]
        · simp [hc]

theorem tolowerC_pos {c : Nat} (h : 0 < c) : 0 < tolowerC c := by
  unfold tolowerC; split_ifs <;> omega

theorem stricmp_eq_zero_iff {a b : List Nat} (ha : IsCStr a) (hb : IsCStr b) :
    _stricmp a b = 0 ↔ a.map tolowerC = b.map tolowerC := by
  induction a generalizing b with
  | nil =>
    cases b with
    | nil => simp [_stricmp]
    | cons cb b =>
      have := tolowerC_pos (isCStr_cons.1 hb).1.1
      simp only [_stricmp]
      constructor
      · intro h; omega
      · intro h; simp at h
  | cons ca a ih =>
    cases b with
    | nil =>
      have := tolowerC_pos (isCStr_cons.1 ha).1.1
      simp only [_stricmp]
      constructor
      · intro h; omega
      · intro h; simp at h
    | cons cb b =>
      simp only [_stricmp, List.map_cons, List.cons.injEq]
      by_cases hc : tolowerC ca = tolowerC cb
      · simp [hc, ih (isCStr_cons.1 ha).2 (isCStr_cons.1 hb).2]
      · simp only [ne_eq, hc, not_false_eq_true, if_true, false_and, iff_false]
        omega

theorem normChar_tolowerC (c : Nat) : normChar (tolowerC c) = normChar c := by
  unfold normChar tolowerC
  split_ifs <;> omega

theorem tolowerC_eq_normChar {c : Nat} (h : c ≠ 47) : tolowerC c = normChar c := by
  unfold normChar tolowerC; simp [h]

/-- When `_stricmp` reports equality the two strings have the same normal form. -/
theorem normalize_eq_of_stricmp {a b : List Nat} (ha : IsCStr a) (hb : IsCStr b)
    (h : _stricmp a b = 0) : normalizePath a = normalizePath b := by
  rw [stricmp_eq_zero_iff ha hb] at h
  have h2 := congrArg (List.map normChar) h
  simpa [normalizePath_eq_map, List.map_map, Function.comp_def, normChar_tolowerC] using h2

/-- For a key without `'/'`, `_stricmp` against a normalized stored key agrees with
normalized equality. -/
theorem stricmp_zero_of_normalize {a b : List Nat} (ha : IsCStr a) (hb : IsCStr b)
    (hna : 47 ∉ a) (hnb : 47 ∉ b) (h : normalizePath a = normalizePath b) :
    _stricmp a b = 0 := by
  rw [stricmp_eq_zero_iff ha hb]
  have e1 : a.map tolowerC = a.map normChar :=
    List.map_congr_left fun c hc => tolowerC_eq_normChar (fun h' => hna (h' ▸ hc))
  have e2 : b.map tolowerC = b.map normChar :=
    List.map_congr_left fun c hc => tolowerC_eq_normChar (fun h' => hnb (h' ▸ hc))
  rw [e1, e2, ← normalizePath_eq_map, ← normalizePath_eq_map, h]

theorem not_mem_47_normalizePath (p : List Nat) : 47 ∉ normalizePath p := by
  rw [normalizePath_eq_map]
  intro h
  obtain ⟨c, -, hc⟩ := List.mem_map.1 h
  unfold normChar at hc
  split_ifs at hc <;> omega

theorem u32_lt (n : Nat) : u32 n < 4294967296 := Nat.mod_lt _ (by decide)

theorem computeHashLoop_lt {h : Nat} (hh : h < 4294967296) (p : List Nat) :
    computeHashLoop h p < 4294967296 := by
  induction p generalizing h with
  | nil => exact hh
  | cons c p ih => exact ih (u32_lt _)

theorem computeHash_lt (p : List Nat) : computeHash p < 4294967296 :=
  computeHashLoop_lt (by decide) p

/-! ## Masks and probe positions -/

theorem powCap_pos {cap : Nat} (h : PowCap cap) : 0 < cap := by
  obtain ⟨e, -, rfl⟩ := h
  exact Nat.pos_pow_of_pos e (by decide)

theorem powCap_le {cap : Nat} (h : PowCap cap) : cap ≤ 2147483648 := by
  obtain ⟨e, he, rfl⟩ := h
  calc 2 ^ e ≤ 2 ^ 31 := Nat.pow_le_pow_right (by decide) he
    _ = 2147483648 := by norm_num

theorem maskOf_pow {cap : Nat} (h : PowCap cap) : maskOf cap = cap - 1 := by
  have h1 := powCap_pos h
  have h2 := powCap_le h
  unfold maskOf u32
  omega

theorem land_maskOf {cap : Nat} (h : PowCap cap) (x : Nat) : x &&& maskOf cap = x % cap := by
  rw [maskOf_pow h]
  obtain ⟨e, -, rfl⟩ := h
  exact Nat.and_pow_two_sub_one_eq_mod x e

theorem next_slot {cap : Nat} (h : PowCap cap) (slot : Nat) :
    u32 (slot + 1) &&& maskOf cap = (slot + 1) % cap := by
  rw [land_maskOf h]
  obtain ⟨e, he, rfl⟩ := h
  unfold u32
  have : (2:Nat) ^ e ∣ 4294967296 := by
    have : (4294967296 : Nat) = 2 ^ 32 := by norm_num
    rw [this]
    exact Nat.pow_dvd_pow 2 (by omega)
  exact Nat.mod_mod_of_dvd _ this

theorem pos_zero {cap a : Nat} (h : a < cap) : pos cap a 0 = a := by
  simp [pos, Nat.mod_eq_of_lt h]

theorem pos_lt {cap : Nat} (h : 0 < cap) (a d : Nat) : pos cap a d < cap :=
  Nat.mod_lt _ h

theorem pos_succ (cap a d : Nat) : pos cap ((a + 1) % cap) d = pos cap a (d + 1) := by
  unfold pos
  rw [Nat.mod_add_mod]
  congr 1
  omega

/-- Every slot is reached from every start within `cap` steps. -/
theorem pos_reach {cap a j : Nat} (ha : a < cap) (hj : j < cap) :
    ∃ d, d < cap ∧ pos cap a d = j := by
  refine ⟨(j + cap - a) % cap, Nat.mod_lt _ (by omega), ?_⟩
  unfold pos
  rw [Nat.add_mod_mod]
  have : a + (j + cap - a) = j + cap := by omega
  rw [this, Nat.add_mod_right, Nat.mod_eq_of_lt hj]

/-! ## The probe loop -/

/-- What a finished probe tells: the slots passed were occupied and did not stop
the loop, and the final slot is empty or stops it. -/
theorem probe_some {stop : HashEntry → Bool} {t : Table} {cap : Nat} (hc : PowCap cap) :
    ∀ (f a i : Nat) (r : Option HashEntry), a < cap →
      probe stop t (maskOf cap) f a = some (i, r) →
      ∃ d, d < f ∧ i = pos cap a d ∧
        (∀ d2, d2 < d → ∃ e2, t[pos cap a d2]? = some (some e2) ∧ stop e2 = false) ∧
        t[i]? = some r ∧ (∀ e, r = some e → stop e = true) := by
  intro f
  induction f with
  | zero => intro a i r _ h; simp [probe] at h
  | succ f ih =>
    intro a i r ha h
    rw [probe] at h
    cases hta : t[a]? with
    | none => rw [hta] at h; simp at h
    | some x =>
      rw [hta] at h
      cases x with
      | none =>
        simp only [Option.some.injEq, Prod.mk.injEq] at h
        obtain ⟨rfl, rfl⟩ := h
        exact ⟨0, Nat.succ_pos _, (pos_zero ha).symm, by intro d2 hd; omega, hta, by simp⟩
      | some e =>
        simp only at h
        by_cases hs : stop e = true
        · rw [if_pos hs] at h
          simp only [Option.some.injEq, Prod.mk.injEq] at h
          obtain ⟨rfl, rfl⟩ := h
          refine ⟨0, Nat.succ_pos _, (pos_zero ha).symm, by intro d2 hd; omega, hta, ?_⟩
          intro e' he'
          cases he'
          exact hs
        · rw [if_neg hs, next_slot hc] at h
          obtain ⟨d, hd, hi, hall, hti, hr⟩ :=
            ih ((a + 1) % cap) i r (Nat.mod_lt _ (powCap_pos hc)) h
          refine ⟨d + 1, by omega, by rw [hi, pos_succ], ?_, hti, hr⟩
          intro d2 hd2
          cases d2 with
          | zero =>
            rw [pos_zero ha]
            exact ⟨e, hta, by simpa using hs⟩
          | succ d2 =>
            rw [← pos_succ]
            exact hall d2 (by omega)

/-- A probe ends at the first slot that is empty or stops the loop. -/
theorem probe_eq {stop : HashEntry → Bool} {t : Table} {cap : Nat} (hc : PowCap cap) :
    ∀ (f a d : Nat) (r : Option HashEntry), a < cap → d < f →
      (∀ d2, d2 < d → ∃ e2, t[pos cap a d2]? = some (some e2) ∧ stop e2 = false) →
      t[pos cap a d]? = some r → (∀ e, r = some e → stop e = true) →
      probe stop t (maskOf cap) f a = some (pos cap a d, r) := by
  intro f
  induction f with
  | zero => intro a d r _ h; omega
  | succ f ih =>
    intro a d r ha hd hall htd hr
    rw [probe]
    cases d with
    | zero =>
      rw [pos_zero ha] at htd ⊢
      rw [htd]
      cases r with
      | none => rfl
      | some e => simp [hr e rfl]
    | succ d =>
      obtain ⟨e0, h0, hs0⟩ := hall 0 (Nat.succ_pos _)
      rw [pos_zero ha] at h0
      rw [h0]
      simp only [hs0, Bool.false_eq_true, if_false]
      rw [next_slot hc, ← pos_succ]
      apply ih _ d r (Nat.mod_lt _ (powCap_pos hc)) (by omega)
      · intro d2 hd2
        rw [pos_succ]
        exact hall (d2 + 1) (by omega)
      · rw [pos_succ]; exact htd
      · exact hr

/-- A probe over a table with an empty slot within reach ends. -/
theorem probe_total {stop : HashEntry → Bool} {t : Table} {cap : Nat} (hc : PowCap cap)
    (hlen : t.length = cap) :
    ∀ (f a : Nat), a < cap → (∃ d, d < f ∧ t[pos cap a d]? = some none) →
      ∃ r, probe stop t (maskOf cap) f a = some r := by
  intro f
  induction f with
  | zero => intro a _ h; obtain ⟨d, hd, -⟩ := h; omega
  | succ f ih =>
    intro a ha h
    obtain ⟨d, hd, hempty⟩ := h
    rw [probe]
    have hlt : a < t.length := by omega
    rw [List.getElem?_eq_getElem hlt]
    cases hx : t[a] with
    | none => exact ⟨_, rfl⟩
    | some e =>
      simp only
      by_cases hs : stop e = true
      · exact ⟨_, by rw [if_pos hs]⟩
      · rw [if_neg hs, next_slot hc]
        apply ih _ (Nat.mod_lt _ (powCap_pos hc))
        cases d with
        | zero =>
          rw [pos_zero ha, List.getElem?_eq_getElem hlt, hx] at hempty
          simp at hempty
        | succ d =>
          exact ⟨d, by omega, by rw [pos_succ]; exact hempty⟩

/-- With an empty slot somewhere, a probe with fuel `cap` ends. -/
theorem probe_total_of_empty (stop : HashEntry → Bool) {t : Table} {cap : Nat}
    (hc : PowCap cap) (hlen : t.length = cap) {a j : Nat} (ha : a < cap)
    (hj : t[j]? = some none) : ∃ r, probe stop t (maskOf cap) cap a = some r := by
  have hjlt : j < cap := by
    rw [← hlen]
    by_contra hcon
    rw [List.getElem?_eq_none (by omega)] at hj
    simp at hj
  obtain ⟨d, hd, hp⟩ := pos_reach ha hjlt
  exact probe_total hc hlen cap a ha ⟨d, hd, by rw [hp]; exact hj⟩

/-! ## Occupied entries of a slot array -/

theorem mem_entries_iff {t : Table} {e : HashEntry} :
    e ∈ entries t ↔ ∃ i : Nat, t[i]? = some (some e) := by
  unfold entries
  rw [List.mem_filterMap]
  constructor
  · rintro ⟨x, hx, hxe⟩
    simp only [id] at hxe
    subst hxe
    obtain ⟨i, hi⟩ := List.mem_iff_getElem?.1 hx
    exact ⟨i, hi⟩
  · rintro ⟨i, hi⟩
    exact ⟨some e, List.mem_iff_getElem?.2 ⟨i, hi⟩, rfl⟩

theorem entries_replicate (n : Nat) : entries (List.replicate n none) = [] := by
  unfold entries
  induction n with
  | zero => rfl
  | succ n ih => simp [List.replicate_succ]

theorem entries_length_le (t : Table) : (entries t).length ≤ t.length := by
  unfold entries
  exact List.length_filterMap_le _ _

theorem exists_empty_of_lt : ∀ (t : Table), (entries t).length < t.length →
    ∃ j : Nat, t[j]? = some none := by
  intro t
  induction t with
  | nil => intro h; simp at h
  | cons x t ih =>
    intro h
    cases x with
    | none => exact ⟨0, by simp⟩
    | some e =>
      have h2 : (entries t).length < t.length := by
        simp only [entries, List.filterMap_cons, id, List.length_cons] at h
        unfold entries
        omega
      obtain ⟨j, hj⟩ := ih h2
      exact ⟨j + 1, by simpa using hj⟩

theorem entries_set_perm : ∀ (t : Table) (i : Nat) (e : HashEntry), t[i]? = some none →
    (entries (t.set i (some e))).Perm (e :: entries t) := by
  intro t
  induction t with
  | nil => intro i e h; simp at h
  | cons x t ih =>
    intro i e h
    cases i with
    | zero =>
      simp only [List.getElem?_cons_zero, Option.some.injEq] at h
      subst h
      simp [entries]
    | succ i =>
      simp only [List.getElem?_cons_succ] at h
      have := ih i e h
      cases x with
      | none => simpa [entries] using this
      | some e0 =>
        simp only [entries, List.set_cons_succ, List.filterMap_cons, id] at this ⊢
        exact (List.Perm.cons e0 this).trans (List.Perm.swap e e0 _)

theorem occupied_set {t : Table} {i x : Nat} {en e2 : HashEntry}
    (h : t[x]? = some (some e2)) : ∃ e3, (t.set i (some en))[x]? = some (some e3) := by
  rw [List.getElem?_set]
  by_cases hix : i = x
  · subst hix
    have hlt : i < t.length := by
      by_contra hcon
      rw [List.getElem?_eq_none (by omega)] at h
      simp at h
    exact ⟨en, by simp [hlt]⟩
  · exact ⟨e2, by simp [hix, h]⟩

/-- Writing a well-formed entry into the empty slot at which its probe ended
keeps the slot array well-formed. -/
theorem tableOk_set {t : Table} {cap : Nat} (h : TableOk t cap) {en : HashEntry} {i d : Nat}
    (hkey : IsCStr en.key ∧ normalizePath en.key = en.key ∧ en.hash = computeHash en.key)
    (hi : pos cap (en.hash % cap) d = i)
    (hocc : ∀ d2, d2 < d → ∃ e2, t[pos cap (en.hash % cap) d2]? = some (some e2))
    (hempty : t[i]? = some none) : TableOk (t.set i (some en)) cap := by
  refine ⟨by rw [List.length_set]; exact h.len, h.pow, ?_, ?_⟩
  · intro e he
    have := (entries_set_perm t i en hempty).mem_iff.1 he
    rcases List.mem_cons.1 this with rfl | h2
    · exact hkey
    · exact h.keys e h2
  · intro j e hj
    rw [List.getElem?_set] at hj
    by_cases hij : i = j
    · subst hij
      have hlt : i < t.length := by
        by_contra hcon
        rw [List.getElem?_eq_none (by omega)] at hempty
        simp at hempty
      simp only [if_true, hlt, Option.some.injEq] at hj
      subst hj
      refine ⟨d, hi, ?_⟩
      intro d2 hd2
      obtain ⟨e2, he2⟩ := hocc d2 hd2
      exact occupied_set he2
    · simp only [hij, if_false] at hj
      obtain ⟨d', hd', hocc'⟩ := h.chain j e hj
      refine ⟨d', hd', ?_⟩
      intro d2 hd2
      obtain ⟨e2, he2⟩ := hocc' d2 hd2
      exact occupied_set he2

theorem tableOk_replicate {cap : Nat} (hc : PowCap cap) :
    TableOk (List.replicate cap none) cap := by
  refine ⟨List.length_replicate _ _, hc, ?_, ?_⟩
  · intro e he
    rw [entries_replicate] at he
    simp at he
  · intro i e hi
    have : e ∈ entries (List.replicate cap none) := mem_entries_iff.2 ⟨i, hi⟩
    rw [entries_replicate] at this
    simp at this

/-! ## Growth -/

theorem filterMap_range_join : ∀ (l : Table),
    (List.range l.length).filterMap (fun i => (l[i]?).join) = entries l := by
  intro l
  induction l with
  | nil => rfl
  | cons x l ih =>
    rw [List.length_cons, List.range_succ_eq_map, List.filterMap_cons]
    rw [List.filterMap_map]
    have h1 : ((fun i => ((x :: l)[i]?).join) ∘ Nat.succ) = fun i => (l[i]?).join := by
      funext i
      simp
    rw [h1, ih]
    cases x with
    | none => simp [entries]
    | some e => simp [entries]

/-- The copy loop of `hashSet_grow`: from a well-formed partial new table with
room for the remaining entries it ends with a well-formed table holding the old
content and the copied entries. -/
theorem rehash_spec (old : Table) (newCap : Nat)
    (hkeys : ∀ e ∈ entries old,
      IsCStr e.key ∧ normalizePath e.key = e.key ∧ e.hash = computeHash e.key) :
    ∀ (is : List Nat) (nt : Table), (∀ i ∈ is, i < old.length) → TableOk nt newCap →
      (entries nt).length + (is.filterMap (fun i => (old[i]?).join)).length < newCap →
      ∃ nt2, rehash old newCap is nt = some nt2 ∧ TableOk nt2 newCap ∧
        (entries nt2).Perm (is.filterMap (fun i => (old[i]?).join) ++ entries nt) := by
  intro is
  induction is with
  | nil =>
    intro nt _ hok _
    exact ⟨nt, rfl, hok, by simp⟩
  | cons i rest ih =>
    intro nt hlt hok hroom
    have hi : i < old.length := hlt i (List.mem_cons_self _ _)
    have hrest : ∀ j ∈ rest, j < old.length := fun j hj => hlt j (List.mem_cons_of_mem _ hj)
    rw [rehash, List.getElem?_eq_getElem hi]
    cases hx : old[i] with
    | none =>
      have hfm : (i :: rest).filterMap (fun i => (old[i]?).join)
          = rest.filterMap (fun i => (old[i]?).join) := by
        rw [List.filterMap_cons, List.getElem?_eq_getElem hi, hx]
        rfl
      rw [hfm] at hroom ⊢
      exact ih nt hrest hok hroom
    | some e =>
      have hfm : (i :: rest).filterMap (fun i => (old[i]?).join)
          = e :: rest.filterMap (fun i => (old[i]?).join) := by
        rw [List.filterMap_cons, List.getElem?_eq_getElem hi, hx]
        rfl
      rw [hfm] at hroom ⊢
      simp only [List.length_cons] at hroom
      have hemp : ∃ j : Nat, nt[j]? = some none :=
        exists_empty_of_lt nt (by rw [hok.len]; omega)
      obtain ⟨j, hj⟩ := hemp
      have hpos := powCap_pos hok.pow
      obtain ⟨⟨slot, r⟩, hpr⟩ :=
        probe_total_of_empty (fun _ => false) hok.pow hok.len
          (Nat.mod_lt e.hash hpos) hj
      simp only [land_maskOf hok.pow, hpr]
      obtain ⟨d, -, hslot, hocc, hts, hr⟩ :=
        probe_some hok.pow newCap _ slot r (Nat.mod_lt e.hash hpos) hpr
      have hrn : r = none := by
        cases r with
        | none => rfl
        | some e' => simpa using hr e' rfl
      subst hrn
      have he : e ∈ entries old :=
        mem_entries_iff.2 ⟨i, by rw [List.getElem?_eq_getElem hi, hx]⟩
      have hok2 : TableOk (nt.set slot (some e)) newCap :=
        tableOk_set hok (hkeys e he) hslot.symm
          (fun d2 hd2 => (hocc d2 hd2).imp fun _ h => h.1) hts
      have hperm := entries_set_perm nt slot e hts
      obtain ⟨nt2, hre, hok3, hp3⟩ := ih (nt.set slot (some e)) hrest hok2
        (by rw [hperm.length_eq]; simp only [List.length_cons]; omega)
      refine ⟨nt2, hre, hok3, ?_⟩
      refine hp3.trans ?_
      refine (List.Perm.append_left _ hperm).trans ?_
      exact List.perm_middle

/-! ## Probing a well-formed table -/

theorem populated_room {s : Globals} {t : Table} (h : Populated s t) :
    (entries t).length < s.g_hashCapacity := by
  have h1 := h.big
  have h2 := h.load
  rw [← h.cnt]
  omega

/-- A probe of a well-formed table with a free slot ends; when it ends at an
empty slot, no entry with the same home slot would have stopped it. -/
theorem probe_table {t : Table} {cap : Nat} (hok : TableOk t cap)
    (hroom : (entries t).length < cap) (stop : HashEntry → Bool) (h : Nat) :
    ∃ slot r, probe stop t (maskOf cap) cap (h &&& maskOf cap) = some (slot, r) ∧
      t[slot]? = some r ∧ (∀ e, r = some e → stop e = true) ∧
      (∃ d, pos cap (h % cap) d = slot ∧
        ∀ d2, d2 < d → ∃ e2, t[pos cap (h % cap) d2]? = some (some e2) ∧ stop e2 = false) ∧
      (r = none → ∀ e ∈ entries t, e.hash % cap = h % cap → stop e = false) := by
  have hpos := powCap_pos hok.pow
  obtain ⟨j, hj⟩ := exists_empty_of_lt t (by rw [hok.len]; exact hroom)
  obtain ⟨⟨slot, r⟩, hpr⟩ :=
    probe_total_of_empty stop hok.pow hok.len (Nat.mod_lt h hpos) hj
  obtain ⟨d, -, hslot, hocc, hts, hr⟩ :=
    probe_some hok.pow cap _ slot r (Nat.mod_lt h hpos) hpr
  refine ⟨slot, r, by rw [land_maskOf hok.pow]; exact hpr, hts, hr, ⟨d, hslot.symm, hocc⟩, ?_⟩
  intro hrn e he hhome
  subst hrn
  obtain ⟨i, hi⟩ := mem_entries_iff.1 he
  obtain ⟨d0, hd0, hocc0⟩ := hok.chain i e hi
  rw [hhome] at hd0 hocc0
  rcases Nat.lt_trichotomy d0 d with hlt | heq | hgt
  · obtain ⟨e2, he2, hs2⟩ := hocc d0 hlt
    rw [hd0, hi] at he2
    simp only [Option.some.injEq] at he2
    subst he2
    exact hs2
  · subst heq
    rw [hslot, hd0, hi] at hts
    simp at hts
  · obtain ⟨e2, he2⟩ := hocc0 d hgt
    rw [← hslot, hts] at he2
    simp at he2

/-! ## `hashSet_grow` -/

theorem grow_fail (s : Globals) : hashSet_grow false s = some (false, s) := by
  simp [hashSet_grow]

theorem pow_double {cap : Nat} (h : PowCap cap) (hlt : cap < 2147483648) :
    PowCap (cap * 2) := by
  obtain ⟨e, he, rfl⟩ := h
  have he2 : e ≠ 31 := by
    intro h31
    subst h31
    norm_num at hlt
  exact ⟨e + 1, by omega, by rw [Nat.pow_succ]⟩

/-- Growth of a populated table below `2^31` slots: capacity doubles, the count
is kept and the new table holds the same entries. -/
theorem grow_populated {s : Globals} {t : Table} (h : Populated s t)
    (hlt : s.g_hashCapacity < 2147483648) :
    ∃ nt, hashSet_grow true s
        = some (true, { s with g_hashTable := some nt,
                               g_hashCapacity := s.g_hashCapacity * 2 }) ∧
      Populated { s with g_hashTable := some nt, g_hashCapacity := s.g_hashCapacity * 2 } nt ∧
      (entries nt).Perm (entries t) := by
  have hbig := h.big
  have hne : s.g_hashCapacity ≠ 0 := by omega
  have hu : u32 (s.g_hashCapacity * 2) = s.g_hashCapacity * 2 := by
    unfold u32; omega
  have hpc := pow_double h.ok.pow hlt
  have hroom := populated_room h
  obtain ⟨nt, hre, hok, hperm⟩ :=
    rehash_spec t (s.g_hashCapacity * 2) h.ok.keys
      (List.range t.length) (List.replicate (s.g_hashCapacity * 2) none)
      (fun i hi => List.mem_range.1 hi) (tableOk_replicate hpc)
      (by rw [filterMap_range_join, entries_replicate]; simp only [List.length_nil]; omega)
  rw [filterMap_range_join, entries_replicate, List.append_nil] at hperm
  rw [h.ok.len] at hre
  refine ⟨nt, ?_, ⟨rfl, hok, by simp only; omega, ?_, ?_⟩, hperm⟩
  · unfold hashSet_grow
    simp only [hne, ne_eq, not_false_eq_true, if_true, hu, Bool.not_true, Bool.false_eq_true,
      if_false, h.tbl, Option.getD_some]
    rw [hre]
  · simp only; rw [hperm.length_eq]; exact h.cnt
  · have := h.load
    simp only
    omega

/-- The first growth: from no table (or a zero-slot one) to 1024 empty slots. -/
theorem grow_empty {s : Globals} (ht : s.g_hashTable = none ∨ s.g_hashTable = some [])
    (hcap : s.g_hashCapacity = 0) :
    hashSet_grow true s
      = some (true, { s with g_hashTable := some (List.replicate 1024 none),
                             g_hashCapacity := 1024 }) := by
  unfold hashSet_grow
  rcases ht with ht | ht <;>
    simp only [hcap, ht, ne_eq, not_true_eq_false, if_false, Bool.not_true, Bool.false_eq_true,
      Option.getD_none, Option.getD_some, List.range_zero, rehash, HASH_SET_INITIAL_SIZE]

theorem rehash_zero {old : Table} : ∀ (is : List Nat) (nt2 : Table),
    rehash old 0 is [] = some nt2 → nt2 = [] ∧ ∀ i ∈ is, old[i]? = some none := by
  intro is
  induction is with
  | nil => intro nt2 h; simp only [rehash, Option.some.injEq] at h; simp [h]
  | cons i rest ih =>
    intro nt2 h
    rw [rehash] at h
    cases hx : old[i]? with
    | none => rw [hx] at h; simp at h
    | some x =>
      rw [hx] at h
      cases x with
      | none =>
        simp only at h
        obtain ⟨h1, h2⟩ := ih nt2 h
        refine ⟨h1, ?_⟩
        intro j hj
        rcases List.mem_cons.1 hj with rfl | hj
        · exact hx
        · exact h2 j hj
      | some e => simp [probe] at h

/-- Growth at `2^31` slots wraps the new capacity to zero: the result is
defined only for a table without entries, and is the zero-slot table. -/
theorem grow_wrap {s s2 : Globals} {t : Table} {b : Bool} (h : Populated s t)
    (hcap : s.g_hashCapacity = 2147483648)
    (hg : hashSet_grow true s = some (b, s2)) :
    s2.g_hashTable = some [] ∧ s2.g_hashCapacity = 0 ∧ s2.g_hashCount = 0 := by
  unfold hashSet_grow at hg
  have hu : (if s.g_hashCapacity ≠ 0 then u32 (s.g_hashCapacity * 2)
      else HASH_SET_INITIAL_SIZE) = 0 := by
    rw [hcap]; decide
  simp only [hu, Bool.not_true, Bool.false_eq_true, if_false, h.tbl, Option.getD_some,
    List.replicate_zero] at hg
  cases hre : rehash t 0 (List.range s.g_hashCapacity) [] with
  | none => rw [hre] at hg; simp at hg
  | some nt2 =>
    rw [hre] at hg
    simp only [Option.some.injEq, Prod.mk.injEq] at hg
    obtain ⟨h1, h2⟩ := rehash_zero _ _ hre
    have hent : entries t = [] := by
      rw [← filterMap_range_join, h.ok.len]
      apply List.filterMap_eq_nil_iff.2
      intro i hi
      rw [h2 i hi]
      rfl
    obtain ⟨-, rfl⟩ := hg
    refine ⟨by simp [h1], rfl, ?_⟩
    simp only
    rw [h.cnt, hent]
    rfl

/-! ## `hashSet_insert` -/

theorem stopInsert_iff (key : List Nat) (e : HashEntry) :
    stopInsert key e = true ↔ (e.hash = computeHash key ∧ _stricmp e.key key = 0) := by
  simp [stopInsert]

theorem stopLookup_iff (key : List Nat) (e : HashEntry) :
    stopLookup key e = true ↔ (e.hash = computeHash key ∧ pathcmp e.key key = 0) := by
  simp [stopLookup]

/-- The three outcomes of the probe-and-store part of `hashSet_insert` on a
populated table whose load is below the threshold. -/
theorem insertAt_spec {s : Globals} {t : Table} (h : Populated s t)
    (hload : s.g_hashCount * 100 < s.g_hashCapacity * 70) (a : Alloc)
    (key diskPath : List Nat) (hk : IsCStr key) :
    (insertAt a s key diskPath = some (true, s) ∧
        ∃ e ∈ entries t, e.hash = computeHash key ∧ _stricmp e.key key = 0) ∨
    ((∀ e ∈ entries t, e.hash = computeHash key → _stricmp e.key key ≠ 0) ∧
      ((insertAt a s key diskPath = some (false, s) ∧
          (a.keyMalloc = false ∨ a.diskMalloc = false)) ∨
       (a.keyMalloc = true ∧ a.diskMalloc = true ∧
          ∃ slot : Nat, t[slot]? = some none ∧
            insertAt a s key diskPath = some (true,
              { s with
                g_hashTable :=
                  some (t.set slot (some ⟨normalizePath key, diskPath, computeHash key⟩)),
                g_hashCount := s.g_hashCount + 1 }) ∧
            Populated
              { s with
                g_hashTable :=
                  some (t.set slot (some ⟨normalizePath key, diskPath, computeHash key⟩)),
                g_hashCount := s.g_hashCount + 1 }
              (t.set slot (some ⟨normalizePath key, diskPath, computeHash key⟩)) ∧
            (entries (t.set slot (some ⟨normalizePath key, diskPath, computeHash key⟩))).Perm
              (⟨normalizePath key, diskPath, computeHash key⟩ :: entries t)))) := by
  have hroom := populated_room h
  obtain ⟨slot, r, hpr, hts, hr, ⟨d, hslot, hocc⟩, hnone⟩ :=
    probe_table h.ok hroom (stopInsert key) (computeHash key)
  cases r with
  | some e =>
    left
    refine ⟨?_, e, mem_entries_iff.2 ⟨slot, hts⟩, (stopInsert_iff _ _).1 (hr e rfl)⟩
    unfold insertAt
    simp only [h.tbl, hpr]
  | none =>
    right
    refine ⟨?_, ?_⟩
    · intro e he hh hcmp
      have := hnone rfl e he (by rw [hh])
      have h2 := (stopInsert_iff key e).2 ⟨hh, hcmp⟩
      rw [h2] at this
      exact Bool.noConfusion this
    · by_cases hkm : a.keyMalloc = true
      · by_cases hdm : a.diskMalloc = true
        · right
          refine ⟨hkm, hdm, slot, hts, ?_, ?_, entries_set_perm t slot _ hts⟩
          · have hcl := powCap_le h.ok.pow
            have hu : u32 (s.g_hashCount + 1) = s.g_hashCount + 1 := by
              rw [h.cnt]; unfold u32; omega
            unfold insertAt
            simp only [h.tbl, hpr, hkm, hdm, Bool.not_true, Bool.false_eq_true, if_false, hu]
          · refine ⟨rfl, ?_, h.big, ?_, ?_⟩
            · exact tableOk_set h.ok
                ⟨isCStr_normalizePath hk, normalizePath_idem key,
                  (computeHash_normalize key).symm⟩ hslot
                (fun d2 hd2 => (hocc d2 hd2).imp fun _ h => h.1) hts
            · simp only
              rw [(entries_set_perm t slot _ hts).length_eq, List.length_cons, h.cnt]
            · simp only
              omega
        · left
          refine ⟨?_, Or.inr (by simpa using hdm)⟩
          unfold insertAt
          simp only [h.tbl, hpr, hkm, Bool.not_true, Bool.false_eq_true, if_false]
          simp [hdm]
      · left
        refine ⟨?_, Or.inl (by simpa using hkm)⟩
        unfold insertAt
        simp only [h.tbl, hpr]
        simp [hkm]

theorem insertAt_inv {s s2 : Globals} {t : Table} (h : Populated s t)
    (hload : s.g_hashCount * 100 < s.g_hashCapacity * 70) {a : Alloc}
    {key diskPath : List Nat} (hk : IsCStr key) {b : Bool}
    (hi : insertAt a s key diskPath = some (b, s2)) : ∃ t2, Populated s2 t2 := by
  rcases insertAt_spec h hload a key diskPath hk with
    ⟨h1, -⟩ | ⟨-, ⟨h1, -⟩ | ⟨-, -, slot, -, h1, h2, -⟩⟩
  · rw [h1] at hi
    simp only [Option.some.injEq, Prod.mk.injEq] at hi
    exact ⟨t, hi.2 ▸ h⟩
  · rw [h1] at hi
    simp only [Option.some.injEq, Prod.mk.injEq] at hi
    exact ⟨t, hi.2 ▸ h⟩
  · rw [h1] at hi
    simp only [Option.some.injEq, Prod.mk.injEq] at hi
    exact ⟨_, hi.2 ▸ h2⟩

/-- The 32-bit load test, when it does not ask for growth, really means that
the load is below 70 percent. -/
theorem load_test_false {cap count : Nat} (hp : PowCap cap)
    (hl : count * 100 < cap * 70 + 100)
    (ht : ¬ (u32 (count * 100) ≥ u32 (cap * HASH_SET_MAX_LOAD))) :
    count * 100 < cap * 70 := by
  obtain ⟨e, he, rfl⟩ := hp
  unfold u32 HASH_SET_MAX_LOAD at ht
  by_cases h25 : e ≤ 25
  · have h1 : 2 ^ e ≤ 2 ^ 25 := Nat.pow_le_pow_right (by decide) h25
    have h2 : (2:Nat) ^ 25 = 33554432 := by norm_num
    rw [h2] at h1
    generalize (2:Nat) ^ e = cap at *
    rw [Nat.mod_eq_of_lt (by omega), Nat.mod_eq_of_lt (by omega)] at ht
    omega
  · have h26 : 26 ≤ e := by omega
    interval_cases e <;> norm_num at hl ht ⊢ <;> omega

theorem populated_fresh_like {s : Globals}
    (hcnt : s.g_hashCount = 0) :
    Populated { s with g_hashTable := some (List.replicate 1024 none), g_hashCapacity := 1024 }
      (List.replicate 1024 none) := by
  refine ⟨rfl, tableOk_replicate ⟨10, by decide, by norm_num⟩, le_refl _, ?_, ?_⟩
  · simp only; rw [entries_replicate, hcnt]; rfl
  · simp only; rw [hcnt]; decide

theorem insertAt_zero_table {s : Globals} (a : Alloc) (key diskPath : List Nat)
    (ht : s.g_hashTable = some []) (hc : s.g_hashCapacity = 0) :
    insertAt a s key diskPath = none := by
  unfold insertAt
  simp only [ht, hc, probe]

theorem grow_inv {s s2 : Globals} (hinv : Inv s) {callocOk b : Bool}
    (hg : hashSet_grow callocOk s = some (b, s2)) : Inv s2 := by
  cases callocOk with
  | false =>
    rw [grow_fail] at hg
    simp only [Option.some.injEq, Prod.mk.injEq] at hg
    exact hg.2 ▸ hinv
  | true =>
    rcases hinv with ⟨ht, hc, hn⟩ | ⟨t, hp⟩
    · rw [grow_empty ht hc] at hg
      simp only [Option.some.injEq, Prod.mk.injEq] at hg
      exact hg.2 ▸ Or.inr ⟨_, populated_fresh_like hn⟩
    · by_cases hlt : s.g_hashCapacity < 2147483648
      · obtain ⟨nt, h1, h2, -⟩ := grow_populated hp hlt
        rw [h1] at hg
        simp only [Option.some.injEq, Prod.mk.injEq] at hg
        exact hg.2 ▸ Or.inr ⟨nt, h2⟩
      · have hcap : s.g_hashCapacity = 2147483648 := by
          have := powCap_le hp.ok.pow
          omega
        obtain ⟨h1, h2, h3⟩ := grow_wrap hp hcap hg
        exact Or.inl ⟨Or.inr h1, h2, h3⟩

theorem insert_inv {s s2 : Globals} (hinv : Inv s) {a : Alloc} {key diskPath : List Nat}
    (hk : IsCStr key) {b : Bool} (hi : hashSet_insert a s key diskPath = some (b, s2)) :
    Inv s2 := by
  unfold hashSet_insert at hi
  by_cases htest : u32 (s.g_hashCount * 100) ≥ u32 (s.g_hashCapacity * HASH_SET_MAX_LOAD)
  · rw [if_pos htest] at hi
    cases hg : hashSet_grow a.calloc s with
    | none => rw [hg] at hi; simp at hi
    | some r =>
      obtain ⟨b1, s1⟩ := r
      rw [hg] at hi
      have hinv1 : Inv s1 := grow_inv hinv hg
      cases b1 with
      | false =>
        simp only [Option.some.injEq, Prod.mk.injEq] at hi
        exact hi.2 ▸ hinv1
      | true =>
        simp only at hi
        cases hac : a.calloc with
        | false =>
          rw [hac, grow_fail] at hg
          simp at hg
        | true =>
          rw [hac] at hg
          rcases hinv with ⟨ht, hc, hn⟩ | ⟨t, hp⟩
          · rw [grow_empty ht hc] at hg
            simp only [Option.some.injEq, Prod.mk.injEq, true_and] at hg
            have hp1 := populated_fresh_like (s := s) hn
            subst hg
            obtain ⟨t2, hp2⟩ := insertAt_inv hp1
              (by show s.g_hashCount * 100 < 1024 * 70; rw [hn]; decide) hk hi
            exact Or.inr ⟨t2, hp2⟩
          · by_cases hlt : s.g_hashCapacity < 2147483648
            · obtain ⟨nt, h1, h2, -⟩ := grow_populated hp hlt
              rw [h1] at hg
              simp only [Option.some.injEq, Prod.mk.injEq, true_and] at hg
              subst hg
              have hload := hp.load
              have hbig := hp.big
              obtain ⟨t2, hp2⟩ := insertAt_inv h2
                (by show s.g_hashCount * 100 < s.g_hashCapacity * 2 * 70; omega) hk hi
              exact Or.inr ⟨t2, hp2⟩
            · have hcap : s.g_hashCapacity = 2147483648 := by
                have := powCap_le hp.ok.pow
                omega
              obtain ⟨h1, h2, -⟩ := grow_wrap hp hcap hg
              rw [insertAt_zero_table a key diskPath h1 h2] at hi
              simp at hi
  · rw [if_neg htest] at hi
    rcases hinv with ⟨-, hc, hn⟩ | ⟨t, hp⟩
    · exfalso
      apply htest
      rw [hc, hn]
      decide
    · have hload := load_test_false hp.ok.pow hp.load htest
      obtain ⟨t2, hp2⟩ := insertAt_inv hp hload hk hi
      exact Or.inr ⟨t2, hp2⟩

theorem inv_initial : Inv Globals.initial := Or.inl ⟨Or.inl rfl, rfl, rfl⟩

/-- Every reachable state satisfies the invariant. -/
theorem reachable_inv {s : Globals} (h : Reachable s) : Inv s := by
  induction h with
  | initial => exact inv_initial
  | wowDir n _ ih =>
    rcases ih with ⟨ht, hc, hn⟩ | ⟨t, hp⟩
    · exact Or.inl ⟨ht, hc, hn⟩
    · exact Or.inr ⟨t, ⟨hp.tbl, hp.ok, hp.big, hp.cnt, hp.load⟩⟩
  | grow _ hg ih => exact grow_inv ih hg
  | insert _ hk hi ih => exact insert_inv ih hk hi

/-! ## `hashSet_lookup` -/

theorem lookup_congr (s : Globals) {p q : List Nat} (hp : IsCStr p) (hq : IsCStr q)
    (h : normalizePath p = normalizePath q) : hashSet_lookup s p = hashSet_lookup s q := by
  have hstop : stopLookup p = stopLookup q := by
    funext e
    unfold stopLookup
    rw [computeHash_congr h]
    congr 1
    rw [Bool.eq_iff_iff]
    simpa using pathcmp_zero_congr e.key hp hq h
  unfold hashSet_lookup
  simp only [computeHash_congr h, hstop]

/-- On a populated table a lookup returns: the disk path of an entry whose key is
the normalized query, or not-found when the table has no such entry. -/
theorem lookup_populated {s : Globals} {t : Table} (h : Populated s t) {q : List Nat}
    (hq : IsCStr q) :
    (∃ e ∈ entries t, e.key = normalizePath q ∧
        hashSet_lookup s q = some (some e.diskPath)) ∨
    ((∀ e ∈ entries t, e.key ≠ normalizePath q) ∧ hashSet_lookup s q = some none) := by
  have hroom := populated_room h
  have hbig := h.big
  have hne : s.g_hashCapacity ≠ 0 := by omega
  obtain ⟨slot, r, hpr, hts, hr, -, hnone⟩ :=
    probe_table h.ok hroom (stopLookup q) (computeHash q)
  cases r with
  | some e =>
    left
    have he : e ∈ entries t := mem_entries_iff.2 ⟨slot, hts⟩
    obtain ⟨-, hcmp⟩ := (stopLookup_iff _ _).1 (hr e rfl)
    obtain ⟨hc, hn, -⟩ := h.ok.keys e he
    refine ⟨e, he, ?_, ?_⟩
    · rw [← hn]
      exact (pathcmp_eq_zero_iff hc hq).1 hcmp
    · unfold hashSet_lookup
      simp only [h.tbl, hne, if_false, hpr]
  | none =>
    right
    refine ⟨?_, ?_⟩
    · intro e he hkey
      obtain ⟨hc, hn, hh⟩ := h.ok.keys e he
      have hhash : e.hash = computeHash q := by
        rw [hh, hkey, computeHash_normalize]
      have hcmp : pathcmp e.key q = 0 :=
        (pathcmp_eq_zero_iff hc hq).2 (by rw [hkey, normalizePath_idem])
      have := hnone rfl e he (by rw [hhash])
      have h2 := (stopLookup_iff q e).2 ⟨hhash, hcmp⟩
      rw [h2] at this
      exact Bool.noConfusion this
    · unfold hashSet_lookup
      simp only [h.tbl, hne, if_false, hpr]

theorem lookup_no_table {s : Globals}
    (h : (s.g_hashTable = none ∨ s.g_hashTable = some []) ∧
      s.g_hashCapacity = 0 ∧ s.g_hashCount = 0) (q : List Nat) :
    hashSet_lookup s q = some none := by
  obtain ⟨ht, hc, -⟩ := h
  unfold hashSet_lookup
  rcases ht with ht | ht <;> simp [ht, hc]

/-- In a state satisfying the invariant every lookup returns. -/
theorem lookup_returns {s : Globals} (h : Inv s) {q : List Nat} (hq : IsCStr q) :
    hashSet_lookup s q ≠ none := by
  rcases h with h | ⟨t, hp⟩
  · rw [lookup_no_table h]; simp
  · rcases lookup_populated hp hq with ⟨e, -, -, h1⟩ | ⟨-, h1⟩ <;> rw [h1] <;> simp

theorem populated_fresh : Populated fresh (List.replicate 1024 none) :=
  populated_fresh_like (s := ⟨none, 0, 0, 0⟩) rfl

theorem grow_initial : hashSet_grow true Globals.initial = some (true, fresh) :=
  grow_empty (Or.inl rfl) rfl

theorem reachable_fresh : Reachable fresh :=
  Reachable.grow Reachable.initial grow_initial

/-! ## Inserting keys that are not stored yet -/

theorem insertAt_fresh {s : Globals} {t : Table} (hp : Populated s t)
    (hload : s.g_hashCount * 100 < s.g_hashCapacity * 70) {k : List Nat} (hk : IsCStr k)
    (v : List Nat) (hfresh : ∀ e ∈ entries t, e.key ≠ normalizePath k) :
    ∃ s2 t2, insertAt Alloc.ok s k v = some (true, s2) ∧ Populated s2 t2 ∧
      (entries t2).Perm (toEntry (k, v) :: entries t) ∧
      s2.g_hashCount = s.g_hashCount + 1 ∧ s2.g_hashCapacity = s.g_hashCapacity ∧
      s2.g_wowDirLen = s.g_wowDirLen := by
  rcases insertAt_spec hp hload Alloc.ok k v hk with
    ⟨-, e, he, -, hcmp⟩ | ⟨-, ⟨-, hf⟩ | ⟨-, -, slot, -, h1, h2, h3⟩⟩
  · exfalso
    obtain ⟨hc, hn, -⟩ := hp.ok.keys e he
    apply hfresh e he
    rw [← hn]
    exact normalize_eq_of_stricmp hc hk hcmp
  · exfalso
    rcases hf with hf | hf <;> simp [Alloc.ok] at hf
  · exact ⟨_, _, h1, h2, h3, rfl, rfl, rfl⟩

theorem grow_true_result {s s2 : Globals} {b : Bool}
    (h : hashSet_grow true s = some (b, s2)) : b = true := by
  unfold hashSet_grow at h
  simp only [Bool.not_true, Bool.false_eq_true, if_false] at h
  split at h
  · simp at h
  · simp only [Option.some.injEq, Prod.mk.injEq] at h
    exact h.1.symm

/-- At `2^31` slots the 32-bit load test always asks for growth, the doubled
capacity wraps to zero, and the insert has no defined result. -/
theorem insert_wrap_undefined {s : Globals} {t : Table} (hp : Populated s t)
    (hcap : s.g_hashCapacity = 2147483648) (k v : List Nat) :
    hashSet_insert Alloc.ok s k v = none := by
  have htest : u32 (s.g_hashCount * 100) ≥ u32 (s.g_hashCapacity * HASH_SET_MAX_LOAD) := by
    rw [hcap]
    have : u32 (2147483648 * HASH_SET_MAX_LOAD) = 0 := by decide
    rw [this]
    exact Nat.zero_le _
  unfold hashSet_insert
  rw [if_pos htest]
  cases hg : hashSet_grow Alloc.ok.calloc s with
  | none => rfl
  | some r =>
    obtain ⟨b, s1⟩ := r
    have hb := grow_true_result hg
    subst hb
    obtain ⟨h1, h2, -⟩ := grow_wrap hp hcap hg
    simp only
    exact insertAt_zero_table _ _ _ h1 h2

/-- One `hashSet_insert` of a key whose normal form is not stored, below
`2^31` slots and with every allocation succeeding: the entry is added. -/
theorem insert_fresh_key {s : Globals} {t : Table} (hp : Populated s t)
    (hcap : s.g_hashCapacity < 2147483648) {k : List Nat} (hk : IsCStr k) (v : List Nat)
    (hfresh : ∀ e ∈ entries t, e.key ≠ normalizePath k) :
    ∃ s2 t2, hashSet_insert Alloc.ok s k v = some (true, s2) ∧ Populated s2 t2 ∧
      (entries t2).Perm (toEntry (k, v) :: entries t) ∧
      s2.g_hashCount = s.g_hashCount + 1 ∧
      s2.g_hashCapacity =
        (if u32 (s.g_hashCount * 100) ≥ u32 (s.g_hashCapacity * HASH_SET_MAX_LOAD)
          then s.g_hashCapacity * 2 else s.g_hashCapacity) ∧
      s2.g_wowDirLen = s.g_wowDirLen := by
  unfold hashSet_insert
  by_cases htest : u32 (s.g_hashCount * 100) ≥ u32 (s.g_hashCapacity * HASH_SET_MAX_LOAD)
  · rw [if_pos htest, if_pos htest]
    obtain ⟨nt, h1, h2, h3⟩ := grow_populated hp hcap
    have hload := hp.load
    have hbig := hp.big
    have hfresh2 : ∀ e ∈ entries nt, e.key ≠ normalizePath k :=
      fun e he => hfresh e (h3.mem_iff.1 he)
    obtain ⟨s2, t2, g1, g2, g3, g4, g5, g6⟩ := insertAt_fresh h2
      (by show s.g_hashCount * 100 < s.g_hashCapacity * 2 * 70; omega) hk v hfresh2
    refine ⟨s2, t2, ?_, g2, g3.trans (List.Perm.cons _ h3), g4, g5, g6⟩
    show (match hashSet_grow true s with
      | none => none
      | some (false, s1) => some (false, s1)
      | some (true, s1) => insertAt Alloc.ok s1 k v) = _
    rw [h1]
    exact g1
  · rw [if_neg htest, if_neg htest]
    have hload := load_test_false hp.ok.pow hp.load htest
    exact insertAt_fresh hp hload hk v hfresh

theorem pow_double_le {cap : Nat} (h : PowCap cap) (hlt : cap < 33554432) :
    cap * 2 ≤ 33554432 := by
  obtain ⟨e, -, rfl⟩ := h
  have h25 : (33554432 : Nat) = 2 ^ 25 := by norm_num
  rw [h25] at hlt ⊢
  have he : e < 25 := (Nat.pow_lt_pow_iff_right (by decide)).1 hlt
  calc 2 ^ e * 2 = 2 ^ (e + 1) := by rw [Nat.pow_succ]
    _ ≤ 2 ^ 25 := Nat.pow_le_pow_right (by decide) (by omega)

/-- A run of inserts of pairwise different new keys, within the capacity range
`≤ 2^25` where the 32-bit load test does not wrap: every call succeeds and the
table ends with exactly the old entries and one entry per pair. -/
theorem insertAll_spec : ∀ (kvs : List (List Nat × List Nat)) (s : Globals) (t : Table),
    Populated s t → s.g_hashCapacity ≤ 33554432 →
    s.g_hashCount + kvs.length ≤ 23488103 →
    (∀ kv ∈ kvs, IsCStr kv.1) →
    (kvs.map (fun kv => normalizePath kv.1)).Nodup →
    (∀ kv ∈ kvs, ∀ e ∈ entries t, e.key ≠ normalizePath kv.1) →
    ∃ s2 t2, insertAll s kvs = some s2 ∧ Populated s2 t2 ∧
      (entries t2).Perm (kvs.map toEntry ++ entries t) ∧
      s2.g_hashCount = s.g_hashCount + kvs.length ∧
      s2.g_hashCapacity ≤ 33554432 ∧
      ((s.g_hashCount + kvs.length) * 100 < s.g_hashCapacity * 70 + 100 →
        s2.g_hashCapacity = s.g_hashCapacity) ∧
      s2.g_wowDirLen = s.g_wowDirLen := by
  intro kvs
  induction kvs with
  | nil =>
    intro s t hp hcap _ _ _ _
    exact ⟨s, t, rfl, hp, by simp, rfl, hcap, fun _ => rfl, rfl⟩
  | cons kv rest ih =>
    intro s t hp hcap hn hc hd hf
    simp only [List.length_cons] at hn
    simp only [List.map_cons, List.nodup_cons] at hd
    obtain ⟨s1, t1, h1, hp1, hperm1, hcnt1, hcap1, hw1⟩ :=
      insert_fresh_key hp (by omega) (hc kv (List.mem_cons_self _ _)) kv.2
        (hf kv (List.mem_cons_self _ _))
    have hcapb : s1.g_hashCapacity ≤ 33554432 := by
      rw [hcap1]
      split
      · rename_i htest
        unfold u32 HASH_SET_MAX_LOAD at htest
        rw [Nat.mod_eq_of_lt (by omega), Nat.mod_eq_of_lt (by omega)] at htest
        exact pow_double_le hp.ok.pow (by omega)
      · exact hcap
    have hf1 : ∀ kv2 ∈ rest, ∀ e ∈ entries t1, e.key ≠ normalizePath kv2.1 := by
      intro kv2 hkv2 e he
      rcases List.mem_cons.1 (hperm1.mem_iff.1 he) with rfl | he
      · intro heq
        apply hd.1
        exact List.mem_map.2 ⟨kv2, hkv2, heq.symm⟩
      · exact hf kv2 (List.mem_cons_of_mem _ hkv2) e he
    obtain ⟨s2, t2, h2, hp2, hperm2, hcnt2, hcap2, hsame2, hw2⟩ :=
      ih s1 t1 hp1 hcapb (by omega) (fun x hx => hc x (List.mem_cons_of_mem _ hx)) hd.2 hf1
    refine ⟨s2, t2, ?_, hp2, ?_, by rw [hcnt2, hcnt1, List.length_cons]; omega, hcap2, ?_,
      by rw [hw2, hw1]⟩
    · rw [insertAll, h1]
      exact h2
    · refine hperm2.trans ?_
      refine (List.Perm.append_left _ hperm1).trans ?_
      simp only [List.map_cons, List.cons_append]
      exact List.perm_middle
    · intro hsmall
      simp only [List.length_cons] at hsmall
      have hnot : ¬ (u32 (s.g_hashCount * 100) ≥ u32 (s.g_hashCapacity * HASH_SET_MAX_LOAD)) := by
        unfold u32 HASH_SET_MAX_LOAD
        rw [Nat.mod_eq_of_lt (by omega), Nat.mod_eq_of_lt (by omega)]
        omega
      rw [if_neg hnot] at hcap1
      rw [hsame2 (by rw [hcap1, hcnt1]; omega), hcap1]

/-- After such a run, looking up an inserted key returns the disk path inserted
with it. -/
theorem lookup_after_insertAll {kvs : List (List Nat × List Nat)} {s2 : Globals} {t2 : Table}
    (hp2 : Populated s2 t2) (hperm : (entries t2).Perm (kvs.map toEntry))
    (hc : ∀ kv ∈ kvs, IsCStr kv.1)
    (hd : (kvs.map (fun kv => normalizePath kv.1)).Nodup) :
    ∀ kv ∈ kvs, hashSet_lookup s2 kv.1 = some (some kv.2) := by
  intro kv hkv
  rcases lookup_populated hp2 (hc kv hkv) with ⟨e, he, hkey, hl⟩ | ⟨hno, -⟩
  · obtain ⟨kv2, hkv2, rfl⟩ := List.mem_map.1 (hperm.mem_iff.1 he)
    have : kv2 = kv := List.inj_on_of_nodup_map hd hkv2 hkv hkey
    subst this
    exact hl
  · exfalso
    exact hno (toEntry kv) (hperm.mem_iff.2 (List.mem_map.2 ⟨kv, hkv, rfl⟩)) rfl

/-! ## Inserting a key that is stored already -/

/-- Below the load threshold, a key without `'/'` whose normal form is stored is
found by the probe of `hashSet_insert`: success, nothing changes. -/
theorem insertAt_present {s : Globals} {t : Table} (hp : Populated s t)
    (hload : s.g_hashCount * 100 < s.g_hashCapacity * 70) (a : Alloc) {k : List Nat}
    (hk : IsCStr k) (h47 : 47 ∉ k) (v : List Nat)
    (hpres : ∃ e ∈ entries t, e.key = normalizePath k) :
    insertAt a s k v = some (true, s) := by
  rcases insertAt_spec hp hload a k v hk with ⟨h1, -⟩ | ⟨hno, -⟩
  · exact h1
  · exfalso
    obtain ⟨e, he, hkey⟩ := hpres
    obtain ⟨hc, hn, hh⟩ := hp.ok.keys e he
    refine hno e he (by rw [hh, hkey, computeHash_normalize]) ?_
    apply stricmp_zero_of_normalize hc hk _ h47 (by rw [hkey, normalizePath_idem])
    rw [hkey]
    exact not_mem_47_normalizePath k

theorem content_of_populated {s : Globals} {t : Table} (hp : Populated s t) :
    content s = entries t := by
  unfold content
  rw [hp.tbl]
  rfl

theorem content_of_no_table {s : Globals}
    (h : s.g_hashTable = none ∨ s.g_hashTable = some []) : content s = [] := by
  unfold content
  rcases h with h | h <;> rw [h] <;> rfl

/-! ## A family of pairwise different keys -/

theorem numKey_isCStr (i : Nat) : IsCStr (numKey i) := by
  intro c hc
  unfold numKey at hc
  rcases List.mem_cons.1 hc with rfl | hc
  · decide
  · obtain ⟨d, hd, rfl⟩ := List.mem_map.1 hc
    have := Nat.digits_lt_base (by decide : 1 < 10) hd
    omega

theorem numKey_normalized (i : Nat) : normalizePath (numKey i) = numKey i := by
  rw [normalizePath_eq_map]
  have h : ∀ c ∈ numKey i, normChar c = c := by
    intro c hc
    unfold numKey at hc
    rcases List.mem_cons.1 hc with rfl | hc
    · decide
    · obtain ⟨d, hd, rfl⟩ := List.mem_map.1 hc
      have := Nat.digits_lt_base (by decide : 1 < 10) hd
      unfold normChar
      split_ifs <;> omega
  conv_rhs => rw [← List.map_id (numKey i)]
  exact List.map_congr_left h

theorem numKey_injective : Function.Injective numKey := by
  intro i j h
  unfold numKey at h
  simp only [List.cons.injEq, true_and] at h
  have hinj : Function.Injective (fun d : Nat => d + 48) := fun a b hab => by
    simp only at hab; omega
  exact (Nat.digits_inj_iff).1 (List.map_injective_iff.2 hinj h)

theorem numPairs_length (n : Nat) : (numPairs n).length = n := by
  simp [numPairs]

theorem numPairs_isCStr (n : Nat) : ∀ kv ∈ numPairs n, IsCStr kv.1 := by
  intro kv hkv
  unfold numPairs at hkv
  obtain ⟨i, -, rfl⟩ := List.mem_map.1 hkv
  exact numKey_isCStr i

theorem numPairs_nodup (n : Nat) :
    ((numPairs n).map (fun kv => normalizePath kv.1)).Nodup := by
  unfold numPairs
  rw [List.map_map]
  have : ((fun kv : List Nat × List Nat => normalizePath kv.1) ∘ fun i => (numKey i, numKey i))
      = numKey := by
    funext i
    simp [numKey_normalized]
  rw [this]
  exact List.Nodup.map numKey_injective (List.nodup_range n)

/-- Whenever a run of inserts of pairwise different new keys has a defined
result, the count has grown by the number of keys. -/
theorem insertAll_count : ∀ (kvs : List (List Nat × List Nat)) (s s2 : Globals) (t : Table),
    Populated s t → (∀ kv ∈ kvs, IsCStr kv.1) →
    (kvs.map (fun kv => normalizePath kv.1)).Nodup →
    (∀ kv ∈ kvs, ∀ e ∈ entries t, e.key ≠ normalizePath kv.1) →
    insertAll s kvs = some s2 →
    ∃ t2, Populated s2 t2 ∧ s2.g_hashCount = s.g_hashCount + kvs.length := by
  intro kvs
  induction kvs with
  | nil =>
    intro s s2 t hp _ _ _ h
    simp only [insertAll, Option.some.injEq] at h
    subst h
    exact ⟨t, hp, rfl⟩
  | cons kv rest ih =>
    intro s s2 t hp hc hd hf h
    simp only [List.map_cons, List.nodup_cons] at hd
    by_cases hcap : s.g_hashCapacity < 2147483648
    · obtain ⟨s1, t1, h1, hp1, hperm1, hcnt1, -, -⟩ :=
        insert_fresh_key hp hcap (hc kv (List.mem_cons_self _ _)) kv.2
          (hf kv (List.mem_cons_self _ _))
      rw [insertAll, h1] at h
      have hf1 : ∀ kv2 ∈ rest, ∀ e ∈ entries t1, e.key ≠ normalizePath kv2.1 := by
        intro kv2 hkv2 e he
        rcases List.mem_cons.1 (hperm1.mem_iff.1 he) with rfl | he
        · intro heq
          apply hd.1
          exact List.mem_map.2 ⟨kv2, hkv2, heq.symm⟩
        · exact hf kv2 (List.mem_cons_of_mem _ hkv2) e he
      obtain ⟨t2, hp2, hcnt2⟩ :=
        ih s1 s2 t1 hp1 (fun x hx => hc x (List.mem_cons_of_mem _ hx)) hd.2 hf1 h
      exact ⟨t2, hp2, by rw [hcnt2, hcnt1, List.length_cons]; omega⟩
    · exfalso
      have hcap2 : s.g_hashCapacity = 2147483648 := by
        have := powCap_le hp.ok.pow
        omega
      rw [insertAll, insert_wrap_undefined hp hcap2] at h
      simp at h

theorem entries_fresh : entries (List.replicate 1024 (none : Option HashEntry)) = [] :=
  entries_replicate 1024

/-! ## Tracing the code on concrete tables -/

theorem get_replicate_none {n i : Nat} (h : i < n) :
    (List.replicate n (none : Option HashEntry))[i]? = some none := by
  rw [List.getElem?_replicate, if_pos h]

theorem get_set_same {t : Table} {i : Nat} (x : Option HashEntry) (h : i < t.length) :
    (t.set i x)[i]? = some x := by
  rw [List.getElem?_set, if_pos rfl, if_pos h]

theorem get_set_other {t : Table} {i j : Nat} (x : Option HashEntry) (h : i ≠ j) :
    (t.set i x)[j]? = t[j]? :=
  List.getElem?_set_ne h

theorem get_one_same {n i : Nat} (x : Option HashEntry) (hi : i < n) :
    ((List.replicate n (none : Option HashEntry)).set i x)[i]? = some x :=
  get_set_same x (by rw [List.length_replicate]; exact hi)

theorem get_one_other {n i k : Nat} (x : Option HashEntry) (hk : k < n) (hik : i ≠ k) :
    ((List.replicate n (none : Option HashEntry)).set i x)[k]? = some none :=
  (get_set_other x hik).trans (get_replicate_none hk)

theorem get_two_first {n i j : Nat} (x y : Option HashEntry) (hi : i < n) (hij : j ≠ i) :
    (((List.replicate n (none : Option HashEntry)).set i x).set j y)[i]? = some x :=
  (get_set_other y hij).trans (get_one_same x hi)

theorem get_two_second {n i j : Nat} (x y : Option HashEntry) (hj : j < n) :
    (((List.replicate n (none : Option HashEntry)).set i x).set j y)[j]? = some y :=
  get_set_same y (by rw [List.length_set, List.length_replicate]; exact hj)

theorem get_two_other {n i j k : Nat} (x y : Option HashEntry) (hk : k < n) (hik : i ≠ k)
    (hjk : j ≠ k) :
    (((List.replicate n (none : Option HashEntry)).set i x).set j y)[k]? = some none :=
  (get_set_other y hjk).trans (get_one_other x hk hik)

theorem probe_at_empty (stop : HashEntry → Bool) (tbl : Table) (mask fuel slot : Nat)
    (h : tbl[slot]? = some none) :
    probe stop tbl mask (fuel + 1) slot = some (slot, none) := by
  rw [probe, h]

theorem probe_at_hit (stop : HashEntry → Bool) (tbl : Table) (mask fuel slot : Nat)
    (e : HashEntry) (h : tbl[slot]? = some (some e)) (hs : stop e = true) :
    probe stop tbl mask (fuel + 1) slot = some (slot, some e) := by
  rw [probe, h]
  simp only [hs, if_true]

theorem probe_at_skip (stop : HashEntry → Bool) (tbl : Table) (mask fuel slot : Nat)
    (e : HashEntry) (h : tbl[slot]? = some (some e)) (hs : stop e = false) :
    probe stop tbl mask (fuel + 1) slot
      = probe stop tbl mask fuel (u32 (slot + 1) &&& mask) := by
  rw [probe, h]
  simp only [hs, Bool.false_eq_true, if_false]

theorem insert_below_threshold {a : Alloc} {s : Globals} (h : ¬ AtThreshold s)
    (k v : List Nat) : hashSet_insert a s k v = insertAt a s k v := by
  unfold hashSet_insert
  exact if_neg h

theorem insertAt_stored (a : Alloc) (s : Globals) (tbl : Table) (k v : List Nat)
    (slot : Nat) (e : HashEntry) (h cap : Nat) (ht : s.g_hashTable = some tbl)
    (hcap : s.g_hashCapacity = cap) (hh : computeHash k = h)
    (hp : probe (stopInsert k) tbl (maskOf cap) cap (h &&& maskOf cap)
      = some (slot, some e)) :
    insertAt a s k v = some (true, s) := by
  subst hh hcap
  unfold insertAt
  simp only [ht, hp]

theorem insertAt_added (s : Globals) (tbl : Table) (k v : List Nat) (slot h cap c : Nat)
    (ht : s.g_hashTable = some tbl) (hcap : s.g_hashCapacity = cap)
    (hcnt : s.g_hashCount = c) (hh : computeHash k = h)
    (hp : probe (stopInsert k) tbl (maskOf cap) cap (h &&& maskOf cap) = some (slot, none)) :
    insertAt Alloc.ok s k v = some (true,
      ⟨some (tbl.set slot (some ⟨normalizePath k, v, h⟩)), cap, u32 (c + 1),
        s.g_wowDirLen⟩) := by
  subst hh hcap hcnt
  unfold insertAt
  simp only [ht, hp, Alloc.ok, Bool.not_true, Bool.false_eq_true, if_false]

theorem lookup_hit (s : Globals) (tbl : Table) (q : List Nat) (slot : Nat) (e : HashEntry)
    (h cap : Nat) (ht : s.g_hashTable = some tbl) (hcap : s.g_hashCapacity = cap)
    (hc : cap ≠ 0) (hh : computeHash q = h)
    (hp : probe (stopLookup q) tbl (maskOf cap) cap (h &&& maskOf cap)
      = some (slot, some e)) :
    hashSet_lookup s q = some (some e.diskPath) := by
  subst hh hcap
  unfold hashSet_lookup
  simp only [ht, hc, if_false, hp]

theorem lookup_miss (s : Globals) (tbl : Table) (q : List Nat) (slot h cap : Nat)
    (ht : s.g_hashTable = some tbl) (hcap : s.g_hashCapacity = cap) (hc : cap ≠ 0)
    (hh : computeHash q = h)
    (hp : probe (stopLookup q) tbl (maskOf cap) cap (h &&& maskOf cap) = some (slot, none)) :
    hashSet_lookup s q = some none := by
  subst hh hcap
  unfold hashSet_lookup
  simp only [ht, hc, if_false, hp]

theorem rehash_empty_slots {old : Table} {newCap : Nat} : ∀ (is : List Nat) (nt : Table),
    (∀ i ∈ is, old[i]? = some none) → rehash old newCap is nt = some nt := by
  intro is
  induction is with
  | nil => intro nt _; rfl
  | cons i rest ih =>
    intro nt h
    rw [rehash, h i (List.mem_cons_self _ _)]
    exact ih nt fun j hj => h j (List.mem_cons_of_mem _ hj)

theorem rehash_append {old : Table} {newCap : Nat} : ∀ (is1 is2 : List Nat) (nt : Table),
    rehash old newCap (is1 ++ is2) nt
      = (rehash old newCap is1 nt).bind (rehash old newCap is2) := by
  intro is1
  induction is1 with
  | nil => intro is2 nt; rfl
  | cons i rest ih =>
    intro is2 nt
    rw [List.cons_append, rehash, rehash]
    cases old[i]? with
    | none => rfl
    | some x =>
      cases x with
      | none => exact ih is2 nt
      | some e =>
        simp only
        cases probe (fun _ => false) nt (maskOf newCap) newCap (e.hash &&& maskOf newCap) with
        | none => rfl
        | some r => exact ih is2 _

theorem rehash_occupied (old : Table) (newCap i : Nat) (rest : List Nat) (nt : Table)
    (e : HashEntry) (slot : Nat) (h : old[i]? = some (some e))
    (hp : probe (fun _ => false) nt (maskOf newCap) newCap (e.hash &&& maskOf newCap)
      = some (slot, none)) :
    rehash old newCap (i :: rest) nt = rehash old newCap rest (nt.set slot (some e)) := by
  rw [rehash, h]
  simp only [hp]

theorem grow_of_rehash (s : Globals) (old nt : Table) (ht : s.g_hashTable = some old)
    (hc : s.g_hashCapacity ≠ 0)
    (hre : rehash old (u32 (s.g_hashCapacity * 2)) (List.range s.g_hashCapacity)
      (List.replicate (u32 (s.g_hashCapacity * 2)) none) = some nt) :
    hashSet_grow true s
      = some (true, { s with g_hashTable := some nt,
                             g_hashCapacity := u32 (s.g_hashCapacity * 2) }) := by
  unfold hashSet_grow
  simp only [hc, ne_eq, not_false_eq_true, if_true, Bool.not_true, Bool.false_eq_true,
    if_false, ht, Option.getD_some, hre]

theorem range_1024_split : List.range 1024 = 0 :: (List.range' 1 1022 ++ [1023]) := by
  rw [List.range_eq_range', List.range'_succ 0 1023 1, List.range'_concat 1 1022]

theorem insertAll_two {s s1 s2 : Globals} {kv1 kv2 : List Nat × List Nat}
    (h1 : hashSet_insert Alloc.ok s kv1.1 kv1.2 = some (true, s1))
    (h2 : hashSet_insert Alloc.ok s1 kv2.1 kv2.2 = some (true, s2)) :
    insertAll s [kv1, kv2] = some s2 := by
  rw [insertAll, h1]
  simp only
  rw [insertAll, h2]
  rfl

/-! ## Concrete runs -/

theorem hash_keyBackslash : computeHash keyBackslash = 193485764 := by decide

theorem hash_keySlash : computeHash keySlash = 193485764 := by decide

theorem hash_keyUpper : computeHash keyUpper = 193485764 := by decide

theorem hash_keyLast : computeHash keyLast = 2090099711 := by decide

theorem hash_keyLastSlash : computeHash keyLastSlash = 2090099711 := by decide

theorem probe_fresh_964 (stop : HashEntry → Bool) :
    probe stop (List.replicate 1024 none) 1023 1024 964 = some (964, none) :=
  probe_at_empty stop (List.replicate 1024 none) 1023 1023 964 (get_replicate_none (by decide))

theorem read_tblOne_964 : tblOne[964]? = some (some entryAX) :=
  get_one_same (some entryAX) (by decide)

theorem read_tblOne_965 : tblOne[965]? = some none :=
  get_one_other (some entryAX) (by decide) (by decide)

theorem read_tblTwo_964 : tblTwo[964]? = some (some entryAX) :=
  get_two_first (some entryAX) (some entryAY) (by decide) (by decide)

theorem read_tblTwo_965 : tblTwo[965]? = some (some entryAY) :=
  get_two_second (some entryAX) (some entryAY) (by decide)

theorem insertAt_fresh_backslash :
    insertAt Alloc.ok fresh keyBackslash diskX = some (true, oneEntry) :=
  insertAt_added fresh (List.replicate 1024 none) keyBackslash diskX 964 193485764 1024 0
    rfl rfl rfl hash_keyBackslash (probe_fresh_964 (stopInsert keyBackslash))

theorem insert_oneEntry :
    hashSet_insert Alloc.ok fresh keyBackslash diskX = some (true, oneEntry) :=
  (insert_below_threshold (by decide) keyBackslash diskX).trans insertAt_fresh_backslash

theorem reachable_oneEntry : Reachable oneEntry :=
  Reachable.insert reachable_fresh (by decide) insert_oneEntry

theorem insertAt_fresh_slash :
    insertAt Alloc.ok fresh keySlash diskX = some (true, oneEntry) :=
  insertAt_added fresh (List.replicate 1024 none) keySlash diskX 964 193485764 1024 0
    rfl rfl rfl hash_keySlash (probe_fresh_964 (stopInsert keySlash))

theorem insert_slash_first :
    hashSet_insert Alloc.ok fresh keySlash diskX = some (true, oneEntry) :=
  (insert_below_threshold (by decide) keySlash diskX).trans insertAt_fresh_slash

theorem stopInsert_slash_entryAX : stopInsert keySlash entryAX = false := by decide

theorem probe_insert_slash_tblOne :
    probe (stopInsert keySlash) tblOne 1023 1024 964 = some (965, none) :=
  (probe_at_skip (stopInsert keySlash) tblOne 1023 1023 964 entryAX read_tblOne_964
      stopInsert_slash_entryAX).trans
    (probe_at_empty (stopInsert keySlash) tblOne 1023 1022 965 read_tblOne_965)

theorem insertAt_oneEntry_slash :
    insertAt Alloc.ok oneEntry keySlash diskY = some (true, twoCopies) :=
  insertAt_added oneEntry tblOne keySlash diskY 965 193485764 1024 1 rfl rfl rfl
    hash_keySlash probe_insert_slash_tblOne

theorem insert_twoCopies :
    hashSet_insert Alloc.ok oneEntry keySlash diskY = some (true, twoCopies) :=
  (insert_below_threshold (by decide) keySlash diskY).trans insertAt_oneEntry_slash

theorem reachable_twoCopies : Reachable twoCopies :=
  Reachable.insert reachable_oneEntry (by decide) insert_twoCopies

theorem lookup_fresh_keySlash : hashSet_lookup fresh keySlash = some none :=
  lookup_miss fresh (List.replicate 1024 none) keySlash 964 193485764 1024 rfl rfl
    (by decide) hash_keySlash (probe_fresh_964 (stopLookup keySlash))

theorem stopLookup_slash_entryAX : stopLookup keySlash entryAX = true := by decide

theorem lookup_twoCopies_keySlash : hashSet_lookup twoCopies keySlash = some (some diskX) :=
  lookup_hit twoCopies tblTwo keySlash 964 entryAX 193485764 1024 rfl rfl (by decide)
    hash_keySlash
    (probe_at_hit (stopLookup keySlash) tblTwo 1023 1023 964 entryAX read_tblTwo_964
      stopLookup_slash_entryAX)

theorem read_tblLast_1023 : tblLast[1023]? = some (some entryLX) :=
  get_one_same (some entryLX) (by decide)

theorem read_tblLast_0 : tblLast[0]? = some none :=
  get_one_other (some entryLX) (by decide) (by decide)

theorem read_tblWrapped_1023 : tblWrapped[1023]? = some (some entryLX) :=
  get_two_first (some entryLX) (some entryLY) (by decide) (by decide)

theorem read_tblWrapped_0 : tblWrapped[0]? = some (some entryLY) :=
  get_two_second (some entryLX) (some entryLY) (by decide)

theorem read_tblWrapped_middle {i : Nat} (hi : i ∈ List.range' 1 1022) :
    tblWrapped[i]? = some none := by
  rw [List.mem_range'_1] at hi
  exact get_two_other (some entryLX) (some entryLY) (by omega) (by omega) (by omega)

theorem read_tblGrown_1023 : tblGrown[1023]? = some (some entryLY) :=
  get_two_first (some entryLY) (some entryLX) (by decide) (by decide)

theorem insertAt_fresh_last :
    insertAt Alloc.ok fresh keyLast diskX = some (true, lastSlot) :=
  insertAt_added fresh (List.replicate 1024 none) keyLast diskX 1023 2090099711 1024 0
    rfl rfl rfl hash_keyLast
    (probe_at_empty (stopInsert keyLast) (List.replicate 1024 none) 1023 1023 1023
      (get_replicate_none (by decide)))

theorem insert_lastSlot :
    hashSet_insert Alloc.ok fresh keyLast diskX = some (true, lastSlot) :=
  (insert_below_threshold (by decide) keyLast diskX).trans insertAt_fresh_last

theorem stopInsert_lastSlash_entryLX : stopInsert keyLastSlash entryLX = false := by decide

theorem probe_insert_lastSlash_tblLast :
    probe (stopInsert keyLastSlash) tblLast 1023 1024 1023 = some (0, none) :=
  (probe_at_skip (stopInsert keyLastSlash) tblLast 1023 1023 1023 entryLX read_tblLast_1023
      stopInsert_lastSlash_entryLX).trans
    (probe_at_empty (stopInsert keyLastSlash) tblLast 1023 1022 0 read_tblLast_0)

theorem insertAt_lastSlot_slash :
    insertAt Alloc.ok lastSlot keyLastSlash diskY = some (true, wrappedDuplicate) :=
  insertAt_added lastSlot tblLast keyLastSlash diskY 0 2090099711 1024 1 rfl rfl rfl
    hash_keyLastSlash probe_insert_lastSlash_tblLast

theorem insert_wrapped :
    hashSet_insert Alloc.ok lastSlot keyLastSlash diskY = some (true, wrappedDuplicate) :=
  (insert_below_threshold (by decide) keyLastSlash diskY).trans insertAt_lastSlot_slash

theorem insertAll_wrappedDuplicate :
    insertAll fresh [(keyLast, diskX), (keyLastSlash, diskY)] = some wrappedDuplicate :=
  insertAll_two insert_lastSlot insert_wrapped

theorem reachable_wrappedDuplicate : Reachable wrappedDuplicate :=
  Reachable.insert (Reachable.insert reachable_fresh (by decide) insert_lastSlot)
    (by decide) insert_wrapped

theorem stopLookup_last_entryLX : stopLookup keyLast entryLX = true := by decide

theorem stopLookup_last_entryLY : stopLookup keyLast entryLY = true := by decide

theorem lookup_wrappedDuplicate :
    hashSet_lookup wrappedDuplicate keyLast = some (some diskX) :=
  lookup_hit wrappedDuplicate tblWrapped keyLast 1023 entryLX 2090099711 1024 rfl rfl
    (by decide) hash_keyLast
    (probe_at_hit (stopLookup keyLast) tblWrapped 1023 1023 1023 entryLX
      read_tblWrapped_1023 stopLookup_last_entryLX)

theorem lookup_grownDuplicate :
    hashSet_lookup grownDuplicate keyLast = some (some diskY) :=
  lookup_hit grownDuplicate tblGrown keyLast 1023 entryLY 2090099711 2048 rfl rfl
    (by decide) hash_keyLast
    (probe_at_hit (stopLookup keyLast) tblGrown 2047 2047 1023 entryLY
      read_tblGrown_1023 stopLookup_last_entryLY)

theorem probe_grow_first :
    probe (fun _ => false) (List.replicate 2048 none) (maskOf 2048) 2048
      (entryLY.hash &&& maskOf 2048) = some (1023, none) :=
  probe_at_empty (fun _ => false) (List.replicate 2048 none) 2047 2047 1023
    (get_replicate_none (by decide))

theorem probe_grow_second :
    probe (fun _ => false) ((List.replicate 2048 none).set 1023 (some entryLY)) (maskOf 2048)
      2048 (entryLX.hash &&& maskOf 2048) = some (1024, none) :=
  (probe_at_skip (fun _ => false) ((List.replicate 2048 none).set 1023 (some entryLY))
      2047 2047 1023 entryLY (get_one_same (some entryLY) (by decide)) rfl).trans
    (probe_at_empty (fun _ => false) ((List.replicate 2048 none).set 1023 (some entryLY))
      2047 2046 1024 (get_one_other (some entryLY) (by decide) (by decide)))

theorem rehash_tblWrapped :
    rehash tblWrapped 2048 (List.range 1024) (List.replicate 2048 none) = some tblGrown := by
  rw [range_1024_split,
    rehash_occupied tblWrapped 2048 0 _ (List.replicate 2048 none) entryLY 1023
      read_tblWrapped_0 probe_grow_first,
    rehash_append,
    rehash_empty_slots (List.range' 1 1022) _ (fun i hi => read_tblWrapped_middle hi),
    Option.some_bind,
    rehash_occupied tblWrapped 2048 1023 [] _ entryLX 1024 read_tblWrapped_1023
      probe_grow_second]
  rfl

theorem grow_wrappedDuplicate :
    hashSet_grow true wrappedDuplicate = some (true, grownDuplicate) :=
  grow_of_rehash wrappedDuplicate tblWrapped tblGrown rfl (by decide) rehash_tblWrapped

/-! ## Duplicate inserts and the load threshold -/

/-- A key without `'/'` whose normal form is stored, inserted when the load test
asks for growth: the call does one `hashSet_grow` and nothing else. -/
theorem insert_present_grow {s : Globals} {t : Table} (hp : Populated s t)
    (htest : AtThreshold s) (hcap : s.g_hashCapacity < 2147483648) {a : Alloc}
    (hac : a.calloc = true) {k : List Nat} (hk : IsCStr k) (h47 : 47 ∉ k) (v : List Nat)
    (hpres : ∃ e ∈ entries t, e.key = normalizePath k) :
    ∃ nt, hashSet_insert a s k v
        = some (true, { s with g_hashTable := some nt,
                               g_hashCapacity := s.g_hashCapacity * 2 }) ∧
      hashSet_grow true s
        = some (true, { s with g_hashTable := some nt,
                               g_hashCapacity := s.g_hashCapacity * 2 }) ∧
      Populated { s with g_hashTable := some nt, g_hashCapacity := s.g_hashCapacity * 2 } nt ∧
      (entries nt).Perm (entries t) := by
  obtain ⟨nt, h1, h2, h3⟩ := grow_populated hp hcap
  refine ⟨nt, ?_, h1, h2, h3⟩
  have hload := hp.load
  have hbig := hp.big
  obtain ⟨e, he, hkey⟩ := hpres
  have hins := insertAt_present h2
    (by show s.g_hashCount * 100 < s.g_hashCapacity * 2 * 70; omega) a hk h47 v
    ⟨e, h3.mem_iff.2 he, hkey⟩
  have htest2 : u32 (s.g_hashCount * 100) ≥ u32 (s.g_hashCapacity * HASH_SET_MAX_LOAD) := htest
  unfold hashSet_insert
  rw [if_pos htest2, hac, h1]
  exact hins

theorem not_mem_47_numKey (i : Nat) : 47 ∉ numKey i := by
  intro hc
  unfold numKey at hc
  rcases List.mem_cons.1 hc with h | hc
  · omega
  · obtain ⟨d, -, hd⟩ := List.mem_map.1 hc
    omega

/-- The fresh table filled with the first 717 keys of the family: no growth yet,
717 entries in 1024 slots. -/
theorem run_717 :
    ∃ s t, insertAll fresh (numPairs 717) = some s ∧ Populated s t ∧
      (entries t).Perm ((numPairs 717).map toEntry) ∧
      s.g_hashCount = 717 ∧ s.g_hashCapacity = 1024 := by
  obtain ⟨s, t, h1, h2, h3, h4, -, h6, -⟩ :=
    insertAll_spec (numPairs 717) fresh _ populated_fresh (by decide)
      (by rw [numPairs_length]; decide) (numPairs_isCStr 717) (numPairs_nodup 717)
      (by intro kv _ e he; rw [entries_fresh] at he; simp at he)
  rw [entries_fresh, List.append_nil] at h3
  rw [numPairs_length] at h4 h6
  exact ⟨s, t, h1, h2, h3, h4, h6 (by decide)⟩

theorem mem_content_oneEntry : entryAX ∈ content oneEntry :=
  mem_entries_iff.2 ⟨964, read_tblOne_964⟩

/-- In the table holding the first 717 keys of the family, key 0 is stored, and
inserting it again makes the table grow to 2048 slots. -/
theorem run_717_duplicate (v : List Nat) :
    (insertAll fresh (numPairs 717)).map
        (fun s => (s.g_hashCapacity, s.g_hashCount, hashSet_lookup s (numKey 0)))
      = some (1024, 717, some (some (numKey 0))) ∧
    (insertAll fresh (numPairs 717)).bind
        (fun s => (hashSet_insert Alloc.ok s (numKey 0) v).map
          (fun r => (r.1, r.2.g_hashCapacity, r.2.g_hashCount)))
      = some (true, 2048, 717) := by
  obtain ⟨s, t, h1, hp, hperm, hcnt, hcap⟩ := run_717
  have hmem : (numKey 0, numKey 0) ∈ numPairs 717 :=
    List.mem_map.2 ⟨0, List.mem_range.2 (by decide), rfl⟩
  have hl := lookup_after_insertAll hp hperm (numPairs_isCStr 717) (numPairs_nodup 717)
    _ hmem
  have hth : AtThreshold s := by
    unfold AtThreshold
    rw [hcnt, hcap]
    decide
  obtain ⟨nt, h2, -, -, -⟩ :=
    insert_present_grow hp hth (by rw [hcap]; decide) (a := Alloc.ok) rfl (numKey_isCStr 0)
      (not_mem_47_numKey 0) v
      ⟨toEntry (numKey 0, numKey 0), hperm.mem_iff.2 (List.mem_map.2 ⟨_, hmem, rfl⟩),
        rfl⟩
  rw [h1]
  refine ⟨?_, ?_⟩
  · simp only [Option.map_some', hcap, hcnt, hl]
  · simp only [Option.some_bind, h2, Option.map_some', hcap, hcnt]

/-! ## `isMpqFile` and the scan -/

theorem stricmp_eq_zero_of_length_eq : ∀ (a b : List Nat), a.length = b.length →
    (_stricmp a b = 0 ↔ a.map tolowerC = b.map tolowerC) := by
  intro a
  induction a with
  | nil =>
    intro b h
    cases b with
    | nil => simp [_stricmp]
    | cons cb b => simp at h
  | cons ca a ih =>
    intro b h
    cases b with
    | nil => simp at h
    | cons cb b =>
      simp only [List.length_cons, Nat.add_right_cancel_iff] at h
      simp only [_stricmp, List.map_cons, List.cons.injEq]
      by_cases hc : tolowerC ca = tolowerC cb
      · simp [hc, ih b h]
      · simp only [ne_eq, hc, not_false_eq_true, if_true, false_and, iff_false]
        omega

theorem tolowerC_eq_46 (c : Nat) : tolowerC c = 46 ↔ c = 46 := by
  unfold tolowerC; split_ifs <;> omega

theorem tolowerC_eq_109 (c : Nat) : tolowerC c = 109 ↔ (c = 109 ∨ c = 77) := by
  unfold tolowerC; split_ifs <;> omega

theorem tolowerC_eq_112 (c : Nat) : tolowerC c = 112 ↔ (c = 112 ∨ c = 80) := by
  unfold tolowerC; split_ifs <;> omega

theorem tolowerC_eq_113 (c : Nat) : tolowerC c = 113 ↔ (c = 113 ∨ c = 81) := by
  unfold tolowerC; split_ifs <;> omega

theorem stricmp_four (a b c d : Nat) :
    (_stricmp [a, b, c, d] [46, 109, 112, 113] == 0) =
      (a == 46 && (b == 109 || b == 77) && (c == 112 || c == 80) && (d == 113 || d == 81)) := by
  rw [Bool.eq_iff_iff, beq_iff_eq, stricmp_eq_zero_of_length_eq [a, b, c, d] [46, 109, 112, 113] rfl]
  have hm : List.map tolowerC [46, 109, 112, 113] = [46, 109, 112, 113] := by decide
  rw [hm]
  simp only [List.map_cons, List.map_nil, List.cons.injEq, and_true, Bool.and_eq_true,
    beq_iff_eq, Bool.or_eq_true, tolowerC_eq_46, tolowerC_eq_109, tolowerC_eq_112,
    tolowerC_eq_113]
  tauto

theorem isMpqFile_eq_endsMpqRev (s : List Nat) : isMpqFile s = endsMpqRev s.reverse := by
  rcases hr : s.reverse with _ | ⟨c3, _ | ⟨c2, _ | ⟨c1, _ | ⟨c0, r⟩⟩⟩⟩
  all_goals
    have hs := congrArg List.reverse hr
    rw [List.reverse_reverse] at hs
    subst hs
  · rfl
  · rfl
  · rfl
  · rfl
  · have hl : (c3 :: c2 :: c1 :: c0 :: r).reverse = r.reverse ++ [c0, c1, c2, c3] := by
      simp
    rw [hl]
    unfold isMpqFile endsMpqRev
    have hlen : ¬ (r.reverse ++ [c0, c1, c2, c3]).length < 4 := by simp
    rw [if_neg hlen]
    have hd : (r.reverse ++ [c0, c1, c2, c3]).drop
        ((r.reverse ++ [c0, c1, c2, c3]).length - 4) = [c0, c1, c2, c3] := by
      have : (r.reverse ++ [c0, c1, c2, c3]).length - 4 = r.reverse.length := by simp
      rw [this, List.drop_left]
    rw [hd]
    exact stricmp_four c0 c1 c2 c3

/-- The specification of `isMpqFile` in plain terms. -/
theorem isMpqFile_iff (s : List Nat) :
    isMpqFile s = true ↔
      ∃ pre c1 c2 c3, s = pre ++ [46, c1, c2, c3] ∧
        (c1 = 109 ∨ c1 = 77) ∧ (c2 = 112 ∨ c2 = 80) ∧ (c3 = 113 ∨ c3 = 81) := by
  rw [isMpqFile_eq_endsMpqRev]
  constructor
  · intro h
    rcases hr : s.reverse with _ | ⟨c3, _ | ⟨c2, _ | ⟨c1, _ | ⟨c0, r⟩⟩⟩⟩ <;> rw [hr] at h
    · simp [endsMpqRev] at h
    · simp [endsMpqRev] at h
    · simp [endsMpqRev] at h
    · simp [endsMpqRev] at h
    · have hs := congrArg List.reverse hr
      rw [List.reverse_reverse] at hs
      simp only [endsMpqRev, Bool.and_eq_true, beq_iff_eq, Bool.or_eq_true] at h
      obtain ⟨⟨⟨h0, h1⟩, h2⟩, h3⟩ := h
      subst h0
      exact ⟨r.reverse, c1, c2, c3, by rw [hs]; simp, h1, h2, h3⟩
  · rintro ⟨pre, c1, c2, c3, rfl, h1, h2, h3⟩
    have : (pre ++ [46, c1, c2, c3]).reverse = c3 :: c2 :: c1 :: 46 :: pre.reverse := by simp
    rw [this]
    simp only [endsMpqRev, Bool.and_eq_true, beq_iff_eq, Bool.or_eq_true, true_and]
    exact ⟨⟨h1, h2⟩, h3⟩

theorem endsMpqRev_take (n : Nat) (l : List Nat) (h : endsMpqRev (l.take n) = true) :
    endsMpqRev l = true := by
  rcases l with _ | ⟨c3, _ | ⟨c2, _ | ⟨c1, _ | ⟨c0, r⟩⟩⟩⟩
  · simpa using h
  · rcases n with _ | n <;> simp [endsMpqRev] at h
  · rcases n with _ | _ | n <;> simp [endsMpqRev] at h
  · rcases n with _ | _ | _ | n <;> simp [endsMpqRev] at h
  · rcases n with _ | _ | _ | _ | n
    · simp [endsMpqRev] at h
    · simp [endsMpqRev] at h
    · simp [endsMpqRev] at h
    · simp [endsMpqRev] at h
    · simpa [endsMpqRev] using h

theorem endsMpqRev_append_sep (nm rest : List Nat) (h : endsMpqRev (nm ++ 92 :: rest) = true) :
    endsMpqRev nm = true := by
  rcases nm with _ | ⟨c3, _ | ⟨c2, _ | ⟨c1, _ | ⟨c0, r⟩⟩⟩⟩
  · rcases rest with _ | ⟨a, _ | ⟨b, _ | ⟨c, r⟩⟩⟩ <;> simp [endsMpqRev] at h
  · rcases rest with _ | ⟨a, _ | ⟨b, r⟩⟩ <;> simp [endsMpqRev] at h
  · rcases rest with _ | ⟨a, r⟩ <;> simp [endsMpqRev] at h
  · simp [endsMpqRev] at h
  · simpa [endsMpqRev] using h

/-- A path below a directory ends in `.mpq` only if its last component does,
wherever the path is cut at the front. -/
theorem isMpqFile_childPath (fullPath name : List Nat) (n : Nat)
    (h : isMpqFile ((fullPath ++ 92 :: name).drop n) = true) : isMpqFile name = true := by
  rw [isMpqFile_eq_endsMpqRev] at h ⊢
  rw [List.reverse_drop] at h
  have h2 := endsMpqRev_take _ _ h
  rw [List.reverse_append, List.reverse_cons, List.append_assoc] at h2
  exact endsMpqRev_append_sep _ _ h2

theorem fitsPath_iff (p : List Nat) : fitsPath p = true ↔ p.length < 260 := by
  unfold fitsPath MAX_PATH
  exact decide_eq_true_iff

theorem fitsPath_false_iff (p : List Nat) : fitsPath p = false ↔ 260 ≤ p.length := by
  unfold fitsPath MAX_PATH
  rw [decide_eq_false_iff_not]
  omega

/-- What the loop body does for a regular file that is not `.` or `..`, when the
child path fits its buffer and both offsets lie within it. -/
theorem scanEntry_file {σ : Type} (insert : σ → List Nat → List Nat → σ)
    (g_wowDirLen : Nat) (fullPath : List Nat) (baseDirLen : Nat) (name : List Nat) (st : σ)
    (hdot : isDotEntry name = false)
    (hfit : (fullPath ++ 92 :: name).length < MAX_PATH)
    (hb : baseDirLen ≤ (fullPath ++ 92 :: name).length)
    (hw : g_wowDirLen ≤ (fullPath ++ 92 :: name).length) :
    scanEntry insert g_wowDirLen fullPath baseDirLen (DirEntry.file name) st =
      some (if isMpqFile name = true then st
        else insert st ((fullPath ++ 92 :: name).drop baseDirLen)
          ((fullPath ++ 92 :: name).drop g_wowDirLen)) := by
  have hf : fitsPath (fullPath ++ 92 :: name) = true := (fitsPath_iff _).2 hfit
  rw [scanEntry]
  simp only [hdot, hf, Bool.false_eq_true, if_false, Bool.not_true]
  cases isMpqFile name with
  | true => simp
  | false =>
    simp only [Bool.not_false, Bool.false_eq_true, if_true, if_false]
    rw [if_pos ⟨hb, hw⟩]

/-- The loop body has no defined result for an entry other than `.` and `..`
whose child path does not fit its buffer. -/
theorem scanEntry_overrun {σ : Type} (insert : σ → List Nat → List Nat → σ)
    (g_wowDirLen : Nat) (fullPath : List Nat) (baseDirLen : Nat) (e : DirEntry) (st : σ)
    (hdot : isDotEntry e.name = false)
    (hfit : MAX_PATH ≤ (fullPath ++ 92 :: e.name).length) :
    scanEntry insert g_wowDirLen fullPath baseDirLen e st = none := by
  cases e with
  | file name =>
    have hd : isDotEntry name = false := hdot
    have hf : fitsPath (fullPath ++ 92 :: name) = false := (fitsPath_false_iff _).2 hfit
    rw [scanEntry]
    simp only [hd, hf, Bool.false_eq_true, if_false, Bool.not_false, if_true]
  | dir name opens listing =>
    have hd : isDotEntry name = false := hdot
    have hf : fitsPath (fullPath ++ 92 :: name) = false := (fitsPath_false_iff _).2 hfit
    rw [scanEntry]
    simp only [hd, hf, Bool.false_eq_true, if_false, Bool.not_false, if_true]

mutual
theorem scanEntry_noMpq (w b : Nat) : ∀ (e : DirEntry) (full : List Nat)
    (st out : List (List Nat × List Nat)), NoMpqCalls st →
    scanEntry recordCall w full b e st = some out → NoMpqCalls out
  | DirEntry.file name, full, st, out, h, hr => by
    rw [scanEntry] at hr
    by_cases hdot : isDotEntry name = true
    · rw [if_pos hdot] at hr
      cases hr
      exact h
    · rw [if_neg hdot] at hr
      split at hr
      · cases hr
      · cases hm : isMpqFile name with
        | true =>
          rw [hm] at hr
          simp only [Bool.not_true, Bool.false_eq_true, if_false, Option.some.injEq] at hr
          exact hr ▸ h
        | false =>
          rw [hm] at hr
          simp only [Bool.not_false, if_true] at hr
          split at hr
          · simp only [Option.some.injEq] at hr
            subst hr
            intro c hc
            rcases List.mem_append.1 hc with hc | hc
            · exact h c hc
            · simp only [List.mem_singleton] at hc
              subst hc
              cases hk : isMpqFile ((full ++ 92 :: name).drop b) with
              | false => rfl
              | true =>
                have := isMpqFile_childPath full name b hk
                rw [hm] at this
                exact Bool.noConfusion this
          · cases hr
  | DirEntry.dir name opens listing, full, st, out, h, hr => by
    rw [scanEntry] at hr
    by_cases hdot : isDotEntry name = true
    · rw [if_pos hdot] at hr
      cases hr
      exact h
    · rw [if_neg hdot] at hr
      split at hr
      · cases hr
      · split at hr
        · cases hr
        · cases opens with
          | false =>
            simp only [Bool.false_eq_true, if_false, Option.some.injEq] at hr
            exact hr ▸ h
          | true =>
            simp only [if_true] at hr
            exact scanLoop_noMpq w b listing _ st out h hr
theorem scanLoop_noMpq (w b : Nat) : ∀ (l : Listing) (full : List Nat)
    (st out : List (List Nat × List Nat)), NoMpqCalls st →
    scanLoop recordCall w full b l st = some out → NoMpqCalls out
  | Listing.nil, full, st, out, h, hr => by
    rw [scanLoop] at hr
    cases hr
    exact h
  | Listing.cons e rest, full, st, out, h, hr => by
    rw [scanLoop] at hr
    cases he : scanEntry recordCall w full b e st with
    | none => rw [he] at hr; cases hr
    | some st1 =>
      rw [he] at hr
      exact scanLoop_noMpq w b rest full st1 out (scanEntry_noMpq w b e full st st1 h he) hr
end

theorem scanDirectory_noMpq (w b : Nat) (full : List Nat) (opens : Bool) (l : Listing)
    (out : List (List Nat × List Nat))
    (hr : scanDirectory recordCall w full b opens l [] = some out) : NoMpqCalls out := by
  unfold scanDirectory at hr
  split at hr
  · cases hr
  · cases opens with
    | false =>
      simp only [Bool.false_eq_true, if_false, Option.some.injEq] at hr
      subst hr
      intro c hc
      simp at hc
    | true =>
      simp only [if_true] at hr
      exact scanLoop_noMpq w b l full [] out (by intro c hc; simp at hc) hr

/-! ## The scan of the concrete scenario -/

theorem isMpqFile_humanMale : isMpqFile nameHumanMale = false := by decide

theorem isMpqFile_patch : isMpqFile namePatch = true := by decide

/-- The scan of the scenario below a root of at most 226 bytes makes exactly
one call to `hashSet_insert`. -/
theorem scan_scenario {σ : Type} (insert : σ → List Nat → List Nat → σ) (wowDir : List Nat)
    (st : σ) (hlen : wowDir.length ≤ 226) :
    scanDirectory insert wowDir.length (wowDir ++ dataName) (wowDir.length + 5) true
      scenarioListing st = some (insert st keyHumanMale diskHumanMale) := by
  have hk : (wowDir ++ dataName ++ 92 :: nameCharacter ++ 92 :: nameHuman
      ++ 92 :: nameHumanMale).drop (wowDir.length + 5) = keyHumanMale := by
    simp only [List.append_assoc]
    rw [List.drop_append]
    rfl
  have hd : (wowDir ++ dataName ++ 92 :: nameCharacter ++ 92 :: nameHuman
      ++ 92 :: nameHumanMale).drop wowDir.length = diskHumanMale := by
    simp only [List.append_assoc]
    rw [List.drop_left]
    rfl
  have h1 : isDotEntry nameDot = true := rfl
  have h2 : isDotEntry nameDotDot = true := rfl
  have h3 : isDotEntry nameCharacter = false := rfl
  have h4 : isDotEntry nameHuman = false := rfl
  have h5 : isDotEntry nameHumanMale = false := rfl
  have h6 : isDotEntry namePatch = false := rfl
  have f0 : fitsPath (wowDir ++ dataName ++ [92, 42]) = true :=
    (fitsPath_iff _).2 (by simp [dataName]; omega)
  have f1 : fitsPath (wowDir ++ dataName ++ 92 :: nameCharacter) = true :=
    (fitsPath_iff _).2 (by simp [dataName, nameCharacter]; omega)
  have f2 : fitsPath (wowDir ++ dataName ++ 92 :: nameCharacter ++ [92, 42]) = true :=
    (fitsPath_iff _).2 (by simp [dataName, nameCharacter]; omega)
  have f3 : fitsPath (wowDir ++ dataName ++ 92 :: nameCharacter ++ 92 :: nameHuman) = true :=
    (fitsPath_iff _).2 (by simp [dataName, nameCharacter, nameHuman]; omega)
  have f4 : fitsPath (wowDir ++ dataName ++ 92 :: nameCharacter ++ 92 :: nameHuman
      ++ [92, 42]) = true :=
    (fitsPath_iff _).2 (by simp [dataName, nameCharacter, nameHuman]; omega)
  have f5 : fitsPath (wowDir ++ dataName ++ 92 :: nameCharacter ++ 92 :: nameHuman
      ++ 92 :: nameHumanMale) = true :=
    (fitsPath_iff _).2 (by simp [dataName, nameCharacter, nameHuman, nameHumanMale]; omega)
  have f6 : fitsPath (wowDir ++ dataName ++ 92 :: namePatch) = true :=
    (fitsPath_iff _).2 (by simp [dataName, namePatch]; omega)
  have g1 : wowDir.length + 5 ≤ (wowDir ++ dataName ++ 92 :: nameCharacter ++ 92 :: nameHuman
      ++ 92 :: nameHumanMale).length := by
    simp [dataName]
  have g2 : wowDir.length ≤ (wowDir ++ dataName ++ 92 :: nameCharacter ++ 92 :: nameHuman
      ++ 92 :: nameHumanMale).length := by
    simp [dataName]
  simp only [scanDirectory, scenarioListing, scanLoop, scanEntry, h1, h2, h3, h4, h5, h6,
    f0, f1, f2, f3, f4, f5, f6, g1, g2, and_self,
    isMpqFile_humanMale, isMpqFile_patch, hk, hd, if_true, if_false, Bool.not_false,
    Bool.not_true, Bool.false_eq_true]

/-- Below a root of more than 226 bytes the scan of the scenario has no defined
result: one of the formatted paths, at the latest the child path of
`HumanMale.m2`, does not fit its buffer. -/
theorem scan_scenario_overrun {σ : Type} (insert : σ → List Nat → List Nat → σ)
    (wowDir : List Nat) (st : σ) (hlen : 226 < wowDir.length) :
    scanDirectory insert wowDir.length (wowDir ++ dataName) (wowDir.length + 5) true
      scenarioListing st = none := by
  have h1 : isDotEntry nameDot = true := rfl
  have h2 : isDotEntry nameDotDot = true := rfl
  have h3 : isDotEntry nameCharacter = false := rfl
  have h4 : isDotEntry nameHuman = false := rfl
  have h5 : isDotEntry nameHumanMale = false := rfl
  have f5 : fitsPath (wowDir ++ dataName ++ 92 :: nameCharacter ++ 92 :: nameHuman
      ++ 92 :: nameHumanMale) = false :=
    (fitsPath_false_iff _).2
      (by simp [dataName, nameCharacter, nameHuman, nameHumanMale]; omega)
  simp only [scanDirectory, scenarioListing, scanLoop, scanEntry, h1, h2, h3, h4, h5, f5,
    if_true, if_false, Bool.not_false, Bool.not_true, Bool.false_eq_true]
  split_ifs <;> rfl

theorem computeHashLoop_cons (h c : Nat) (str : List Nat) :
    computeHashLoop h (c :: str) = computeHashLoop ((h * 33 + hashChar c) % 4294967296) str := by
  rw [computeHashLoop]
  congr 1
  unfold u32
  rw [Nat.shiftLeft_eq]
  omega

theorem hash_keyHumanMale : computeHash keyHumanMale = 1753967368 := by
  simp only [computeHash, keyHumanMale, computeHashLoop_cons, hashChar]
  norm_num [computeHashLoop]

theorem hash_keyHumanMaleLower : computeHash keyHumanMaleLower = 1753967368 := by
  simp only [computeHash, keyHumanMaleLower, computeHashLoop_cons, hashChar]
  norm_num [computeHashLoop]

theorem hash_keyHumanMaleMixed : computeHash keyHumanMaleMixed = 1753967368 := by
  simp only [computeHash, keyHumanMaleMixed, computeHashLoop_cons, hashChar]
  norm_num [computeHashLoop]

theorem hash_keyPatchLower : computeHash keyPatchLower = 2756548275 := by
  simp only [computeHash, keyPatchLower, computeHashLoop_cons, hashChar]
  norm_num [computeHashLoop]

theorem grow_at (n : Nat) :
    hashSet_grow true { Globals.initial with g_wowDirLen := n } = some (true, freshAt n) :=
  grow_empty (Or.inl rfl) rfl

theorem not_threshold_freshAt (n : Nat) : ¬ AtThreshold (freshAt n) := by
  show ¬ (u32 (0 * 100) ≥ u32 (1024 * HASH_SET_MAX_LOAD))
  decide

theorem insertAt_freshAt_humanMale (n : Nat) :
    insertAt Alloc.ok (freshAt n) keyHumanMale diskHumanMale = some (true, scenarioState n) :=
  insertAt_added (freshAt n) (List.replicate 1024 none) keyHumanMale diskHumanMale 776
    1753967368 1024 0 rfl rfl rfl hash_keyHumanMale
    (probe_at_empty (stopInsert keyHumanMale) (List.replicate 1024 none) 1023 1023 776
      (get_replicate_none (by decide)))

theorem insert_freshAt_humanMale (n : Nat) :
    hashSet_insert Alloc.ok (freshAt n) keyHumanMale diskHumanMale
      = some (true, scenarioState n) :=
  (insert_below_threshold (not_threshold_freshAt n) keyHumanMale diskHumanMale).trans
    (insertAt_freshAt_humanMale n)

theorem read_tblScenario_776 : tblScenario[776]? = some (some entryHumanMale) :=
  get_one_same (some entryHumanMale) (by decide)

theorem read_tblScenario_691 : tblScenario[691]? = some none :=
  get_one_other (some entryHumanMale) (by decide) (by decide)

theorem stopLookup_lower : stopLookup keyHumanMaleLower entryHumanMale = true := by
  unfold stopLookup
  rw [hash_keyHumanMaleLower]
  decide

theorem stopLookup_mixed : stopLookup keyHumanMaleMixed entryHumanMale = true := by
  unfold stopLookup
  rw [hash_keyHumanMaleMixed]
  decide

theorem lookup_scenario_lower (n : Nat) :
    hashSet_lookup (scenarioState n) keyHumanMaleLower = some (some diskHumanMale) :=
  lookup_hit (scenarioState n) tblScenario keyHumanMaleLower 776 entryHumanMale 1753967368
    1024 rfl rfl (by decide) hash_keyHumanMaleLower
    (probe_at_hit (stopLookup keyHumanMaleLower) tblScenario 1023 1023 776 entryHumanMale
      read_tblScenario_776 stopLookup_lower)

theorem lookup_scenario_mixed (n : Nat) :
    hashSet_lookup (scenarioState n) keyHumanMaleMixed = some (some diskHumanMale) :=
  lookup_hit (scenarioState n) tblScenario keyHumanMaleMixed 776 entryHumanMale 1753967368
    1024 rfl rfl (by decide) hash_keyHumanMaleMixed
    (probe_at_hit (stopLookup keyHumanMaleMixed) tblScenario 1023 1023 776 entryHumanMale
      read_tblScenario_776 stopLookup_mixed)

theorem lookup_scenario_patch (n : Nat) :
    hashSet_lookup (scenarioState n) keyPatchLower = some none :=
  lookup_miss (scenarioState n) tblScenario keyPatchLower 691 2756548275 1024 rfl rfl
    (by decide) hash_keyPatchLower
    (probe_at_empty (stopLookup keyPatchLower) tblScenario 1023 1023 691 read_tblScenario_691)

theorem init_unfold (moduleFileName : List Nat) (fileAttr : List Nat → Option DirEntry)
    (callocOk : Bool) (alloc : Nat → Alloc) (wowDir : Option (List Nat)) (s : Globals)
    (root : List Nat) (hroot : initRoot moduleFileName wowDir = some root) :
    looseFiles_init moduleFileName fileAttr callocOk alloc wowDir s =
      match hashSet_grow callocOk { s with g_wowDirLen := root.length } with
      | none => none
      | some (_, s2) =>
        if !fitsPath (root ++ dataName) then none
        else
          match fileAttr (root ++ dataName) with
          | some (DirEntry.dir _ opens listing) =>
            (scanDirectory (scanInsert alloc) s2.g_wowDirLen (root ++ dataName)
              (s2.g_wowDirLen + 5) opens listing (0, some s2)).bind Prod.snd
          | _ => some s2 := by
  unfold looseFiles_init
  rw [hroot]

theorem init_of_grow (moduleFileName : List Nat) (fileAttr : List Nat → Option DirEntry)
    (callocOk : Bool) (alloc : Nat → Alloc) (w : List Nat) (s s2 : Globals) (b : Bool)
    (hg : hashSet_grow callocOk { s with g_wowDirLen := w.length } = some (b, s2))
    (hfit : fitsPath (w ++ dataName) = true) :
    looseFiles_init moduleFileName fileAttr callocOk alloc (some w) s =
      match fileAttr (w ++ dataName) with
      | some (DirEntry.dir _ opens listing) =>
        (scanDirectory (scanInsert alloc) s2.g_wowDirLen (w ++ dataName)
          (s2.g_wowDirLen + 5) opens listing (0, some s2)).bind Prod.snd
      | _ => some s2 := by
  rw [init_unfold moduleFileName fileAttr callocOk alloc (some w) s w rfl, hg]
  simp only [hfit, Bool.not_true, Bool.false_eq_true, if_false]

theorem scanInsert_ok (alloc : Nat → Alloc) (n : Nat) (g g2 : Globals) (k d : List Nat)
    (b : Bool) (h : hashSet_insert (alloc n) g k d = some (b, g2)) :
    scanInsert alloc (n, some g) k d = (n + 1, some g2) := by
  unfold scanInsert
  simp only [Option.some_bind, h, Option.map_some']

theorem init_scenario (moduleFileName wowDir : List Nat) (fileAttr : List Nat → Option DirEntry)
    (hlen : wowDir.length ≤ 226)
    (hdata : fileAttr (wowDir ++ dataName) = some (DirEntry.dir dataName true scenarioListing)) :
    looseFiles_init moduleFileName fileAttr true (fun _ => Alloc.ok) (some wowDir)
      Globals.initial = some (scenarioState wowDir.length) := by
  have hfit : fitsPath (wowDir ++ dataName) = true :=
    (fitsPath_iff _).2 (by simp [dataName]; omega)
  rw [init_of_grow moduleFileName fileAttr true (fun _ => Alloc.ok) wowDir Globals.initial
    (freshAt wowDir.length) true (grow_at wowDir.length) hfit, hdata]
  show (scanDirectory (scanInsert fun _ => Alloc.ok) wowDir.length (wowDir ++ dataName)
    (wowDir.length + 5) true scenarioListing (0, some (freshAt wowDir.length))).bind Prod.snd
      = _
  rw [scan_scenario _ _ _ hlen,
    scanInsert_ok (fun _ => Alloc.ok) 0 (freshAt wowDir.length) (scenarioState wowDir.length)
      keyHumanMale diskHumanMale true (insert_freshAt_humanMale wowDir.length)]
  rfl

theorem grow_wowDirLen {s s2 : Globals} {callocOk b : Bool}
    (h : hashSet_grow callocOk s = some (b, s2)) : s2.g_wowDirLen = s.g_wowDirLen := by
  unfold hashSet_grow at h
  cases callocOk with
  | false =>
    simp only [Bool.not_false, if_true, Option.some.injEq, Prod.mk.injEq] at h
    rw [← h.2]
  | true =>
    simp only [Bool.not_true, Bool.false_eq_true, if_false] at h
    split at h
    · simp at h
    · simp only [Option.some.injEq, Prod.mk.injEq] at h
      rw [← h.2]

/-- Below a root of more than 226 bytes `looseFiles_init` has no defined result
in the scenario. -/
theorem init_scenario_overrun (moduleFileName wowDir : List Nat)
    (fileAttr : List Nat → Option DirEntry) (callocOk : Bool) (alloc : Nat → Alloc)
    (s : Globals) (hlen : 226 < wowDir.length)
    (hdata : fileAttr (wowDir ++ dataName) = some (DirEntry.dir dataName true scenarioListing)) :
    looseFiles_init moduleFileName fileAttr callocOk alloc (some wowDir) s = none := by
  rw [init_unfold moduleFileName fileAttr callocOk alloc (some wowDir) s wowDir rfl]
  cases hg : hashSet_grow callocOk { s with g_wowDirLen := wowDir.length } with
  | none => rfl
  | some r =>
    obtain ⟨b, s2⟩ := r
    simp only [hdata]
    have hw : s2.g_wowDirLen = wowDir.length := grow_wowDirLen hg
    rw [hw, scan_scenario_overrun _ _ _ hlen]
    split_ifs <;> rfl

/-! ## Hashing as a fold; what normalisation does to a byte -/

theorem computeHashLoop_eq_foldl (h : Nat) (str : List Nat) :
    computeHashLoop h str
      = (normalizePath str).foldl (fun h c => (h * 33 + c) % 4294967296) h := by
  induction str generalizing h with
  | nil => rfl
  | cons c str ih =>
    rw [computeHashLoop_cons, ih, hashChar_eq_normChar]
    rfl

theorem normChar_slash : normChar 47 = 92 := rfl

theorem normChar_upper {c : Nat} (h1 : 65 ≤ c) (h2 : c ≤ 90) : normChar c = c + 32 := by
  unfold normChar
  rw [if_neg (by omega), if_pos ⟨h1, h2⟩]

theorem normChar_other {c : Nat} (h1 : c ≠ 47) (h2 : ¬ (65 ≤ c ∧ c ≤ 90)) : normChar c = c := by
  unfold normChar
  rw [if_neg h1, if_neg h2]

theorem normalizePath_length (p : List Nat) : (normalizePath p).length = p.length := by
  rw [normalizePath_eq_map, List.length_map]

theorem normalizePath_get (p : List Nat) (i : Nat) :
    (normalizePath p)[i]? = (p[i]?).map normChar := by
  rw [normalizePath_eq_map, List.getElem?_map]

/-! ## The outcomes of one `hashSet_insert` -/

/-- The three outcomes of the probing part of `hashSet_insert`: an allocation
fails and nothing changes, the key is found and nothing changes, or one entry
is added. -/
theorem insertAt_outcome {s s2 : Globals} {t : Table} (h : Populated s t)
    (hload : s.g_hashCount * 100 < s.g_hashCapacity * 70) {a : Alloc}
    {key diskPath : List Nat} (hk : IsCStr key) {b : Bool}
    (hi : insertAt a s key diskPath = some (b, s2)) :
    (b = false ∧ s2 = s ∧ (a.keyMalloc = false ∨ a.diskMalloc = false)) ∨
    (b = true ∧ s2 = s ∧
      ∃ e ∈ content s, e.hash = computeHash key ∧ _stricmp e.key key = 0) ∨
    (b = true ∧ s2.g_hashCount = s.g_hashCount + 1 ∧
      s2.g_hashCapacity = s.g_hashCapacity ∧
      (content s2).Perm (toEntry (key, diskPath) :: content s) ∧
      ∀ e ∈ content s, e.hash = computeHash key → _stricmp e.key key ≠ 0) := by
  rw [content_of_populated h]
  rcases insertAt_spec h hload a key diskPath hk with
    ⟨h1, h2⟩ | ⟨hno, ⟨h1, h2⟩ | ⟨-, -, slot, -, h1, hp2, hperm⟩⟩
  · rw [h1] at hi
    simp only [Option.some.injEq, Prod.mk.injEq] at hi
    exact Or.inr (Or.inl ⟨hi.1.symm, hi.2.symm, h2⟩)
  · rw [h1] at hi
    simp only [Option.some.injEq, Prod.mk.injEq] at hi
    exact Or.inl ⟨hi.1.symm, hi.2.symm, h2⟩
  · rw [h1] at hi
    simp only [Option.some.injEq, Prod.mk.injEq] at hi
    obtain ⟨hb, hs⟩ := hi
    subst hb
    subst hs
    refine Or.inr (Or.inr ⟨rfl, rfl, rfl, ?_, hno⟩)
    rw [content_of_populated hp2]
    exact hperm

/-- One `hashSet_insert` in a state satisfying the invariant: first the state
stays as it is or, when the load test asks for it and `calloc` succeeds, is
grown once (`s1`); then one of the three outcomes of `insertAt_outcome`. -/
theorem insert_outcome {s s2 : Globals} (hinv : Inv s) {a : Alloc} {key diskPath : List Nat}
    (hk : IsCStr key) {b : Bool} (hi : hashSet_insert a s key diskPath = some (b, s2)) :
    ∃ s1, (s1 = s ∨
        (AtThreshold s ∧ a.calloc = true ∧ hashSet_grow true s = some (true, s1))) ∧
      s1.g_hashCount = s.g_hashCount ∧ (content s1).Perm (content s) ∧
      ((b = false ∧ s2 = s1 ∧
          (a.calloc = false ∨ a.keyMalloc = false ∨ a.diskMalloc = false)) ∨
       (b = true ∧ s2 = s1 ∧
          ∃ e ∈ content s1, e.hash = computeHash key ∧ _stricmp e.key key = 0) ∨
       (b = true ∧ s2.g_hashCount = s1.g_hashCount + 1 ∧
          s2.g_hashCapacity = s1.g_hashCapacity ∧
          (content s2).Perm (toEntry (key, diskPath) :: content s1) ∧
          ∀ e ∈ content s1, e.hash = computeHash key → _stricmp e.key key ≠ 0)) := by
  have lift : ∀ {s1 : Globals},
      ((b = false ∧ s2 = s1 ∧ (a.keyMalloc = false ∨ a.diskMalloc = false)) ∨
        (b = true ∧ s2 = s1 ∧
          ∃ e ∈ content s1, e.hash = computeHash key ∧ _stricmp e.key key = 0) ∨
        (b = true ∧ s2.g_hashCount = s1.g_hashCount + 1 ∧
          s2.g_hashCapacity = s1.g_hashCapacity ∧
          (content s2).Perm (toEntry (key, diskPath) :: content s1) ∧
          ∀ e ∈ content s1, e.hash = computeHash key → _stricmp e.key key ≠ 0)) →
      ((b = false ∧ s2 = s1 ∧
          (a.calloc = false ∨ a.keyMalloc = false ∨ a.diskMalloc = false)) ∨
        (b = true ∧ s2 = s1 ∧
          ∃ e ∈ content s1, e.hash = computeHash key ∧ _stricmp e.key key = 0) ∨
        (b = true ∧ s2.g_hashCount = s1.g_hashCount + 1 ∧
          s2.g_hashCapacity = s1.g_hashCapacity ∧
          (content s2).Perm (toEntry (key, diskPath) :: content s1) ∧
          ∀ e ∈ content s1, e.hash = computeHash key → _stricmp e.key key ≠ 0)) := by
    intro s1 h
    rcases h with ⟨h1, h2, h3⟩ | h | h
    · exact Or.inl ⟨h1, h2, Or.inr h3⟩
    · exact Or.inr (Or.inl h)
    · exact Or.inr (Or.inr h)
  unfold hashSet_insert at hi
  by_cases htest : u32 (s.g_hashCount * 100) ≥ u32 (s.g_hashCapacity * HASH_SET_MAX_LOAD)
  · rw [if_pos htest] at hi
    rcases (Bool.eq_false_or_eq_true a.calloc).symm with hac | hac
    ·
      rw [hac, grow_fail] at hi
      simp only [Option.some.injEq, Prod.mk.injEq] at hi
      exact ⟨s, Or.inl rfl, rfl, List.Perm.refl _,
        Or.inl ⟨hi.1.symm, hi.2.symm, Or.inl hac⟩⟩
    ·
      rw [hac] at hi
      rcases hinv with ⟨ht, hc, hn⟩ | ⟨t, hp⟩
      · have hg := grow_empty ht hc
        rw [hg] at hi
        simp only at hi
        have hp1 := populated_fresh_like (s := s) hn
        refine ⟨_, Or.inr ⟨htest, hac, hg⟩, rfl, ?_, ?_⟩
        · rw [content_of_populated hp1, content_of_no_table ht, entries_replicate]
        · exact lift (insertAt_outcome hp1
            (by show s.g_hashCount * 100 < 1024 * 70; rw [hn]; decide) hk hi)
      · by_cases hlt : s.g_hashCapacity < 2147483648
        · obtain ⟨nt, h1, h2, h3⟩ := grow_populated hp hlt
          rw [h1] at hi
          simp only at hi
          have hload := hp.load
          have hbig := hp.big
          refine ⟨_, Or.inr ⟨htest, hac, h1⟩, rfl, ?_, ?_⟩
          · rw [content_of_populated h2, content_of_populated hp]
            exact h3
          · exact lift (insertAt_outcome h2
              (by show s.g_hashCount * 100 < s.g_hashCapacity * 2 * 70; omega) hk hi)
        · exfalso
          have hcap : s.g_hashCapacity = 2147483648 := by
            have := powCap_le hp.ok.pow
            omega
          cases hg : hashSet_grow true s with
          | none => rw [hg] at hi; simp at hi
          | some r =>
            obtain ⟨b1, s1⟩ := r
            have hb1 := grow_true_result hg
            subst hb1
            obtain ⟨g1, g2, -⟩ := grow_wrap hp hcap hg
            rw [hg] at hi
            simp only at hi
            rw [insertAt_zero_table a key diskPath g1 g2] at hi
            simp at hi
  · rw [if_neg htest] at hi
    rcases hinv with ⟨-, hc, hn⟩ | ⟨t, hp⟩
    · exfalso
      apply htest
      rw [hc, hn]
      decide
    · have hload := load_test_false hp.ok.pow hp.load htest
      exact ⟨s, Or.inl rfl, rfl, List.Perm.refl _, lift (insertAt_outcome hp hload hk hi)⟩

/-- The entries after one `hashSet_insert` are entries held before or the entry
of the inserted pair. -/
theorem insert_content {s s2 : Globals} (hinv : Inv s) {a : Alloc} {key diskPath : List Nat}
    (hk : IsCStr key) {b : Bool} (hi : hashSet_insert a s key diskPath = some (b, s2))
    (e : HashEntry) (he : e ∈ content s2) :
    e ∈ content s ∨ e = toEntry (key, diskPath) := by
  obtain ⟨s1, -, -, hperm, h⟩ := insert_outcome hinv hk hi
  rcases h with ⟨-, h2, -⟩ | ⟨-, h2, -⟩ | ⟨-, -, -, h2, -⟩
  · rw [h2] at he; exact Or.inl (hperm.mem_iff.1 he)
  · rw [h2] at he; exact Or.inl (hperm.mem_iff.1 he)
  · rcases List.mem_cons.1 (h2.mem_iff.1 he) with h | h
    · exact Or.inr h
    · exact Or.inl (hperm.mem_iff.1 h)

/-- A run of inserts keeps the invariant, and every entry at its end was held
at the start or is the entry of one of the inserted pairs. -/
theorem runInserts_content (calls : List (Alloc × List Nat × List Nat))
    (hk : ∀ c ∈ calls, IsCStr c.2.1) :
    ∀ {s s2 : Globals}, Inv s → runInserts s calls = some s2 →
      Inv s2 ∧ ∀ e ∈ content s2,
        e ∈ content s ∨ ∃ c ∈ calls, e = toEntry (c.2.1, c.2.2) := by
  induction calls with
  | nil =>
    intro s s2 hinv hr
    simp only [runInserts, Option.some.injEq] at hr
    subst hr
    exact ⟨hinv, fun e he => Or.inl he⟩
  | cons c rest ih =>
    intro s s2 hinv hr
    rw [runInserts] at hr
    cases hi : hashSet_insert c.1 s c.2.1 c.2.2 with
    | none => rw [hi] at hr; simp at hr
    | some r =>
      obtain ⟨b, s1⟩ := r
      rw [hi] at hr
      simp only at hr
      have hkc := hk c (List.mem_cons_self _ _)
      have hinv1 := insert_inv hinv hkc hi
      obtain ⟨h1, h2⟩ := ih (fun c2 hc2 => hk c2 (List.mem_cons_of_mem _ hc2)) hinv1 hr
      refine ⟨h1, fun e he => ?_⟩
      rcases h2 e he with h | ⟨c2, hc2, h⟩
      · rcases insert_content hinv hkc hi e h with h3 | h3
        · exact Or.inl h3
        · exact Or.inr ⟨c, List.mem_cons_self _ _, h3⟩
      · exact Or.inr ⟨c2, List.mem_cons_of_mem _ hc2, h⟩

theorem inv_fresh : Inv fresh := Or.inr ⟨_, populated_fresh⟩

/-- A lookup in a state satisfying the invariant returns, for every key. -/
theorem lookup_defined {s : Globals} (h : Inv s) (q : List Nat) :
    hashSet_lookup s q ≠ none := by
  rcases h with h | ⟨t, hp⟩
  · rw [lookup_no_table h]; simp
  · obtain ⟨slot, r, hpr, -⟩ :=
      probe_table hp.ok (populated_room hp) (stopLookup q) (computeHash q)
    have hbig := hp.big
    unfold hashSet_lookup
    simp only [hp.tbl, hpr]
    rw [if_neg (by omega)]
    cases r <;> simp

theorem insertAt_defined {s : Globals} {t : Table} (h : Populated s t)
    (hload : s.g_hashCount * 100 < s.g_hashCapacity * 70) (a : Alloc)
    {key : List Nat} (hk : IsCStr key) (diskPath : List Nat) :
    insertAt a s key diskPath ≠ none := by
  rcases insertAt_spec h hload a key diskPath hk with
    ⟨h1, -⟩ | ⟨-, ⟨h1, -⟩ | ⟨-, -, slot, -, h1, -⟩⟩ <;> rw [h1] <;> simp

/-- Below `2^31` slots `hashSet_insert` returns, whatever the allocations do. -/
theorem insert_defined {s : Globals} (hinv : Inv s) (hcap : s.g_hashCapacity < 2147483648)
    (a : Alloc) {key : List Nat} (hk : IsCStr key) (diskPath : List Nat) :
    hashSet_insert a s key diskPath ≠ none := by
  unfold hashSet_insert
  by_cases htest : u32 (s.g_hashCount * 100) ≥ u32 (s.g_hashCapacity * HASH_SET_MAX_LOAD)
  · rw [if_pos htest]
    rcases (Bool.eq_false_or_eq_true a.calloc).symm with hac | hac
    · rw [hac, grow_fail]
      simp
    · rw [hac]
      rcases hinv with ⟨ht, hc, hn⟩ | ⟨t, hp⟩
      · rw [grow_empty ht hc]
        exact insertAt_defined (populated_fresh_like (s := s) hn)
          (by show s.g_hashCount * 100 < 1024 * 70; rw [hn]; decide) a hk diskPath
      · obtain ⟨nt, h1, h2, -⟩ := grow_populated hp hcap
        rw [h1]
        have hload := hp.load
        have hbig := hp.big
        exact insertAt_defined h2
          (by show s.g_hashCount * 100 < s.g_hashCapacity * 2 * 70; omega) a hk diskPath
  · rw [if_neg htest]
    rcases hinv with ⟨-, hc, hn⟩ | ⟨t, hp⟩
    · exfalso
      apply htest
      rw [hc, hn]
      decide
    · exact insertAt_defined hp (load_test_false hp.ok.pow hp.load htest) a hk diskPath

/-- A capacity that is a power of two and at least 1024 is `1024 * 2^j`. -/
theorem powCap_big {cap : Nat} (hp : PowCap cap) (hbig : 1024 ≤ cap) :
    ∃ j, j ≤ 21 ∧ cap = 1024 * 2 ^ j := by
  obtain ⟨e, he, rfl⟩ := hp
  have h10 : 10 ≤ e := by
    by_contra hlt
    have h1 : 2 ^ e < 2 ^ 10 := Nat.pow_lt_pow_right (by decide) (by omega)
    have h2 : (2 : Nat) ^ 10 = 1024 := by decide
    omega
  refine ⟨e - 10, by omega, ?_⟩
  have h2 : (1024 : Nat) = 2 ^ 10 := by decide
  rw [h2, ← pow_add]
  congr 1
  omega

/-- In a state satisfying the invariant, a capacity other than zero belongs to
a populated table. -/
theorem populated_of_cap {s : Globals} (hinv : Inv s) (hcap : s.g_hashCapacity ≠ 0) :
    ∃ t, Populated s t := by
  rcases hinv with ⟨-, hc, -⟩ | h
  · exact absurd hc hcap
  · exact h

/-- The lookup of any key in a table of 1024 empty slots finds nothing. -/
theorem lookup_empty_slots {s : Globals}
    (ht : s.g_hashTable = some (List.replicate 1024 none)) (hcap : s.g_hashCapacity = 1024)
    (q : List Nat) : hashSet_lookup s q = some none := by
  have hpow : PowCap 1024 := ⟨10, by decide, by decide⟩
  have hslot : computeHash q &&& maskOf 1024 < 1024 := by
    rw [land_maskOf hpow]
    exact Nat.mod_lt _ (by decide)
  exact lookup_miss s (List.replicate 1024 none) q (computeHash q &&& maskOf 1024)
    (computeHash q) 1024 ht hcap (by decide) rfl
    (probe_at_empty (stopLookup q) (List.replicate 1024 none) (maskOf 1024) 1023
      (computeHash q &&& maskOf 1024) (get_replicate_none hslot))

/-! ## The scan: what `looseFiles_init` passes to `hashSet_insert` -/

theorem scanEntry_dot {σ : Type} (insert : σ → List Nat → List Nat → σ)
    (w : Nat) (full : List Nat) (b : Nat) (e : DirEntry) (st : σ)
    (h : isDotEntry e.name = true) : scanEntry insert w full b e st = some st := by
  cases e with
  | file name =>
    have h2 : isDotEntry name = true := h
    rw [scanEntry, if_pos h2]
  | dir name opens listing =>
    have h2 : isDotEntry name = true := h
    rw [scanEntry, if_pos h2]

/-- A search that lists only `.` and `..` makes no call and formats no path. -/
theorem scanLoop_allDots {σ : Type} (insert : σ → List Nat → List Nat → σ)
    (w : Nat) (full : List Nat) (b : Nat) :
    ∀ (l : Listing), allDots l = true → ∀ (st : σ), scanLoop insert w full b l st = some st
  | Listing.nil, _, st => by rw [scanLoop]
  | Listing.cons e rest, h, st => by
    rw [allDots, Bool.and_eq_true] at h
    rw [scanLoop, scanEntry_dot insert w full b e st h.1]
    exact scanLoop_allDots insert w full b rest h.2 st

mutual
theorem scanEntry_fold {σ : Type} (insert : σ → List Nat → List Nat → σ) (w b : Nat) :
    ∀ (e : DirEntry) (full : List Nat) (acc : List (List Nat × List Nat)) (st0 : σ),
    scanEntry insert w full b e (acc.foldl (fun st c => insert st c.1 c.2) st0)
      = (scanEntry recordCall w full b e acc).map
          (fun calls => calls.foldl (fun st c => insert st c.1 c.2) st0)
  | DirEntry.file name, full, acc, st0 => by
    rw [scanEntry, scanEntry]
    by_cases hdot : isDotEntry name = true
    · rw [if_pos hdot, if_pos hdot]
      rfl
    · rw [if_neg hdot, if_neg hdot]
      cases fitsPath (full ++ 92 :: name) with
      | false => rfl
      | true =>
        cases isMpqFile name with
        | true => rfl
        | false =>
          simp only [Bool.not_true, Bool.false_eq_true, if_false, Bool.not_false, if_true]
          split
          · simp [recordCall, List.foldl_append]
          · rfl
  | DirEntry.dir name opens listing, full, acc, st0 => by
    rw [scanEntry, scanEntry]
    by_cases hdot : isDotEntry name = true
    · rw [if_pos hdot, if_pos hdot]
      rfl
    · rw [if_neg hdot, if_neg hdot]
      cases fitsPath (full ++ 92 :: name) with
      | false => rfl
      | true =>
        cases fitsPath ((full ++ 92 :: name) ++ [92, 42]) with
        | false => rfl
        | true =>
          cases opens with
          | false => rfl
          | true =>
            simp only [Bool.not_true, Bool.false_eq_true, if_false, if_true]
            exact scanLoop_fold insert w b listing _ acc st0
theorem scanLoop_fold {σ : Type} (insert : σ → List Nat → List Nat → σ) (w b : Nat) :
    ∀ (l : Listing) (full : List Nat) (acc : List (List Nat × List Nat)) (st0 : σ),
    scanLoop insert w full b l (acc.foldl (fun st c => insert st c.1 c.2) st0)
      = (scanLoop recordCall w full b l acc).map
          (fun calls => calls.foldl (fun st c => insert st c.1 c.2) st0)
  | Listing.nil, full, acc, st0 => by
    rw [scanLoop, scanLoop]
    rfl
  | Listing.cons e rest, full, acc, st0 => by
    rw [scanLoop, scanLoop, scanEntry_fold insert w b e full acc st0]
    cases scanEntry recordCall w full b e acc with
    | none => rfl
    | some out =>
      simp only [Option.map_some']
      exact scanLoop_fold insert w b rest full out st0
end

/-- The scan with any handler is the fold of the handler over the calls the
scan makes, in order; it has a defined result exactly when the recording scan
has one. -/
theorem scanDirectory_fold {σ : Type} (insert : σ → List Nat → List Nat → σ) (w b : Nat)
    (full : List Nat) (opens : Bool) (l : Listing) (st : σ) :
    scanDirectory insert w full b opens l st
      = (scanDirectory recordCall w full b opens l []).map
          (fun calls => calls.foldl (fun st c => insert st c.1 c.2) st) := by
  unfold scanDirectory
  cases fitsPath (full ++ [92, 42]) with
  | false => rfl
  | true =>
    cases opens with
    | false => rfl
    | true =>
      simp only [Bool.not_true, Bool.false_eq_true, if_false, if_true]
      exact scanLoop_fold insert w b l full [] st

theorem dirSuffix_append (dirs : List (List Nat)) (d : List Nat) :
    dirSuffix (dirs ++ [d]) = dirSuffix dirs ++ 92 :: d := by
  induction dirs with
  | nil => simp [dirSuffix]
  | cons c rest ih => simp [dirSuffix, ih]

theorem dirSuffix_cons_eq (c : List Nat) (rest : List (List Nat)) :
    dirSuffix (c :: rest) = 92 :: joinPath (c :: rest) := by
  induction rest generalizing c with
  | nil => simp [dirSuffix, joinPath]
  | cons d rest ih =>
    rw [dirSuffix, ih d, joinPath]
    rfl

theorem dirSuffix_snoc_eq (dirs : List (List Nat)) (name : List Nat) :
    dirSuffix (dirs ++ [name]) = 92 :: joinPath (dirs ++ [name]) := by
  cases dirs with
  | nil => exact dirSuffix_cons_eq name []
  | cons d ds => exact dirSuffix_cons_eq d (ds ++ [name])

/-- The child path of `name` in the directory `dirs` below `Data`, cut at
`wowDirLen + 5` and at `wowDirLen`. -/
theorem childPath_cut (w : List Nat) (dirs : List (List Nat)) (name : List Nat) :
    ((w ++ dataName ++ dirSuffix dirs) ++ 92 :: name).drop (w.length + 5)
      = joinPath (dirs ++ [name]) ∧
    ((w ++ dataName ++ dirSuffix dirs) ++ 92 :: name).drop w.length
      = dataName ++ 92 :: joinPath (dirs ++ [name]) := by
  have h : (w ++ dataName ++ dirSuffix dirs) ++ 92 :: name
      = w ++ (dataName ++ 92 :: joinPath (dirs ++ [name])) := by
    rw [← dirSuffix_snoc_eq, dirSuffix_append]
    simp only [List.append_assoc]
  rw [h]
  refine ⟨?_, List.drop_left _ _⟩
  rw [List.drop_append]
  rfl

theorem childPath_length (full name : List Nat) :
    (full ++ 92 :: name).length = full.length + 1 + name.length := by
  rw [List.length_append, List.length_cons]
  omega

theorem searchPath_length (full : List Nat) : (full ++ [92, 42]).length = full.length + 2 := by
  rw [List.length_append]
  rfl

theorem anchoredEntry_file (name : List Nat) (dirs : List (List Nat))
    (c : List Nat × List Nat) :
    AnchoredEntry (DirEntry.file name) dirs c ↔
      isDotEntry name = false ∧ isMpqFile name = false ∧
        c = (joinPath (dirs ++ [name]), dataName ++ 92 :: joinPath (dirs ++ [name])) := by
  constructor
  · rintro ⟨ds, nm, hf, hm, h1, h2⟩
    cases hf with
    | file _ hdot =>
      rw [List.append_nil] at h1
      exact ⟨hdot, hm, Prod.ext h1 (by rw [h2, h1])⟩
  · rintro ⟨hdot, hm, rfl⟩
    exact ⟨[], name, EntryHasFile.file name hdot, hm, by simp, rfl⟩

theorem anchoredEntry_dir (d : List Nat) (opens : Bool) (sub : Listing)
    (dirs : List (List Nat)) (c : List Nat × List Nat) :
    AnchoredEntry (DirEntry.dir d opens sub) dirs c ↔
      isDotEntry d = false ∧ opens = true ∧ Anchored sub (dirs ++ [d]) c := by
  constructor
  · rintro ⟨ds, nm, hf, hm, h1, h2⟩
    cases hf with
    | dir _ _ ds2 _ hdot hsub =>
      refine ⟨hdot, rfl, ds2, nm, hsub, hm, ?_, h2⟩
      rw [h1]
      simp only [List.append_assoc, List.singleton_append]
  · rintro ⟨hdot, rfl, ds, nm, hf, hm, h1, h2⟩
    refine ⟨d :: ds, nm, EntryHasFile.dir d sub ds nm hdot hf, hm, ?_, h2⟩
    rw [h1]
    simp only [List.append_assoc, List.singleton_append]

theorem anchored_nil (dirs : List (List Nat)) (c : List Nat × List Nat) :
    ¬ Anchored Listing.nil dirs c := by
  rintro ⟨ds, nm, hf, -⟩
  cases hf

theorem anchored_cons (e : DirEntry) (rest : Listing) (dirs : List (List Nat))
    (c : List Nat × List Nat) :
    Anchored (Listing.cons e rest) dirs c ↔ AnchoredEntry e dirs c ∨ Anchored rest dirs c := by
  constructor
  · rintro ⟨ds, nm, hf, hm, h1, h2⟩
    cases hf with
    | head _ _ _ _ he => exact Or.inl ⟨ds, nm, he, hm, h1, h2⟩
    | tail _ _ _ _ hr => exact Or.inr ⟨ds, nm, hr, hm, h1, h2⟩
  · rintro (⟨ds, nm, hf, hm, h1, h2⟩ | ⟨ds, nm, hf, hm, h1, h2⟩)
    · exact ⟨ds, nm, ListingHasFile.head e rest ds nm hf, hm, h1, h2⟩
    · exact ⟨ds, nm, ListingHasFile.tail e rest ds nm hf, hm, h1, h2⟩

mutual
/-- The loop body on the recording handler, for an entry of the directory
`dirs` below `Data`: when the paths fit it adds exactly the calls anchored at
the entry, and otherwise it has no defined result. -/
theorem scanEntry_spec (w : List Nat) :
    ∀ (e : DirEntry) (dirs : List (List Nat)) (acc : List (List Nat × List Nat)),
    (entryFits (w ++ dataName ++ dirSuffix dirs).length e = true →
      ∃ out, scanEntry recordCall w.length (w ++ dataName ++ dirSuffix dirs)
          (w.length + 5) e acc = some out ∧
        ∀ c, c ∈ out ↔ c ∈ acc ∨ AnchoredEntry e dirs c) ∧
    (entryFits (w ++ dataName ++ dirSuffix dirs).length e = false →
      scanEntry recordCall w.length (w ++ dataName ++ dirSuffix dirs)
        (w.length + 5) e acc = none)
  | DirEntry.file name, dirs, acc => by
    rw [scanEntry, entryFits]
    by_cases hdot : isDotEntry name = true
    · rw [if_pos hdot, hdot]
      refine ⟨fun _ => ⟨acc, rfl, fun c => ?_⟩, fun h => by simp at h⟩
      rw [anchoredEntry_file, hdot]
      simp
    · have hd : isDotEntry name = false := by simpa using hdot
      rw [if_neg hdot, hd, Bool.false_or]
      by_cases hfit : (w ++ dataName ++ dirSuffix dirs).length + 1 + name.length < MAX_PATH
      · have hf : fitsPath ((w ++ dataName ++ dirSuffix dirs) ++ 92 :: name) = true := by
          rw [fitsPath_iff, childPath_length]
          exact hfit
        refine ⟨fun _ => ?_, fun h => absurd hfit (of_decide_eq_false h)⟩
        simp only [hf, Bool.not_true, Bool.false_eq_true, if_false]
        cases hm : isMpqFile name with
        | true =>
          refine ⟨acc, by simp, fun c => ?_⟩
          rw [anchoredEntry_file, hm]
          simp
        | false =>
          have hoff : w.length + 5 ≤ ((w ++ dataName ++ dirSuffix dirs) ++ 92 :: name).length ∧
              w.length ≤ ((w ++ dataName ++ dirSuffix dirs) ++ 92 :: name).length := by
            simp only [List.length_append, List.length_cons, dataName, List.length_nil]
            omega
          obtain ⟨g1, g2⟩ := childPath_cut w dirs name
          refine ⟨acc ++ [(joinPath (dirs ++ [name]),
            dataName ++ 92 :: joinPath (dirs ++ [name]))], ?_, fun c => ?_⟩
          · simp only [Bool.not_false, if_true]
            rw [if_pos hoff, g1, g2]
            rfl
          · rw [anchoredEntry_file, List.mem_append, List.mem_singleton]
            simp [hd, hm]
      · have hf : fitsPath ((w ++ dataName ++ dirSuffix dirs) ++ 92 :: name) = false := by
          rw [fitsPath_false_iff, childPath_length]
          unfold MAX_PATH at hfit
          omega
        refine ⟨fun h => absurd (of_decide_eq_true h) hfit, fun _ => ?_⟩
        simp only [hf, Bool.not_false, if_true]
  | DirEntry.dir d opens sub, dirs, acc => by
    rw [scanEntry, entryFits]
    by_cases hdot : isDotEntry d = true
    · rw [if_pos hdot, hdot]
      refine ⟨fun _ => ⟨acc, rfl, fun c => ?_⟩, fun h => by simp at h⟩
      rw [anchoredEntry_dir, hdot]
      simp
    · have hd : isDotEntry d = false := by simpa using hdot
      have hfull : (w ++ dataName ++ dirSuffix dirs) ++ 92 :: d
          = w ++ dataName ++ dirSuffix (dirs ++ [d]) := by
        rw [dirSuffix_append]
        simp only [List.append_assoc]
      have hlen : (w ++ dataName ++ dirSuffix (dirs ++ [d])).length
          = (w ++ dataName ++ dirSuffix dirs).length + 1 + d.length := by
        rw [← hfull, childPath_length]
      rw [if_neg hdot, hd, Bool.false_or]
      by_cases hfit : (w ++ dataName ++ dirSuffix dirs).length + 1 + d.length + 2 < MAX_PATH
      · have hf1 : fitsPath ((w ++ dataName ++ dirSuffix dirs) ++ 92 :: d) = true := by
          rw [fitsPath_iff, childPath_length]
          unfold MAX_PATH at hfit
          omega
        have hf2 : fitsPath (((w ++ dataName ++ dirSuffix dirs) ++ 92 :: d) ++ [92, 42])
            = true := by
          rw [fitsPath_iff, searchPath_length, childPath_length]
          exact hfit
        simp only [hf1, hf2, Bool.not_true, Bool.false_eq_true, if_false, hfit, decide_True,
          Bool.true_and]
        cases opens with
        | false =>
          refine ⟨fun _ => ⟨acc, by simp, fun c => ?_⟩, fun h => by simp at h⟩
          rw [anchoredEntry_dir]
          simp
        | true =>
          simp only [if_true, Bool.not_true, Bool.false_or]
          rw [hfull, ← hlen]
          obtain ⟨ih1, ih2⟩ := scanLoop_spec w sub (dirs ++ [d]) acc
          refine ⟨fun h => ?_, ih2⟩
          obtain ⟨out, ho, hiff⟩ := ih1 h
          refine ⟨out, ho, fun c => ?_⟩
          rw [hiff c, anchoredEntry_dir]
          simp [hd]
      · refine ⟨fun h => by
          rw [Bool.and_eq_true] at h
          exact absurd (of_decide_eq_true h.1) hfit, fun _ => ?_⟩
        by_cases hf1 : fitsPath ((w ++ dataName ++ dirSuffix dirs) ++ 92 :: d) = true
        · have hf2 : fitsPath (((w ++ dataName ++ dirSuffix dirs) ++ 92 :: d) ++ [92, 42])
              = false := by
            rw [fitsPath_false_iff, searchPath_length, childPath_length]
            unfold MAX_PATH at hfit
            omega
          simp only [hf1, hf2, Bool.not_true, Bool.false_eq_true, if_false, Bool.not_false,
            if_true]
        · have hf1b : fitsPath ((w ++ dataName ++ dirSuffix dirs) ++ 92 :: d) = false := by
            simpa using hf1
          simp only [hf1b, Bool.not_false, if_true]
/-- The loop on the recording handler, as `scanEntry_spec`. -/
theorem scanLoop_spec (w : List Nat) :
    ∀ (l : Listing) (dirs : List (List Nat)) (acc : List (List Nat × List Nat)),
    (listingFits (w ++ dataName ++ dirSuffix dirs).length l = true →
      ∃ out, scanLoop recordCall w.length (w ++ dataName ++ dirSuffix dirs)
          (w.length + 5) l acc = some out ∧
        ∀ c, c ∈ out ↔ c ∈ acc ∨ Anchored l dirs c) ∧
    (listingFits (w ++ dataName ++ dirSuffix dirs).length l = false →
      scanLoop recordCall w.length (w ++ dataName ++ dirSuffix dirs)
        (w.length + 5) l acc = none)
  | Listing.nil, dirs, acc => by
    rw [scanLoop, listingFits]
    refine ⟨fun _ => ⟨acc, rfl, fun c => ?_⟩, fun h => by simp at h⟩
    simp [anchored_nil]
  | Listing.cons e rest, dirs, acc => by
    rw [scanLoop, listingFits]
    obtain ⟨e1, e2⟩ := scanEntry_spec w e dirs acc
    cases he : entryFits (w ++ dataName ++ dirSuffix dirs).length e with
    | false =>
      rw [e2 he]
      exact ⟨fun h => by simp at h, fun _ => rfl⟩
    | true =>
      obtain ⟨out1, ho1, hiff1⟩ := e1 he
      rw [ho1, Bool.true_and]
      obtain ⟨r1, r2⟩ := scanLoop_spec w rest dirs out1
      refine ⟨fun h => ?_, r2⟩
      obtain ⟨out, ho, hiff⟩ := r1 h
      refine ⟨out, ho, fun c => ?_⟩
      rw [hiff c, hiff1 c, anchored_cons, or_assoc]
end

/-- The calls of the scan that `looseFiles_init` starts below the root `w`: when
every formatted path fits, they are exactly the pairs anchored at the
non-archive files the scan reaches; otherwise the scan has no defined result. -/
theorem scan_calls (w : List Nat) (opens : Bool) (l : Listing) :
    (scanFits (w ++ dataName).length opens l = true →
      ∃ calls, scanDirectory recordCall w.length (w ++ dataName) (w.length + 5) opens l []
          = some calls ∧
        ∀ c, c ∈ calls ↔ (opens = true ∧ Anchored l [] c)) ∧
    (scanFits (w ++ dataName).length opens l = false →
      scanDirectory recordCall w.length (w ++ dataName) (w.length + 5) opens l [] = none) := by
  have hfull : w ++ dataName = w ++ dataName ++ dirSuffix [] := by
    rw [dirSuffix, List.append_nil]
  unfold scanDirectory scanFits
  by_cases hfit : (w ++ dataName).length + 2 < MAX_PATH
  · have hf : fitsPath (w ++ dataName ++ [92, 42]) = true := by
      rw [fitsPath_iff, searchPath_length]
      exact hfit
    simp only [hf, Bool.not_true, Bool.false_eq_true, if_false, hfit, decide_True,
      Bool.true_and]
    cases opens with
    | false =>
      exact ⟨fun _ => ⟨[], by simp, fun c => by simp⟩, fun h => by simp at h⟩
    | true =>
      simp only [if_true, Bool.not_true, Bool.false_or, true_and]
      obtain ⟨r1, r2⟩ := scanLoop_spec w l [] []
      rw [← hfull] at r1 r2
      refine ⟨fun h => ?_, r2⟩
      obtain ⟨out, ho, hiff⟩ := r1 h
      exact ⟨out, ho, fun c => by rw [hiff c]; simp⟩
  · have hf : fitsPath (w ++ dataName ++ [92, 42]) = false := by
      rw [fitsPath_false_iff, searchPath_length]
      unfold MAX_PATH at hfit
      omega
    refine ⟨fun h => by
      rw [Bool.and_eq_true] at h
      exact absurd (of_decide_eq_true h.1) hfit, fun _ => ?_⟩
    simp only [hf, Bool.not_false, if_true]

/-- The scan of `looseFiles_init`, when `Data` is a directory, is the fold of
`hashSet_insert` over the calls recorded for the root. -/
theorem init_calls (moduleFileName : List Nat) (fileAttr : List Nat → Option DirEntry)
    (callocOk : Bool) (alloc : Nat → Alloc) (wowDir : Option (List Nat)) (root : List Nat)
    (hroot : initRoot moduleFileName wowDir = some root) (s s2 : Globals) (b : Bool)
    (hg : hashSet_grow callocOk { s with g_wowDirLen := root.length } = some (b, s2))
    (hfit : fitsPath (root ++ dataName) = true)
    (name : List Nat) (opens : Bool) (listing : Listing)
    (hdata : fileAttr (root ++ dataName) = some (DirEntry.dir name opens listing)) :
    looseFiles_init moduleFileName fileAttr callocOk alloc wowDir s =
      ((scanDirectory recordCall root.length (root ++ dataName) (root.length + 5) opens
          listing []).map
        (fun calls => calls.foldl (fun st c => scanInsert alloc st c.1 c.2)
          (0, some s2))).bind Prod.snd := by
  rw [init_unfold moduleFileName fileAttr callocOk alloc wowDir s root hroot, hg]
  simp only [hfit, Bool.not_true, Bool.false_eq_true, if_false, hdata]
  rw [grow_wowDirLen hg]
  exact congrArg (fun r => Option.bind r Prod.snd)
    (scanDirectory_fold (scanInsert alloc) _ _ _ opens listing _)

/-! ## Lookups through the invariant -/

/-- What a lookup returns in a state satisfying the invariant. -/
theorem lookup_inv {s : Globals} (h : Inv s) {q : List Nat} (hq : IsCStr q) :
    (∃ e ∈ content s, e.key = normalizePath q ∧
        hashSet_lookup s q = some (some e.diskPath)) ∨
    ((∀ e ∈ content s, e.key ≠ normalizePath q) ∧ hashSet_lookup s q = some none) := by
  rcases h with h | ⟨t, hp⟩
  · right
    refine ⟨?_, lookup_no_table h q⟩
    rw [content_of_no_table h.1]
    intro e he
    simp at he
  · rw [content_of_populated hp]
    exact lookup_populated hp hq

/-- Two states with the same entries, no key being stored with two different
disk paths, answer every lookup alike. -/
theorem lookup_eq_of_perm {s s2 : Globals} (h : Inv s) (h2 : Inv s2)
    (hperm : (content s2).Perm (content s))
    (hu : ∀ e1 ∈ content s, ∀ e2 ∈ content s, e1.key = e2.key → e1.diskPath = e2.diskPath)
    {q : List Nat} (hq : IsCStr q) : hashSet_lookup s2 q = hashSet_lookup s q := by
  rcases lookup_inv h hq with ⟨e, he, hkey, hl⟩ | ⟨hno, hl⟩ <;>
    rcases lookup_inv h2 hq with ⟨e2, he2, hkey2, hl2⟩ | ⟨hno2, hl2⟩
  · rw [hl, hl2, hu e he e2 (hperm.mem_iff.1 he2) (hkey.trans hkey2.symm)]
  · exact absurd hkey (hno2 e (hperm.mem_iff.2 he))
  · exact absurd hkey2 (hno e2 (hperm.mem_iff.1 he2))
  · rw [hl, hl2]

/-! ## A failing `malloc` after a successful growth -/

theorem insertAt_alloc_fail (a : Alloc) (s : Globals) (tbl : Table) (k v : List Nat)
    (slot h cap : Nat) (ht : s.g_hashTable = some tbl) (hcap : s.g_hashCapacity = cap)
    (hh : computeHash k = h) (ha : a.keyMalloc = false)
    (hp : probe (stopInsert k) tbl (maskOf cap) cap (h &&& maskOf cap) = some (slot, none)) :
    insertAt a s k v = some (false, s) := by
  subst hh hcap
  unfold insertAt
  simp only [ht, hp, ha, Bool.not_false, if_true]

theorem atThreshold_initial : AtThreshold Globals.initial := by decide

/-- On the initial globals, with `calloc` succeeding and the `malloc` of the key
failing, `hashSet_insert` returns `false` and leaves the fresh table behind. -/
theorem insert_initial_key_fail :
    hashSet_insert keyMallocFails Globals.initial keyBackslash diskX = some (false, fresh) := by
  have h : insertAt keyMallocFails fresh keyBackslash diskX = some (false, fresh) :=
    insertAt_alloc_fail keyMallocFails fresh (List.replicate 1024 none) keyBackslash diskX 964
      193485764 1024 rfl rfl hash_keyBackslash rfl (probe_fresh_964 (stopInsert keyBackslash))
  have ht : u32 (Globals.initial.g_hashCount * 100)
      ≥ u32 (Globals.initial.g_hashCapacity * HASH_SET_MAX_LOAD) := atThreshold_initial
  unfold hashSet_insert
  rw [if_pos ht]
  show (match hashSet_grow true Globals.initial with
    | none => none
    | some (false, s1) => some (false, s1)
    | some (true, s1) => insertAt keyMallocFails s1 keyBackslash diskX) = _
  rw [grow_initial]
  exact h

/-- At the load threshold, below `2^31` slots, with `calloc` succeeding and the
`malloc` of the key failing, the insert of a key that is not stored returns
`false` after the table has been grown. -/
theorem insert_key_fail_grows {s : Globals} {t : Table} (hp : Populated s t)
    (htest : AtThreshold s) (hcap : s.g_hashCapacity < 2147483648) {a : Alloc}
    (hac : a.calloc = true) (hak : a.keyMalloc = false) {k : List Nat} (hk : IsCStr k)
    (v : List Nat) (hfresh : ∀ e ∈ entries t, e.key ≠ normalizePath k) :
    ∃ nt, hashSet_insert a s k v
        = some (false, { s with g_hashTable := some nt,
                                g_hashCapacity := s.g_hashCapacity * 2 }) := by
  obtain ⟨nt, h1, h2, h3⟩ := grow_populated hp hcap
  refine ⟨nt, ?_⟩
  have hload := hp.load
  have hbig := hp.big
  have htest2 : u32 (s.g_hashCount * 100) ≥ u32 (s.g_hashCapacity * HASH_SET_MAX_LOAD) := htest
  unfold hashSet_insert
  rw [if_pos htest2, hac, h1]
  show insertAt a _ k v = _
  rcases insertAt_spec h2
      (by show s.g_hashCount * 100 < s.g_hashCapacity * 2 * 70; omega) a k v hk with
    ⟨-, e, he, -, hcmp⟩ | ⟨-, ⟨hf, -⟩ | ⟨hkm, -⟩⟩
  · exfalso
    obtain ⟨hc, hn, -⟩ := h2.ok.keys e he
    apply hfresh e (h3.mem_iff.1 he)
    rw [← hn]
    exact normalize_eq_of_stricmp hc hk hcmp
  · exact hf
  · rw [hak] at hkm
    exact Bool.noConfusion hkm

theorem reachable_insertAll {s s2 : Globals} (hs : Reachable s)
    {kvs : List (List Nat × List Nat)} (hk : ∀ kv ∈ kvs, IsCStr kv.1)
    (hr : insertAll s kvs = some s2) : Reachable s2 := by
  induction kvs generalizing s with
  | nil =>
    simp only [insertAll, Option.some.injEq] at hr
    exact hr ▸ hs
  | cons kv rest ih =>
    rw [insertAll] at hr
    cases hi : hashSet_insert Alloc.ok s kv.1 kv.2 with
    | none => rw [hi] at hr; simp at hr
    | some r =>
      obtain ⟨b, s1⟩ := r
      rw [hi] at hr
      cases b with
      | false => simp at hr
      | true =>
        simp only at hr
        exact ih (Reachable.insert hs (hk kv (List.mem_cons_self _ _)) hi)
          (fun kv2 h2 => hk kv2 (List.mem_cons_of_mem _ h2)) hr

theorem reachable_runInserts {s s2 : Globals} (hs : Reachable s)
    {calls : List (Alloc × List Nat × List Nat)} (hk : ∀ c ∈ calls, IsCStr c.2.1)
    (hr : runInserts s calls = some s2) : Reachable s2 := by
  induction calls generalizing s with
  | nil =>
    simp only [runInserts, Option.some.injEq] at hr
    exact hr ▸ hs
  | cons c rest ih =>
    rw [runInserts] at hr
    cases hi : hashSet_insert c.1 s c.2.1 c.2.2 with
    | none => rw [hi] at hr; simp at hr
    | some r =>
      obtain ⟨b, s1⟩ := r
      rw [hi] at hr
      simp only at hr
      exact ih (Reachable.insert hs (hk c (List.mem_cons_self _ _)) hi)
        (fun c2 h2 => hk c2 (List.mem_cons_of_mem _ h2)) hr

/-- The table holding the first 717 keys of the family is at the threshold;
inserting key 717 with the `malloc` of the key failing returns `false` with
2048 slots. -/
theorem run_717_key_fail :
    ∃ s s2, insertAll fresh (numPairs 717) = some s ∧ Reachable s ∧
      s.g_hashCapacity = 1024 ∧ s.g_hashCount = 717 ∧
      hashSet_insert keyMallocFails s (numKey 717) (numKey 717) = some (false, s2) ∧
      s2.g_hashCapacity = 2048 ∧ s2.g_hashCount = 717 := by
  obtain ⟨s, t, h1, hp, hperm, hcnt, hcap⟩ := run_717
  have hth : AtThreshold s := by
    unfold AtThreshold
    rw [hcnt, hcap]
    decide
  have hfresh : ∀ e ∈ entries t, e.key ≠ normalizePath (numKey 717) := by
    intro e he hkey
    obtain ⟨kv, hkv, rfl⟩ := List.mem_map.1 (hperm.mem_iff.1 he)
    unfold numPairs at hkv
    obtain ⟨i, hi, rfl⟩ := List.mem_map.1 hkv
    have h2 : normalizePath (numKey i) = normalizePath (numKey 717) := hkey
    rw [numKey_normalized, numKey_normalized] at h2
    have h3 := numKey_injective h2
    have h4 := List.mem_range.1 hi
    omega
  obtain ⟨nt, h2⟩ := insert_key_fail_grows hp hth (by rw [hcap]; decide)
    (a := keyMallocFails) rfl rfl (numKey_isCStr 717) (numKey 717) hfresh
  refine ⟨s, _, h1, ?_, hcap, hcnt, h2, ?_, hcnt⟩
  · exact reachable_insertAll reachable_fresh (numPairs_isCStr 717) h1
  · show s.g_hashCapacity * 2 = 2048
    rw [hcap]

/-! ## `looseFiles_init` stays within the reachable states -/

theorem fold_scanInsert_none (alloc : Nat → Alloc) (calls : List (List Nat × List Nat))
    (n : Nat) :
    (calls.foldl (fun st c => scanInsert alloc st c.1 c.2) (n, none)).2 = none := by
  induction calls generalizing n with
  | nil => rfl
  | cons c rest ih =>
    rw [List.foldl_cons]
    exact ih (n + 1)

theorem fold_scanInsert_reachable (alloc : Nat → Alloc) (calls : List (List Nat × List Nat))
    (hk : ∀ c ∈ calls, IsCStr c.1) (n : Nat) {s s3 : Globals} (hs : Reachable s)
    (hr : (calls.foldl (fun st c => scanInsert alloc st c.1 c.2) (n, some s)).2 = some s3) :
    Reachable s3 := by
  induction calls generalizing n s with
  | nil =>
    simp only [List.foldl_nil, Option.some.injEq] at hr
    exact hr ▸ hs
  | cons c rest ih =>
    rw [List.foldl_cons] at hr
    cases hi : hashSet_insert (alloc n) s c.1 c.2 with
    | none =>
      have h0 : scanInsert alloc (n, some s) c.1 c.2 = (n + 1, none) := by
        unfold scanInsert
        simp only [Option.some_bind, hi, Option.map_none']
      rw [h0, fold_scanInsert_none] at hr
      exact Option.noConfusion hr
    | some r =>
      obtain ⟨b, s1⟩ := r
      rw [scanInsert_ok alloc n s s1 c.1 c.2 b hi] at hr
      exact ih (fun c2 h2 => hk c2 (List.mem_cons_of_mem _ h2)) (n + 1)
        (Reachable.insert hs (hk c (List.mem_cons_self _ _)) hi) hr

theorem fold_scanInsert_scanReachable (alloc : Nat → Alloc)
    (calls : List (List Nat × List Nat))
    (hk : ∀ c ∈ calls, IsScanKey c.1) (n : Nat) {s s3 : Globals} (hs : ScanReachable s)
    (hr : (calls.foldl (fun st c => scanInsert alloc st c.1 c.2) (n, some s)).2 = some s3) :
    ScanReachable s3 := by
  induction calls generalizing n s with
  | nil =>
    simp only [List.foldl_nil, Option.some.injEq] at hr
    exact hr ▸ hs
  | cons c rest ih =>
    rw [List.foldl_cons] at hr
    cases hi : hashSet_insert (alloc n) s c.1 c.2 with
    | none =>
      have h0 : scanInsert alloc (n, some s) c.1 c.2 = (n + 1, none) := by
        unfold scanInsert
        simp only [Option.some_bind, hi, Option.map_none']
      rw [h0, fold_scanInsert_none] at hr
      exact Option.noConfusion hr
    | some r =>
      obtain ⟨b, s1⟩ := r
      rw [scanInsert_ok alloc n s s1 c.1 c.2 b hi] at hr
      exact ih (fun c2 h2 => hk c2 (List.mem_cons_of_mem _ h2)) (n + 1)
        (ScanReachable.insert hs (hk c (List.mem_cons_self _ _)) hi) hr

/-- What `looseFiles_init` returns is the grown state, or the fold of
`hashSet_insert` over the calls of the scan from it. -/
theorem init_result (moduleFileName : List Nat) (fileAttr : List Nat → Option DirEntry)
    (callocOk : Bool) (alloc : Nat → Alloc) (wowDir : Option (List Nat)) {s s3 : Globals}
    (hi : looseFiles_init moduleFileName fileAttr callocOk alloc wowDir s = some s3) :
    ∃ root b s2, initRoot moduleFileName wowDir = some root ∧
      hashSet_grow callocOk { s with g_wowDirLen := root.length } = some (b, s2) ∧
      (s3 = s2 ∨ ∃ name opens listing calls,
        fileAttr (root ++ dataName) = some (DirEntry.dir name opens listing) ∧
        scanDirectory recordCall root.length (root ++ dataName) (root.length + 5) opens
          listing [] = some calls ∧
        (calls.foldl (fun st c => scanInsert alloc st c.1 c.2) (0, some s2)).2 = some s3) := by
  cases hroot : initRoot moduleFileName wowDir with
  | none =>
    unfold looseFiles_init at hi
    rw [hroot] at hi
    exact Option.noConfusion hi
  | some root =>
    cases hg : hashSet_grow callocOk { s with g_wowDirLen := root.length } with
    | none =>
      rw [init_unfold moduleFileName fileAttr callocOk alloc wowDir s root hroot, hg] at hi
      exact Option.noConfusion hi
    | some r =>
      obtain ⟨b, s2⟩ := r
      refine ⟨root, b, s2, rfl, hg, ?_⟩
      cases hfit : fitsPath (root ++ dataName) with
      | false =>
        rw [init_unfold moduleFileName fileAttr callocOk alloc wowDir s root hroot, hg] at hi
        simp only [hfit, Bool.not_false, if_true] at hi
        exact Option.noConfusion hi
      | true =>
        cases hf : fileAttr (root ++ dataName) with
        | none =>
          rw [init_unfold moduleFileName fileAttr callocOk alloc wowDir s root hroot, hg] at hi
          simp only [hfit, hf, Bool.not_true, Bool.false_eq_true, if_false,
            Option.some.injEq] at hi
          exact Or.inl hi.symm
        | some e =>
          cases e with
          | file name =>
            rw [init_unfold moduleFileName fileAttr callocOk alloc wowDir s root hroot, hg]
              at hi
            simp only [hfit, hf, Bool.not_true, Bool.false_eq_true, if_false,
              Option.some.injEq] at hi
            exact Or.inl hi.symm
          | dir name opens listing =>
            rw [init_calls moduleFileName fileAttr callocOk alloc wowDir root hroot s s2 b hg
              hfit name opens listing hf] at hi
            cases hc : scanDirectory recordCall root.length (root ++ dataName)
                (root.length + 5) opens listing [] with
            | none =>
              rw [hc] at hi
              exact Option.noConfusion hi
            | some calls =>
              rw [hc] at hi
              exact Or.inr ⟨name, opens, listing, calls, rfl, hc, hi⟩

/-- A call of `looseFiles_init` in a reachable state, the keys found by the scan
being C strings, ends in a reachable state. -/
theorem init_reachable (moduleFileName : List Nat) (fileAttr : List Nat → Option DirEntry)
    (callocOk : Bool) (alloc : Nat → Alloc) (wowDir : Option (List Nat)) {s s3 : Globals}
    (hs : Reachable s)
    (hk : ∀ root name opens listing calls,
      fileAttr (root ++ dataName) = some (DirEntry.dir name opens listing) →
      scanDirectory recordCall root.length (root ++ dataName) (root.length + 5) opens
        listing [] = some calls → ∀ c ∈ calls, IsCStr c.1)
    (hi : looseFiles_init moduleFileName fileAttr callocOk alloc wowDir s = some s3) :
    Reachable s3 := by
  obtain ⟨root, b, s2, -, hg, h⟩ :=
    init_result moduleFileName fileAttr callocOk alloc wowDir hi
  have hs2 : Reachable s2 := Reachable.grow (Reachable.wowDir _ hs) hg
  rcases h with h | ⟨name, opens, listing, calls, hf, hc, hr⟩
  · exact h ▸ hs2
  · exact fold_scanInsert_reachable alloc calls (hk root name opens listing calls hf hc) 0
      hs2 hr

/-- A call of `looseFiles_init` in a state the program can reach, the keys found
by the scan being C strings without `'/'`, ends in such a state. -/
theorem init_scanReachable (moduleFileName : List Nat)
    (fileAttr : List Nat → Option DirEntry)
    (callocOk : Bool) (alloc : Nat → Alloc) (wowDir : Option (List Nat)) {s s3 : Globals}
    (hs : ScanReachable s)
    (hk : ∀ root name opens listing calls,
      fileAttr (root ++ dataName) = some (DirEntry.dir name opens listing) →
      scanDirectory recordCall root.length (root ++ dataName) (root.length + 5) opens
        listing [] = some calls → ∀ c ∈ calls, IsScanKey c.1)
    (hi : looseFiles_init moduleFileName fileAttr callocOk alloc wowDir s = some s3) :
    ScanReachable s3 := by
  obtain ⟨root, b, s2, -, hg, h⟩ :=
    init_result moduleFileName fileAttr callocOk alloc wowDir hi
  have hs2 : ScanReachable s2 := ScanReachable.grow (ScanReachable.wowDir _ hs) hg
  rcases h with h | ⟨name, opens, listing, calls, hf, hc, hr⟩
  · exact h ▸ hs2
  · exact fold_scanInsert_scanReachable alloc calls (hk root name opens listing calls hf hc)
      0 hs2 hr

theorem isScanKey_join (c rest : List Nat) (hc : IsScanKey c) (hr : IsScanKey rest) :
    IsScanKey (c ++ 92 :: rest) := by
  constructor
  · intro x hx
    rcases List.mem_append.1 hx with h | h
    · exact hc.1 x h
    · rcases List.mem_cons.1 h with h | h
      · rw [h]; decide
      · exact hr.1 x h
  · intro hx
    rcases List.mem_append.1 hx with h | h
    · exact hc.2 h
    · rcases List.mem_cons.1 h with h | h
      · exact absurd h (by decide)
      · exact hr.2 h

theorem isScanKey_joinPath (c : List Nat) (rest : List (List Nat)) (hc : IsScanKey c)
    (hr : ∀ d ∈ rest, IsScanKey d) : IsScanKey (joinPath (c :: rest)) := by
  induction rest generalizing c with
  | nil => exact hc
  | cons d rest ih =>
    rw [joinPath]
    exact isScanKey_join c _ hc
      (ih d (hr d (List.mem_cons_self _ _)) (fun x hx => hr x (List.mem_cons_of_mem _ hx)))

mutual
theorem entryHasFile_names : ∀ (e : DirEntry) (dirs : List (List Nat)) (file : List Nat),
    entryNamesOk e = true → EntryHasFile e dirs file →
    (∀ d ∈ dirs, IsScanKey d) ∧ IsScanKey file
  | DirEntry.file name, dirs, file, hn, hf => by
    cases hf with
    | file _ _ =>
      rw [entryNamesOk] at hn
      exact ⟨fun d hd => by simp at hd, of_decide_eq_true hn⟩
  | DirEntry.dir d opens sub, dirs, file, hn, hf => by
    cases hf with
    | dir _ _ ds _ _ hsub =>
      rw [entryNamesOk, Bool.and_eq_true] at hn
      obtain ⟨h1, h2⟩ := listingHasFile_names sub ds file hn.2 hsub
      refine ⟨fun x hx => ?_, h2⟩
      rcases List.mem_cons.1 hx with h | h
      · rw [h]; exact of_decide_eq_true hn.1
      · exact h1 x h
theorem listingHasFile_names : ∀ (l : Listing) (dirs : List (List Nat)) (file : List Nat),
    listingNamesOk l = true → ListingHasFile l dirs file →
    (∀ d ∈ dirs, IsScanKey d) ∧ IsScanKey file
  | Listing.nil, dirs, file, _, hf => by cases hf
  | Listing.cons e rest, dirs, file, hn, hf => by
    rw [listingNamesOk, Bool.and_eq_true] at hn
    cases hf with
    | head _ _ _ _ he => exact entryHasFile_names e dirs file hn.1 he
    | tail _ _ _ _ hr => exact listingHasFile_names rest dirs file hn.2 hr
end

/-- When the file names of the tree are C strings without `'/'`, so is every key
the scan passes to `hashSet_insert`. -/
theorem scan_keys_ok (w : List Nat) (opens : Bool) (l : Listing)
    (hn : listingNamesOk l = true) (calls : List (List Nat × List Nat))
    (hc : scanDirectory recordCall w.length (w ++ dataName) (w.length + 5) opens l []
      = some calls) :
    ∀ c ∈ calls, IsScanKey c.1 := by
  intro c hmem
  cases hfit : scanFits (w ++ dataName).length opens l with
  | false =>
    rw [(scan_calls w opens l).2 hfit] at hc
    exact Option.noConfusion hc
  | true =>
    obtain ⟨calls2, hc2, hiff⟩ := (scan_calls w opens l).1 hfit
    rw [hc] at hc2
    simp only [Option.some.injEq] at hc2
    subst hc2
    obtain ⟨-, dirs, file, hf, -, h1, -⟩ := (hiff c).1 hmem
    obtain ⟨g1, g2⟩ := listingHasFile_names l dirs file hn hf
    rw [h1, List.nil_append]
    cases dirs with
    | nil => exact g2
    | cons d ds =>
      exact isScanKey_joinPath d (ds ++ [file]) (g1 d (List.mem_cons_self _ _))
        (fun x hx => by
          rcases List.mem_append.1 hx with h | h
          · exact g1 x (List.mem_cons_of_mem _ h)
          · rw [List.mem_singleton.1 h]; exact g2)

/-- A call of `looseFiles_init` in a state the program can reach, on a tree whose
file names are C strings without `'/'`, ends in such a state. -/
theorem init_stays_scanReachable (moduleFileName : List Nat)
    (fileAttr : List Nat → Option DirEntry)
    (callocOk : Bool) (alloc : Nat → Alloc) (wowDir : Option (List Nat)) {s s3 : Globals}
    (hs : ScanReachable s)
    (hn : ∀ path name opens listing,
      fileAttr path = some (DirEntry.dir name opens listing) → listingNamesOk listing = true)
    (hi : looseFiles_init moduleFileName fileAttr callocOk alloc wowDir s = some s3) :
    ScanReachable s3 :=
  init_scanReachable moduleFileName fileAttr callocOk alloc wowDir hs
    (fun root name opens listing calls hf hc =>
      scan_keys_ok root opens listing (hn _ name opens listing hf) calls hc) hi

/-! ## Keys without `'/'`: stored keys stay unique -/

theorem pow_fit {cap : Nat} (hp : PowCap cap) (h : cap * 2 * 12 ≤ 4294967295) :
    cap * 2 ≤ 268435456 := by
  obtain ⟨e, -, rfl⟩ := hp
  have h28 : (268435456 : Nat) = 2 ^ 28 := by norm_num
  have he : e + 1 ≤ 28 := by
    by_contra hlt
    have h1 : 2 ^ 29 ≤ 2 ^ (e + 1) := Nat.pow_le_pow_right (by decide) (by omega)
    have h2 : (2 : Nat) ^ 29 = 536870912 := by norm_num
    rw [Nat.pow_succ] at h1
    omega
  calc 2 ^ e * 2 = 2 ^ (e + 1) := by rw [Nat.pow_succ]
    _ ≤ 2 ^ 28 := Nat.pow_le_pow_right (by decide) he
    _ = 268435456 := h28.symm

theorem growBytes_eq {s : Globals} {t : Table} (hp : Populated s t)
    (hcap : s.g_hashCapacity ≤ 268435456) : growBytes s = s.g_hashCapacity * 2 * 12 := by
  have hbig := hp.big
  unfold growBytes sizeofHashEntry u32
  rw [if_pos (by omega), Nat.mod_eq_of_lt (by omega)]

theorem callocsFit_cons {s s1 : Globals} {kv : List Nat × List Nat}
    {rest : List (List Nat × List Nat)}
    (h1 : hashSet_insert Alloc.ok s kv.1 kv.2 = some (true, s1)) :
    callocsFit s (kv :: rest) = true ↔
      ((AtThreshold s → growBytes s ≤ SIZE_MAX) ∧ callocsFit s1 rest = true) := by
  rw [callocsFit, h1]
  simp only [Bool.and_eq_true, Bool.or_eq_true, Bool.not_eq_true', decide_eq_true_eq,
    decide_eq_false_iff_not]
  constructor
  · rintro ⟨h | h, h2⟩
    · exact ⟨fun ht => absurd ht h, h2⟩
    · exact ⟨fun _ => h, h2⟩
  · rintro ⟨h, h2⟩
    by_cases ht : AtThreshold s
    · exact ⟨Or.inr (h ht), h2⟩
    · exact ⟨Or.inl ht, h2⟩

/-- A run of inserts of pairwise different new keys in which every `calloc`
asks for at most `SIZE_MAX` bytes: every call succeeds and the table ends with
exactly the old entries and one entry per pair. -/
theorem insertAll_fit : ∀ (kvs : List (List Nat × List Nat)) (s : Globals) (t : Table),
    Populated s t → s.g_hashCapacity ≤ 268435456 → callocsFit s kvs = true →
    (∀ kv ∈ kvs, IsCStr kv.1) →
    (kvs.map (fun kv => normalizePath kv.1)).Nodup →
    (∀ kv ∈ kvs, ∀ e ∈ entries t, e.key ≠ normalizePath kv.1) →
    ∃ s2 t2, insertAll s kvs = some s2 ∧ Populated s2 t2 ∧
      (entries t2).Perm (kvs.map toEntry ++ entries t) ∧
      s2.g_hashCount = s.g_hashCount + kvs.length := by
  intro kvs
  induction kvs with
  | nil =>
    intro s t hp _ _ _ _ _
    exact ⟨s, t, rfl, hp, by simp, rfl⟩
  | cons kv rest ih =>
    intro s t hp hcap hfit hc hd hf
    simp only [List.map_cons, List.nodup_cons] at hd
    obtain ⟨s1, t1, h1, hp1, hperm1, hcnt1, hcap1, -⟩ :=
      insert_fresh_key hp (by omega) (hc kv (List.mem_cons_self _ _)) kv.2
        (hf kv (List.mem_cons_self _ _))
    obtain ⟨hbytes, hfit1⟩ := (callocsFit_cons h1).1 hfit
    have hcapb : s1.g_hashCapacity ≤ 268435456 := by
      rw [hcap1]
      split
      · rename_i htest
        have hb := hbytes htest
        rw [growBytes_eq hp hcap] at hb
        exact pow_fit hp.ok.pow hb
      · exact hcap
    have hf1 : ∀ kv2 ∈ rest, ∀ e ∈ entries t1, e.key ≠ normalizePath kv2.1 := by
      intro kv2 hkv2 e he
      rcases List.mem_cons.1 (hperm1.mem_iff.1 he) with rfl | he
      · intro heq
        apply hd.1
        exact List.mem_map.2 ⟨kv2, hkv2, heq.symm⟩
      · exact hf kv2 (List.mem_cons_of_mem _ hkv2) e he
    obtain ⟨s2, t2, h2, hp2, hperm2, hcnt2⟩ :=
      ih s1 t1 hp1 hcapb hfit1 (fun x hx => hc x (List.mem_cons_of_mem _ hx)) hd.2 hf1
    refine ⟨s2, t2, ?_, hp2, ?_, by rw [hcnt2, hcnt1, List.length_cons]; omega⟩
    · rw [insertAll, h1]
      exact h2
    · refine hperm2.trans ?_
      refine (List.Perm.append_left _ hperm1).trans ?_
      simp only [List.map_cons, List.cons_append]
      exact List.perm_middle

/-- Runs of at most 23488103 pairwise different new keys, from a table of at
most `2^25` slots, only make `calloc`s that can succeed. -/
theorem callocsFit_of_length : ∀ (kvs : List (List Nat × List Nat)) (s : Globals) (t : Table),
    Populated s t → s.g_hashCapacity ≤ 33554432 →
    s.g_hashCount + kvs.length ≤ 23488103 →
    (∀ kv ∈ kvs, IsCStr kv.1) →
    (kvs.map (fun kv => normalizePath kv.1)).Nodup →
    (∀ kv ∈ kvs, ∀ e ∈ entries t, e.key ≠ normalizePath kv.1) →
    callocsFit s kvs = true := by
  intro kvs
  induction kvs with
  | nil =>
    intro s t _ _ _ _ _ _
    rfl
  | cons kv rest ih =>
    intro s t hp hcap hn hc hd hf
    simp only [List.length_cons] at hn
    simp only [List.map_cons, List.nodup_cons] at hd
    obtain ⟨s1, t1, h1, hp1, hperm1, hcnt1, hcap1, -⟩ :=
      insert_fresh_key hp (by omega) (hc kv (List.mem_cons_self _ _)) kv.2
        (hf kv (List.mem_cons_self _ _))
    have hcapb : s1.g_hashCapacity ≤ 33554432 := by
      rw [hcap1]
      split
      · rename_i htest
        unfold u32 HASH_SET_MAX_LOAD at htest
        rw [Nat.mod_eq_of_lt (by omega), Nat.mod_eq_of_lt (by omega)] at htest
        exact pow_double_le hp.ok.pow (by omega)
      · exact hcap
    have hf1 : ∀ kv2 ∈ rest, ∀ e ∈ entries t1, e.key ≠ normalizePath kv2.1 := by
      intro kv2 hkv2 e he
      rcases List.mem_cons.1 (hperm1.mem_iff.1 he) with rfl | he
      · intro heq
        apply hd.1
        exact List.mem_map.2 ⟨kv2, hkv2, heq.symm⟩
      · exact hf kv2 (List.mem_cons_of_mem _ hkv2) e he
    rw [callocsFit_cons h1]
    refine ⟨fun _ => ?_, ih s1 t1 hp1 hcapb (by omega)
      (fun x hx => hc x (List.mem_cons_of_mem _ hx)) hd.2 hf1⟩
    rw [growBytes_eq hp (by omega)]
    unfold SIZE_MAX
    omega

/-! ## Direct calls with a key containing `'/'`

`scanDirectory` never passes such a key.  The probe of `hashSet_insert`
compares with `_stricmp`, which does not match a stored `"a\b"` against
`"a/b"`, so a direct call with `"a/b"` stores a second entry. -/

/-- The key `"a/b"` inserted twice into the fresh table: both calls succeed and
the lookup returns the first value, and the count is 2. -/
theorem slash_key_inserted_twice :
    hashSet_lookup fresh keySlash = some none ∧
    fresh.g_hashCount = 0 ∧
    insertAll fresh [(keySlash, diskX), (keySlash, diskY)] = some twoCopies ∧
    hashSet_lookup twoCopies keySlash = some (some diskX) ∧
    twoCopies.g_hashCount = 2 :=
  ⟨lookup_fresh_keySlash, rfl, insertAll_two insert_slash_first insert_twoCopies,
    lookup_twoCopies_keySlash, rfl⟩

/-- After `"b\yc"` and `"b/yc"` the table holds the key `"b\yc"` twice, and a
growth changes which of the two a lookup finds. -/
theorem slash_key_growth :
    insertAll fresh [(keyLast, diskX), (keyLastSlash, diskY)] = some wrappedDuplicate ∧
    hashSet_lookup wrappedDuplicate keyLast = some (some diskX) ∧
    hashSet_grow true wrappedDuplicate = some (true, grownDuplicate) ∧
    grownDuplicate.g_hashCount = wrappedDuplicate.g_hashCount ∧
    hashSet_lookup grownDuplicate keyLast = some (some diskY) :=
  ⟨insertAll_wrappedDuplicate, lookup_wrappedDuplicate, grow_wrappedDuplicate, rfl,
    lookup_grownDuplicate⟩

/-- After `"a\b"` and `"a/b"` slots 964 and 965 both hold the key `"a\b"`. -/
theorem slash_key_stored_twice :
    insertAll fresh [(keyBackslash, diskX), (keySlash, diskY)] = some twoCopies ∧
    ¬ KeysUnique twoCopies :=
  ⟨insertAll_two insert_oneEntry insert_twoCopies,
    fun h => h 964 965 entryAX entryAY (by decide) read_tblTwo_964 read_tblTwo_965
      (by decide)⟩

/-! ## Concrete runs used below -/

theorem isMpqFile_longName : isMpqFile longName = false := by
  rw [isMpqFile_eq_endsMpqRev]
  unfold longName
  rw [List.reverse_replicate]
  rfl

theorem longName_length : longName.length = 252 := List.length_replicate 252 97

theorem longRoot_length : longRoot.length = 227 := by
  unfold longRoot
  rw [List.length_append, List.length_replicate]
  rfl

theorem root256_length : root256.length = 256 := List.length_replicate 256 97

theorem root254_length : root254.length = 254 := List.length_replicate 254 97

theorem isDotEntry_longName : isDotEntry longName = false := by
  unfold longName
  rfl

/-! ## The claims -/

/-- Claim C1: for pairs whose keys are C strings with pairwise different normal
forms, any number of them, starting from the table produced by one
`hashSet_grow` on the initial globals and with every allocation succeeding
(every `calloc` of the run asking for at most `SIZE_MAX` bytes, as a `calloc`
that succeeds does), every `hashSet_insert` returns `true` and afterwards
`hashSet_lookup` of each key returns exactly the disk path inserted with it. -/
theorem insert_then_lookup (kvs : List (List Nat × List Nat))
    (hc : ∀ kv ∈ kvs, IsCStr kv.1)
    (hd : (kvs.map (fun kv => normalizePath kv.1)).Nodup)
    (hfit : callocsFit fresh kvs = true) :
    hashSet_grow true Globals.initial = some (true, fresh) ∧
    ∃ s, insertAll fresh kvs = some s ∧
      ∀ kv ∈ kvs, hashSet_lookup s kv.1 = some (some kv.2) := by
  obtain ⟨s, t, h1, h2, h3, -⟩ :=
    insertAll_fit kvs fresh _ populated_fresh (by decide) hfit hc hd
      (by intro kv _ e he; rw [entries_fresh] at he; simp at he)
  rw [entries_fresh, List.append_nil] at h3
  exact ⟨grow_initial, s, h1, lookup_after_insertAll h2 h3 hc hd⟩

/-- Witness for C1: the first 718 keys of the family `numKey`, a run that makes
the table grow. -/
theorem insert_then_lookup_witness :
    (∀ kv ∈ numPairs 718, IsCStr kv.1) ∧
    ((numPairs 718).map (fun kv => normalizePath kv.1)).Nodup ∧
    callocsFit fresh (numPairs 718) = true ∧
    hashSet_grow true Globals.initial = some (true, fresh) ∧
    ∃ s, insertAll fresh (numPairs 718) = some s ∧
      ∀ kv ∈ numPairs 718, hashSet_lookup s kv.1 = some (some kv.2) :=
  have hfit : callocsFit fresh (numPairs 718) = true :=
    callocsFit_of_length (numPairs 718) fresh _ populated_fresh (by decide)
      (by rw [numPairs_length]; decide) (numPairs_isCStr 718) (numPairs_nodup 718)
      (by intro kv _ e he; rw [entries_fresh] at he; simp at he)
  ⟨numPairs_isCStr 718, numPairs_nodup 718, hfit,
    insert_then_lookup (numPairs 718) (numPairs_isCStr 718) (numPairs_nodup 718) hfit⟩

/-- Claim C2: in every reachable state, two C strings with the same normal form
(they differ only in ASCII letter case and in `'/'` versus `'\\'`) get the same
answer from `hashSet_lookup`, and the lookup returns. -/
theorem lookup_case_separator_invariant {s : Globals} (hs : Reachable s) {p q : List Nat}
    (hp : IsCStr p) (hq : IsCStr q) (h : normalizePath p = normalizePath q) :
    hashSet_lookup s p = hashSet_lookup s q ∧ hashSet_lookup s p ≠ none :=
  ⟨lookup_congr s hp hq h, lookup_returns (reachable_inv hs) hp⟩

/-- Witness for C2: `"A\B"` and `"a/b"` in the table holding `"a\b"`. -/
theorem lookup_case_separator_invariant_witness :
    IsCStr keyUpper ∧ IsCStr keySlash ∧ normalizePath keyUpper = normalizePath keySlash ∧
    hashSet_lookup oneEntry keyUpper = hashSet_lookup oneEntry keySlash ∧
    hashSet_lookup oneEntry keyUpper ≠ none :=
  ⟨by decide, by decide, by decide,
    lookup_case_separator_invariant reachable_oneEntry (by decide) (by decide) (by decide)⟩

/-- Claim C5, as amended: in every reachable state, for a C-string key without
`'/'` whose normal form is the stored key of an occupied slot:
when the load test does not ask for growth, `hashSet_insert` returns `true` and
the state is unchanged, whatever the allocator would do;
when it asks for growth (below `2^31` slots, `calloc` succeeding), the call does
what one successful `hashSet_grow` does and nothing else: the count is the same
and the table holds the same entries. -/
theorem duplicate_insert_noop {s : Globals} (hs : Reachable s) {k : List Nat}
    (hk : IsCStr k) (h47 : 47 ∉ k) (hpres : ∃ e ∈ content s, e.key = normalizePath k)
    (a : Alloc) (v : List Nat) :
    (¬ AtThreshold s → hashSet_insert a s k v = some (true, s)) ∧
    (AtThreshold s → a.calloc = true → s.g_hashCapacity < 2147483648 →
      ∃ s1, hashSet_insert a s k v = some (true, s1) ∧
        hashSet_grow true s = some (true, s1) ∧
        s1.g_hashCount = s.g_hashCount ∧ (content s1).Perm (content s)) := by
  rcases reachable_inv hs with ⟨ht, -, -⟩ | ⟨t, hp⟩
  · exfalso
    obtain ⟨e, he, -⟩ := hpres
    rw [content_of_no_table ht] at he
    simp at he
  · rw [content_of_populated hp] at hpres
    refine ⟨?_, ?_⟩
    · intro hth
      rw [insert_below_threshold hth]
      exact insertAt_present hp (load_test_false hp.ok.pow hp.load hth) a hk h47 v hpres
    · intro hth hac hcap
      obtain ⟨nt, h1, h2, h3, h4⟩ := insert_present_grow hp hth hcap hac hk h47 v hpres
      refine ⟨_, h1, h2, rfl, ?_⟩
      rw [content_of_populated hp, content_of_populated h3]
      exact h4

/-- Witness for C5: `"A\B"` inserted into the table holding `"a\b"`. -/
theorem duplicate_insert_noop_witness :
    IsCStr keyUpper ∧ 47 ∉ keyUpper ∧
    (∃ e ∈ content oneEntry, e.key = normalizePath keyUpper) ∧
    hashSet_insert Alloc.ok oneEntry keyUpper diskY = some (true, oneEntry) :=
  ⟨by decide, by decide, ⟨entryAX, mem_content_oneEntry, by decide⟩,
    (duplicate_insert_noop reachable_oneEntry (by decide) (by decide)
      ⟨entryAX, mem_content_oneEntry, by decide⟩ Alloc.ok diskY).1 (by decide)⟩

/-- Counterexample to C5 as stated.  First part: the table holds `"a\b"` in slot
964 and `"a/b"` has that normal form, yet inserting `"a/b"` changes the state:
the count goes from 1 to 2.  Second part: the table of 1024 slots holding the
first 717 keys of the family `numKey` stores key 0, yet inserting key 0 again
changes the capacity to 2048. -/
theorem duplicate_insert_mutates :
    (tblOne[964]? = some (some entryAX) ∧ normalizePath keySlash = entryAX.key ∧
      hashSet_insert Alloc.ok oneEntry keySlash diskY = some (true, twoCopies) ∧
      oneEntry.g_hashCount = 1 ∧ twoCopies.g_hashCount = 2) ∧
    ((insertAll fresh (numPairs 717)).map
          (fun s => (s.g_hashCapacity, s.g_hashCount, hashSet_lookup s (numKey 0)))
        = some (1024, 717, some (some (numKey 0))) ∧
      (insertAll fresh (numPairs 717)).bind
          (fun s => (hashSet_insert Alloc.ok s (numKey 0) diskY).map
            (fun r => (r.1, r.2.g_hashCapacity, r.2.g_hashCount)))
        = some (true, 2048, 717)) :=
  ⟨⟨read_tblOne_964, by decide, insert_twoCopies, rfl, rfl⟩, run_717_duplicate diskY⟩

/-- Claim C7, as amended: in every reachable state
`g_hashCount * 100 < g_hashCapacity * 70 + 100`: the load test is made on the
count before the insert, so after an insert the load is below 70 percent plus
one entry. -/
theorem load_bound_after_insert {s : Globals} (hs : Reachable s) :
    s.g_hashCount * 100 < s.g_hashCapacity * 70 + 100 := by
  rcases reachable_inv hs with ⟨-, hc, hn⟩ | ⟨t, hp⟩
  · rw [hc, hn]; decide
  · exact hp.load

/-- Witness for C7: the table after one insert. -/
theorem load_bound_after_insert_witness :
    oneEntry.g_hashCount * 100 < oneEntry.g_hashCapacity * 70 + 100 :=
  load_bound_after_insert reachable_oneEntry

/-- Counterexample to C7 as stated: 717 successful inserts of different keys
into the fresh table leave 717 entries in 1024 slots, and
`717 * 100 < 1024 * 70` is false. -/
theorem load_reaches_threshold_after_insert :
    (insertAll fresh (numPairs 717)).map (fun s => (s.g_hashCount, s.g_hashCapacity))
      = some (717, 1024) ∧
    ¬ (717 * 100 < 1024 * 70) := by
  obtain ⟨s, t, h1, -, -, hcnt, hcap⟩ := run_717
  refine ⟨?_, by decide⟩
  rw [h1]
  simp only [Option.map_some', hcnt, hcap]

/-- Claim C8, as amended: for a root `wowDir` of at most 226 bytes, when
`GetFileAttributesA` finds at `wowDir ++ "Data"` a directory whose search lists
`.`, `..`, `Character\Human\HumanMale.m2` and `patch-5.MPQ` (`scenarioListing`),
`looseFiles_init` from the initial globals, with every allocation succeeding,
yields a table with `g_hashCount = 1`; the lookups of
`"character\human\humanmale.m2"` and `"Character/Human/HumanMale.M2"` both return
`"Data\Character\Human\HumanMale.m2"`, and the lookup of `"patch-5.mpq"` returns
not-found. -/
theorem concrete_scenario (moduleFileName wowDir : List Nat)
    (fileAttr : List Nat → Option DirEntry) (hlen : wowDir.length ≤ 226)
    (hdata : fileAttr (wowDir ++ dataName) = some (DirEntry.dir dataName true scenarioListing)) :
    looseFiles_init moduleFileName fileAttr true (fun _ => Alloc.ok) (some wowDir)
      Globals.initial = some (scenarioState wowDir.length) ∧
    (scenarioState wowDir.length).g_hashCount = 1 ∧
    looseFiles_lookup (scenarioState wowDir.length) keyHumanMaleLower
      = some (some diskHumanMale) ∧
    looseFiles_lookup (scenarioState wowDir.length) keyHumanMaleMixed
      = some (some diskHumanMale) ∧
    looseFiles_lookup (scenarioState wowDir.length) keyPatchLower = some none :=
  ⟨init_scenario moduleFileName wowDir fileAttr hlen hdata, rfl,
    lookup_scenario_lower _, lookup_scenario_mixed _, lookup_scenario_patch _⟩

/-- Witness for C8: the root `"C:\"`, in a file system holding only
`C:\Data` with the listing of the scenario. -/
theorem concrete_scenario_witness :
    rootC.length ≤ 226 ∧
    scenarioFs (rootC ++ dataName) = some (DirEntry.dir dataName true scenarioListing) ∧
    (looseFiles_init [] scenarioFs true (fun _ => Alloc.ok) (some rootC)
        Globals.initial = some (scenarioState rootC.length) ∧
      (scenarioState rootC.length).g_hashCount = 1 ∧
      looseFiles_lookup (scenarioState rootC.length) keyHumanMaleLower
        = some (some diskHumanMale) ∧
      looseFiles_lookup (scenarioState rootC.length) keyHumanMaleMixed
        = some (some diskHumanMale) ∧
      looseFiles_lookup (scenarioState rootC.length) keyPatchLower = some none) :=
  ⟨by decide, rfl, concrete_scenario [] rootC scenarioFs (by decide) rfl⟩

/-- Counterexample to C8 as stated (for every install root): below the root
`longRoot`, 227 bytes ending in `'\\'`, the child path of
`Data\Character\Human\HumanMale.m2` has 260 bytes and does not fit
`childPath[MAX_PATH]` with its NUL: `looseFiles_init` has no defined result. -/
theorem concrete_scenario_overruns_long_root :
    longRoot.length = 227 ∧ longRoot.getLast? = some 92 ∧
    scenarioAt longRoot (longRoot ++ dataName)
      = some (DirEntry.dir dataName true scenarioListing) ∧
    looseFiles_init [] (scenarioAt longRoot) true (fun _ => Alloc.ok) (some longRoot)
      Globals.initial = none :=
  ⟨longRoot_length, List.getLast?_concat _, if_pos rfl,
    init_scenario_overrun [] longRoot (scenarioAt longRoot) true (fun _ => Alloc.ok)
      Globals.initial (by rw [longRoot_length]; decide) (if_pos rfl)⟩

/-- Claim C9, as amended: `isMpqFile s` holds exactly when `s` ends with `.`,
then `m` or `M`, `p` or `P`, `q` or `Q`; for a regular file (its name is not `.`
or `..`) whose child path fits `childPath[MAX_PATH]`, the offsets lying within
the child path, the loop body of `scanDirectory` calls `hashSet_insert`, with
both strings cut from the child path, exactly when `isMpqFile` of the name is
false; when the child path does not fit, the loop body has no defined result;
and no call made by a scan that returns has a key ending in `.mpq`. -/
theorem no_archive_leakage (s : List Nat) {σ : Type} (insert : σ → List Nat → List Nat → σ)
    (g_wowDirLen baseDirLen : Nat) (fullPath name : List Nat) (st : σ)
    (hdot : isDotEntry name = false) :
    (isMpqFile s = true ↔
      ∃ pre c1 c2 c3, s = pre ++ [46, c1, c2, c3] ∧
        (c1 = 109 ∨ c1 = 77) ∧ (c2 = 112 ∨ c2 = 80) ∧ (c3 = 113 ∨ c3 = 81)) ∧
    ((fullPath ++ 92 :: name).length < MAX_PATH →
      baseDirLen ≤ (fullPath ++ 92 :: name).length →
      g_wowDirLen ≤ (fullPath ++ 92 :: name).length →
      scanEntry insert g_wowDirLen fullPath baseDirLen (DirEntry.file name) st =
        some (if isMpqFile name = true then st
          else insert st ((fullPath ++ 92 :: name).drop baseDirLen)
            ((fullPath ++ 92 :: name).drop g_wowDirLen))) ∧
    (MAX_PATH ≤ (fullPath ++ 92 :: name).length →
      scanEntry insert g_wowDirLen fullPath baseDirLen (DirEntry.file name) st = none) ∧
    (∀ opens listing calls,
      scanDirectory recordCall g_wowDirLen fullPath baseDirLen opens listing [] = some calls →
      NoMpqCalls calls) :=
  ⟨isMpqFile_iff s,
    fun hfit hb hw =>
      scanEntry_file insert g_wowDirLen fullPath baseDirLen name st hdot hfit hb hw,
    fun hfit =>
      scanEntry_overrun insert g_wowDirLen fullPath baseDirLen (DirEntry.file name) st hdot
        hfit,
    fun opens listing calls h =>
      scanDirectory_noMpq g_wowDirLen baseDirLen fullPath opens listing calls h⟩

/-- Witness for C9: the file `patch-5.MPQ` in `C:\Data`, and the scan of the
scenario. -/
theorem no_archive_leakage_witness :
    isDotEntry namePatch = false ∧
    ((isMpqFile namePatch = true ↔
        ∃ pre c1 c2 c3, namePatch = pre ++ [46, c1, c2, c3] ∧
          (c1 = 109 ∨ c1 = 77) ∧ (c2 = 112 ∨ c2 = 80) ∧ (c3 = 113 ∨ c3 = 81)) ∧
      scanEntry recordCall 3 (rootC ++ dataName) 8 (DirEntry.file namePatch) [] = some [] ∧
      scanDirectory recordCall 3 (rootC ++ dataName) 8 true scenarioListing []
        = some [(keyHumanMale, diskHumanMale)] ∧
      NoMpqCalls [(keyHumanMale, diskHumanMale)]) :=
  have h := no_archive_leakage namePatch recordCall 3 8 (rootC ++ dataName) namePatch []
    (by decide)
  have hscan : scanDirectory recordCall 3 (rootC ++ dataName) 8 true scenarioListing []
      = some [(keyHumanMale, diskHumanMale)] :=
    scan_scenario recordCall rootC [] (by decide)
  ⟨by decide, h.1, h.2.1 (by decide) (by decide) (by decide),
    hscan, h.2.2.2 true scenarioListing _ hscan⟩

/-- Counterexample to C9 as stated (for every regular file): the file `longName`
in `C:\Data` is a regular file and not an archive, but its child path has 260
bytes and does not fit `childPath[MAX_PATH]` with its NUL: the loop body of
`scanDirectory` has no defined result, so no call of `hashSet_insert` is the
result. -/
theorem long_file_name_not_inserted :
    isDotEntry longName = false ∧ isMpqFile longName = false ∧
    ((rootC ++ dataName) ++ 92 :: longName).length = 260 ∧
    scanEntry recordCall 3 (rootC ++ dataName) 8 (DirEntry.file longName) [] = none :=
  ⟨isDotEntry_longName, isMpqFile_longName,
    by rw [List.length_append, List.length_cons, longName_length]; rfl,
    scanEntry_overrun recordCall 3 (rootC ++ dataName) 8 (DirEntry.file longName) []
      isDotEntry_longName
      (by
        show MAX_PATH ≤ ((rootC ++ dataName) ++ 92 :: longName).length
        rw [List.length_append, List.length_cons, longName_length]
        decide)⟩

/-- Claim C10: for C strings `a` and `b`, `pathcmp a b = 0` exactly when
`normalizePath a` and `normalizePath b` are the same string. -/
theorem pathcmp_zero_iff_same_normal_form {a b : List Nat} (ha : IsCStr a) (hb : IsCStr b) :
    pathcmp a b = 0 ↔ normalizePath a = normalizePath b :=
  pathcmp_eq_zero_iff ha hb

/-- Witness for C10: `"A\B"` against `"a/b"`. -/
theorem pathcmp_zero_iff_same_normal_form_witness :
    IsCStr keyUpper ∧ IsCStr keySlash ∧
    (pathcmp keyUpper keySlash = 0 ↔ normalizePath keyUpper = normalizePath keySlash) :=
  ⟨by decide, by decide, pathcmp_zero_iff_same_normal_form (by decide) (by decide)⟩

/-! ## Hashing and normalisation -/

/-- Claim C11: `computeHash p` is the DJB2 fold (seed 5381, `h := (h * 33 + c) mod 2^32`)
over the bytes of `normalizePath p`; two paths with the same normal form, such
as paths that differ only in ASCII case or separator style, have the same hash;
a byte from 128 on enters the fold with its own value. -/
theorem computeHash_is_djb2_of_normal_form (p : List Nat) :
    computeHash p = djb2 (normalizePath p) ∧
    (∀ q, normalizePath p = normalizePath q → computeHash p = computeHash q) ∧
    (∀ q, p.length = q.length →
      (∀ (i a b : Nat), p[i]? = some a → q[i]? = some b →
        a = b ∨ (a = 47 ∧ b = 92) ∨ (a = 92 ∧ b = 47) ∨
          (65 ≤ a ∧ a ≤ 90 ∧ b = a + 32) ∨ (65 ≤ b ∧ b ≤ 90 ∧ a = b + 32)) →
      computeHash p = computeHash q) ∧
    (∀ (i c : Nat), p[i]? = some c → 128 ≤ c → (normalizePath p)[i]? = some c) := by
  refine ⟨computeHashLoop_eq_foldl 5381 p, fun q h => computeHash_congr h, ?_, ?_⟩
  · intro q hlen hbytes
    apply computeHash_congr
    apply List.ext_getElem?
    intro i
    rw [normalizePath_get, normalizePath_get]
    cases hp : p[i]? with
    | none =>
      have h1 : p.length ≤ i := List.getElem?_eq_none_iff.1 hp
      have h2 : q[i]? = none := List.getElem?_eq_none_iff.2 (by omega)
      rw [h2]
    | some a =>
      have h1 : i < p.length := (List.getElem?_eq_some_iff.1 hp).1
      have h2 : i < q.length := by omega
      have hq : q[i]? = some (q[i]) := List.getElem?_eq_getElem h2
      rw [hq]
      simp only [Option.map_some', Option.some.injEq]
      rcases hbytes i a (q[i]) hp hq with h | ⟨ha, hb⟩ | ⟨ha, hb⟩ | ⟨h3, h4, hb⟩ | ⟨h3, h4, ha⟩
      · rw [h]
      · rw [ha, hb]; rfl
      · rw [ha, hb]; rfl
      · rw [hb, normChar_upper h3 h4, normChar_other (by omega) (by omega)]
      · rw [ha, normChar_upper h3 h4, normChar_other (by omega) (by omega)]
  · intro i c hc h128
    rw [normalizePath_get, hc, Option.map_some', normChar_other (by omega) (by omega)]

/-- Claim C12: `normalizePath` is idempotent and keeps the length; byte by byte
it maps `'/'` to `'\\'`, `'A'`-`'Z'` to the matching `'a'`-`'z'`, and leaves every
other byte, bytes from 0x80 on included, unchanged. -/
theorem normalizePath_idempotent_bytewise (p : List Nat) :
    normalizePath (normalizePath p) = normalizePath p ∧
    (normalizePath p).length = p.length ∧
    (∀ (i c : Nat), p[i]? = some c →
      (c = 47 → (normalizePath p)[i]? = some 92) ∧
      (65 ≤ c ∧ c ≤ 90 → (normalizePath p)[i]? = some (c + 32)) ∧
      (c ≠ 47 ∧ ¬ (65 ≤ c ∧ c ≤ 90) → (normalizePath p)[i]? = some c) ∧
      (128 ≤ c → (normalizePath p)[i]? = some c)) := by
  refine ⟨normalizePath_idem p, normalizePath_length p, ?_⟩
  intro i c hc
  rw [normalizePath_get, hc, Option.map_some']
  refine ⟨?_, ?_, ?_, ?_⟩
  · intro h; rw [h]; rfl
  · intro h; rw [normChar_upper h.1 h.2]
  · intro h; rw [normChar_other h.1 h.2]
  · intro h; rw [normChar_other (by omega) (by omega)]

/-- Witness for C11: `"A\B"` and `"a/b"` have the same normal form, hence the
same hash. -/
theorem computeHash_is_djb2_of_normal_form_witness :
    normalizePath keyUpper = normalizePath keySlash ∧
    computeHash keyUpper = computeHash keySlash :=
  ⟨by decide, (computeHash_is_djb2_of_normal_form keyUpper).2.1 keySlash (by decide)⟩

/-- Witness for C12: in `"A\B"` the byte `'A'` at index 0 becomes `'a'`. -/
theorem normalizePath_idempotent_bytewise_witness :
    keyUpper[0]? = some 65 ∧ (normalizePath keyUpper)[0]? = some (65 + 32) :=
  ⟨by decide,
    ((normalizePath_idempotent_bytewise keyUpper).2.2 0 65 (by decide)).2.1
      ⟨by decide, by decide⟩⟩

/-! ## Capacity, probing and teardown -/

/-- Claim C13: in every reachable state whose capacity is not zero (a table has
been allocated and the doubling has not wrapped to zero), the capacity is
`1024 * 2^j`, and for every hash value `hash & (capacity - 1)` equals
`hash mod capacity` and is an index into the slot array. -/
theorem capacity_power_of_two {s : Globals} (hs : Reachable s)
    (hcap : s.g_hashCapacity ≠ 0) :
    (∃ j, s.g_hashCapacity = 1024 * 2 ^ j) ∧
    ∀ hash : Nat,
      hash &&& maskOf s.g_hashCapacity = hash % s.g_hashCapacity ∧
      ∃ t, s.g_hashTable = some t ∧ hash &&& maskOf s.g_hashCapacity < t.length := by
  obtain ⟨t, hp⟩ := populated_of_cap (reachable_inv hs) hcap
  obtain ⟨j, -, hj⟩ := powCap_big hp.ok.pow hp.big
  refine ⟨⟨j, hj⟩, fun hash => ⟨land_maskOf hp.ok.pow hash, t, hp.tbl, ?_⟩⟩
  rw [land_maskOf hp.ok.pow, hp.ok.len]
  exact Nat.mod_lt _ (Nat.pos_of_ne_zero hcap)

/-- Witness for C13: the table of 2048 slots obtained by growing the table that
holds two entries. -/
theorem capacity_power_of_two_witness :
    Reachable grownDuplicate ∧ grownDuplicate.g_hashCapacity ≠ 0 ∧
    ((∃ j, grownDuplicate.g_hashCapacity = 1024 * 2 ^ j) ∧
      ∀ hash : Nat,
        hash &&& maskOf grownDuplicate.g_hashCapacity
          = hash % grownDuplicate.g_hashCapacity ∧
        ∃ t, grownDuplicate.g_hashTable = some t ∧
          hash &&& maskOf grownDuplicate.g_hashCapacity < t.length) :=
  ⟨Reachable.grow reachable_wrappedDuplicate grow_wrappedDuplicate, by decide,
    capacity_power_of_two (Reachable.grow reachable_wrappedDuplicate grow_wrappedDuplicate)
      (by decide)⟩

/-- Claim C14, as amended: in a reachable state, when `hashSet_insert` of a
C-string key returns `false`, an allocation has failed; the count and the
stored entries are those before the call, so no partial entry is stored; the
state is exactly the prior state unless the load test had asked for growth and
`calloc` succeeded, in which case it is the state one successful `hashSet_grow`
yields; and when no key is stored with two different disk paths, every lookup
returns what it returned before the call. -/
theorem insert_failure_keeps_entries {s s2 : Globals} (hs : Reachable s) {a : Alloc}
    {key diskPath : List Nat} (hk : IsCStr key)
    (hi : hashSet_insert a s key diskPath = some (false, s2)) :
    (a.calloc = false ∨ a.keyMalloc = false ∨ a.diskMalloc = false) ∧
    (s2 = s ∨ (AtThreshold s ∧ a.calloc = true ∧ hashSet_grow true s = some (true, s2))) ∧
    s2.g_hashCount = s.g_hashCount ∧
    (content s2).Perm (content s) ∧
    ((∀ e1 ∈ content s, ∀ e2 ∈ content s, e1.key = e2.key → e1.diskPath = e2.diskPath) →
      ∀ q, IsCStr q → hashSet_lookup s2 q = hashSet_lookup s q) := by
  have hinv := reachable_inv hs
  have hinv2 := insert_inv hinv hk hi
  obtain ⟨s1, h1, hcnt, hperm, h⟩ := insert_outcome hinv hk hi
  rcases h with ⟨-, h2, hfail⟩ | ⟨hb, -⟩ | ⟨hb, -⟩
  · subst h2
    exact ⟨hfail, h1, hcnt, hperm, fun hu q hq => lookup_eq_of_perm hinv hinv2 hperm hu hq⟩
  · exact Bool.noConfusion hb
  · exact Bool.noConfusion hb

/-- Witness for C14: on the initial globals, `calloc` succeeding and the
`malloc` of the key failing. -/
theorem insert_failure_keeps_entries_witness :
    Reachable Globals.initial ∧ IsCStr keyBackslash ∧
    hashSet_insert keyMallocFails Globals.initial keyBackslash diskX = some (false, fresh) ∧
    ((keyMallocFails.calloc = false ∨ keyMallocFails.keyMalloc = false ∨
        keyMallocFails.diskMalloc = false) ∧
      (fresh = Globals.initial ∨
        (AtThreshold Globals.initial ∧ keyMallocFails.calloc = true ∧
          hashSet_grow true Globals.initial = some (true, fresh))) ∧
      fresh.g_hashCount = Globals.initial.g_hashCount ∧
      (content fresh).Perm (content Globals.initial) ∧
      ((∀ e1 ∈ content Globals.initial, ∀ e2 ∈ content Globals.initial,
          e1.key = e2.key → e1.diskPath = e2.diskPath) →
        ∀ q, IsCStr q → hashSet_lookup fresh q = hashSet_lookup Globals.initial q)) :=
  ⟨Reachable.initial, by decide, insert_initial_key_fail,
    insert_failure_keeps_entries Reachable.initial (by decide) insert_initial_key_fail⟩

/-- Claim C14 as stated fails on the code: the load test and `hashSet_grow` run
before the allocations of the new entry.  The table holding the first 717 keys
of the family has 1024 slots; inserting key 717 with the `malloc` of the key
failing returns `false`, and the capacity is 2048 afterwards.  Likewise on the
initial globals: the call returns `false` and the capacity has gone from 0 to
1024. -/
theorem insert_failure_changes_capacity :
    (∃ s s2, insertAll fresh (numPairs 717) = some s ∧ Reachable s ∧
      s.g_hashCapacity = 1024 ∧ s.g_hashCount = 717 ∧
      hashSet_insert keyMallocFails s (numKey 717) (numKey 717) = some (false, s2) ∧
      s2.g_hashCapacity = 2048 ∧ s2.g_hashCount = 717) ∧
    hashSet_insert keyMallocFails Globals.initial keyBackslash diskX = some (false, fresh) ∧
    Globals.initial.g_hashCapacity = 0 ∧ fresh.g_hashCapacity = 1024 :=
  ⟨run_717_key_fail, insert_initial_key_fail, rfl, rfl⟩

/-- Claim C15, as amended: for a root of at most 255 bytes, when
`GetFileAttributesA` finds no directory at the root followed by `Data`
(nothing, or a regular file), or, the root having at most 253 bytes, finds a
directory whose search does not open or lists nothing but `.` and `..`,
`looseFiles_init` from the initial globals returns with `g_hashCount = 0`, and
the lookup of every key then returns not-found; this holds whether or not the
`calloc` of the table succeeds. -/
theorem empty_root_scan (moduleFileName : List Nat) (fileAttr : List Nat → Option DirEntry)
    (callocOk : Bool) (alloc : Nat → Alloc) (wowDir : Option (List Nat)) (root : List Nat)
    (hroot : initRoot moduleFileName wowDir = some root) (hlen : root.length ≤ 255)
    (hdata : ∀ name opens listing,
      fileAttr (root ++ dataName) = some (DirEntry.dir name opens listing) →
      root.length ≤ 253 ∧ (opens = false ∨ allDots listing = true)) :
    ∃ s, looseFiles_init moduleFileName fileAttr callocOk alloc wowDir Globals.initial
        = some s ∧
      s.g_hashCount = 0 ∧ ∀ k, hashSet_lookup s k = some none := by
  have hgrow : ∃ b s2,
      hashSet_grow callocOk { Globals.initial with g_wowDirLen := root.length }
        = some (b, s2) ∧
      s2.g_hashCount = 0 ∧ ∀ k, hashSet_lookup s2 k = some none := by
    cases callocOk with
    | false =>
      exact ⟨false, _, grow_fail _, rfl, lookup_no_table ⟨Or.inl rfl, rfl, rfl⟩⟩
    | true =>
      exact ⟨true, _, grow_at _, rfl, lookup_empty_slots rfl rfl⟩
  obtain ⟨b, s2, hg, hcnt, hl⟩ := hgrow
  refine ⟨s2, ?_, hcnt, hl⟩
  have hfit : fitsPath (root ++ dataName) = true := by
    rw [fitsPath_iff, List.length_append]
    show root.length + 4 < 260
    omega
  rw [init_unfold moduleFileName fileAttr callocOk alloc wowDir Globals.initial root hroot, hg]
  simp only [hfit, Bool.not_true, Bool.false_eq_true, if_false]
  cases hf : fileAttr (root ++ dataName) with
  | none => rfl
  | some e =>
    cases e with
    | file name => rfl
    | dir name opens listing =>
      obtain ⟨h253, h⟩ := hdata name opens listing hf
      have hfit2 : fitsPath (root ++ dataName ++ [92, 42]) = true := by
        rw [fitsPath_iff, searchPath_length, List.length_append]
        show root.length + 4 + 2 < 260
        omega
      show (scanDirectory (scanInsert alloc) s2.g_wowDirLen (root ++ dataName)
        (s2.g_wowDirLen + 5) opens listing (0, some s2)).bind Prod.snd = some s2
      unfold scanDirectory
      simp only [hfit2, Bool.not_true, Bool.false_eq_true, if_false]
      rcases h with h | h
      · rw [h]
        rfl
      · cases opens with
        | false => rfl
        | true =>
          rw [if_pos rfl, scanLoop_allDots _ _ _ _ listing h]
          rfl

/-- Witness for C15: the root `"C:\"` in a file system where nothing exists. -/
theorem empty_root_scan_witness :
    initRoot [] (some rootC) = some rootC ∧ rootC.length ≤ 255 ∧
    (∀ name opens listing,
      emptyFs (rootC ++ dataName) = some (DirEntry.dir name opens listing) →
      rootC.length ≤ 253 ∧ (opens = false ∨ allDots listing = true)) ∧
    ∃ s, looseFiles_init [] emptyFs true (fun _ => Alloc.ok) (some rootC) Globals.initial
        = some s ∧
      s.g_hashCount = 0 ∧ ∀ k, hashSet_lookup s k = some none :=
  ⟨rfl, by decide, fun _ _ _ h => Option.noConfusion h,
    empty_root_scan [] emptyFs true (fun _ => Alloc.ok) (some rootC) rootC rfl (by decide)
      (fun _ _ _ h => Option.noConfusion h)⟩

/-- Counterexample to C15 as stated (for every root): for the root `root256` of
256 bytes nothing exists at the root followed by `Data`, but that path has 260
bytes and does not fit `dataPath[MAX_PATH]` with its NUL; and for the root
`root254` of 254 bytes, where `Data` is a directory without entries, the search
path has 260 bytes and does not fit `searchPath[MAX_PATH]`: in both cases
`looseFiles_init` has no defined result. -/
theorem empty_root_scan_overruns_long_root :
    (root256.length = 256 ∧ emptyFs (root256 ++ dataName) = none ∧
      looseFiles_init [] emptyFs true (fun _ => Alloc.ok) (some root256) Globals.initial
        = none) ∧
    (root254.length = 254 ∧
      emptyDataAt root254 (root254 ++ dataName)
        = some (DirEntry.dir dataName true Listing.nil) ∧
      looseFiles_init [] (emptyDataAt root254) true (fun _ => Alloc.ok) (some root254)
        Globals.initial = none) := by
  refine ⟨⟨root256_length, rfl, ?_⟩, ⟨root254_length, if_pos rfl, ?_⟩⟩
  · have hfit : fitsPath (root256 ++ dataName) = false := by
      rw [fitsPath_false_iff, List.length_append, root256_length]
      decide
    rw [init_unfold [] emptyFs true (fun _ => Alloc.ok) (some root256) Globals.initial
      root256 rfl, grow_at]
    simp only [hfit, Bool.not_false, if_true]
  · have hfit : fitsPath (root254 ++ dataName) = true := by
      rw [fitsPath_iff, List.length_append, root254_length]
      decide
    have hfit2 : fitsPath (root254 ++ dataName ++ [92, 42]) = false := by
      rw [fitsPath_false_iff, searchPath_length, List.length_append, root254_length]
      decide
    have hdata : emptyDataAt root254 (root254 ++ dataName)
        = some (DirEntry.dir dataName true Listing.nil) := if_pos rfl
    rw [init_unfold [] (emptyDataAt root254) true (fun _ => Alloc.ok) (some root254)
      Globals.initial root254 rfl, grow_at]
    simp only [hfit, Bool.not_true, Bool.false_eq_true, if_false, hdata]
    unfold scanDirectory
    simp only [hfit2, Bool.not_false, if_true]
    rfl

/-- Claim C16: from every reachable state `looseFiles_cleanup` returns the
state with no table, capacity 0 and count 0, in which `looseFiles_lookup` of
every key returns not-found; applied to that state again, or to the initial
globals (the never-populated table), it leaves the state unchanged; and the
lookup of every key on the initial globals returns not-found. -/
theorem cleanup_resets {s : Globals} (hs : Reachable s) :
    ∃ s2, looseFiles_cleanup s = some s2 ∧
      s2.g_hashTable = none ∧ s2.g_hashCapacity = 0 ∧ s2.g_hashCount = 0 ∧
      (∀ k, looseFiles_lookup s2 k = some none) ∧
      looseFiles_cleanup s2 = some s2 ∧
      looseFiles_cleanup Globals.initial = some Globals.initial ∧
      ∀ k, looseFiles_lookup Globals.initial k = some none := by
  refine ⟨⟨none, 0, 0, 0⟩, ?_, rfl, rfl, rfl,
    lookup_no_table ⟨Or.inl rfl, rfl, rfl⟩, rfl, rfl, lookup_no_table ⟨Or.inl rfl, rfl, rfl⟩⟩
  unfold looseFiles_cleanup
  rcases reachable_inv hs with ⟨ht | ht, hc, -⟩ | ⟨t, hp⟩
  · rw [ht]
  · rw [ht, hc]
    rfl
  · rw [hp.tbl]
    simp only [hp.ok.len, lt_irrefl, if_false]

/-- Witness for C16: the table holding `"a\b"`. -/
theorem cleanup_resets_witness :
    Reachable oneEntry ∧
    ∃ s2, looseFiles_cleanup oneEntry = some s2 ∧
      s2.g_hashTable = none ∧ s2.g_hashCapacity = 0 ∧ s2.g_hashCount = 0 ∧
      (∀ k, looseFiles_lookup s2 k = some none) ∧
      looseFiles_cleanup s2 = some s2 ∧
      looseFiles_cleanup Globals.initial = some Globals.initial ∧
      ∀ k, looseFiles_lookup Globals.initial k = some none :=
  ⟨reachable_oneEntry, cleanup_resets reachable_oneEntry⟩

/-! ## The hook, the scan and the probes -/

/-- Claim C17: for a non-null `filename`, `Hook_CheckFileExistence` returns 0
without calling the original routine when `looseFiles_lookup` answers not-found,
and returns what the original routine returns for the looked-up disk path,
`flags | 1` and the same output buffer when the lookup hits; for a null
`filename` it returns what the original routine returns for the unchanged
arguments.  In a reachable state the hook returns for every `filename`. -/
theorem hook_contract (s : Globals) (flags outputBuffer : Nat)
    (original : Option (List Nat) → Nat → Nat → Nat) :
    (∀ filename, looseFiles_lookup s filename = some none →
      Hook_CheckFileExistence s (some filename) flags outputBuffer
        = some (HookOutcome.returns 0)) ∧
    (∀ filename diskPath, looseFiles_lookup s filename = some (some diskPath) →
      Hook_CheckFileExistence s (some filename) flags outputBuffer
        = some (HookOutcome.callsOriginal (some diskPath) (flags ||| 1) outputBuffer) ∧
      (Hook_CheckFileExistence s (some filename) flags outputBuffer).map
          (HookOutcome.value original)
        = some (original (some diskPath) (flags ||| 1) outputBuffer)) ∧
    Hook_CheckFileExistence s none flags outputBuffer
      = some (HookOutcome.callsOriginal none flags outputBuffer) ∧
    (Hook_CheckFileExistence s none flags outputBuffer).map (HookOutcome.value original)
      = some (original none flags outputBuffer) ∧
    (Reachable s → ∀ filename,
      Hook_CheckFileExistence s filename flags outputBuffer ≠ none) := by
  refine ⟨?_, ?_, rfl, rfl, ?_⟩
  · intro filename h
    unfold Hook_CheckFileExistence
    simp only [h]
  · intro filename diskPath h
    unfold Hook_CheckFileExistence
    simp only [h, Option.map_some', HookOutcome.value, and_self]
  · intro hs filename
    cases filename with
    | none => simp [Hook_CheckFileExistence]
    | some f =>
      have h := lookup_defined (reachable_inv hs) f
      unfold Hook_CheckFileExistence
      unfold looseFiles_lookup
      cases hl : hashSet_lookup s f with
      | none => exact absurd hl h
      | some r => cases r <;> simp [hl]

/-- Witness for C17: in the table of the scenario, `"patch-5.mpq"` is a miss and
`"character\human\humanmale.m2"` is a hit, with flags 4. -/
theorem hook_contract_witness :
    Hook_CheckFileExistence (scenarioState 3) (some keyPatchLower) 4 0
      = some (HookOutcome.returns 0) ∧
    Hook_CheckFileExistence (scenarioState 3) (some keyHumanMaleLower) 4 0
      = some (HookOutcome.callsOriginal (some diskHumanMale) 5 0) :=
  ⟨(hook_contract (scenarioState 3) 4 0 (fun _ _ _ => 0)).1 keyPatchLower
      (lookup_scenario_patch 3),
    ((hook_contract (scenarioState 3) 4 0 (fun _ _ _ => 0)).2.1 keyHumanMaleLower
      diskHumanMale (lookup_scenario_lower 3)).1⟩

/-- Claim C18, as amended: when `looseFiles_init` is called with the root
`wowDir` and finds a directory at `wowDir ++ "Data"`, and every path the scan
formats fits its `MAX_PATH` buffer, the scan returns and is the fold of
`hashSet_insert` over the recorded calls, and a pair `(gameKey, diskPath)` is
among these calls exactly when the search opens and the scan reaches a regular
file, not an archive, such that `gameKey` is the names of the directories below
`Data` and of the file, as listed, joined by `'\\'`, and
`diskPath = "Data\\" ++ gameKey`. -/
theorem key_disk_anchoring (moduleFileName : List Nat)
    (fileAttr : List Nat → Option DirEntry) (callocOk : Bool) (alloc : Nat → Alloc)
    (wowDir : List Nat) (s s2 : Globals) (b : Bool)
    (hg : hashSet_grow callocOk { s with g_wowDirLen := wowDir.length } = some (b, s2))
    (name : List Nat) (opens : Bool) (listing : Listing)
    (hdata : fileAttr (wowDir ++ dataName) = some (DirEntry.dir name opens listing))
    (hfit : scanFits (wowDir ++ dataName).length opens listing = true) :
    ∃ calls,
      scanDirectory recordCall wowDir.length (wowDir ++ dataName) (wowDir.length + 5)
        opens listing [] = some calls ∧
      looseFiles_init moduleFileName fileAttr callocOk alloc (some wowDir) s =
        (calls.foldl (fun st c => scanInsert alloc st c.1 c.2) (0, some s2)).2 ∧
      ∀ c : List Nat × List Nat,
        c ∈ calls ↔
          (opens = true ∧ ∃ dirs file, ListingHasFile listing dirs file ∧
            isMpqFile file = false ∧ c.1 = joinPath (dirs ++ [file]) ∧
            c.2 = dataName ++ 92 :: c.1) := by
  obtain ⟨calls, hc, hiff⟩ := (scan_calls wowDir opens listing).1 hfit
  have hfd : fitsPath (wowDir ++ dataName) = true := by
    unfold scanFits at hfit
    rw [Bool.and_eq_true] at hfit
    have h1 := of_decide_eq_true hfit.1
    rw [fitsPath_iff]
    unfold MAX_PATH at h1
    omega
  refine ⟨calls, hc, ?_, fun c => (hiff c).trans (by simp [Anchored])⟩
  rw [init_calls moduleFileName fileAttr callocOk alloc (some wowDir) wowDir rfl s s2 b hg hfd
    name opens listing hdata, hc]
  rfl

/-- Witness for C18: the scenario under the root `"C:\"`. -/
theorem key_disk_anchoring_witness :
    hashSet_grow true { Globals.initial with g_wowDirLen := rootC.length }
      = some (true, freshAt 3) ∧
    scenarioFs (rootC ++ dataName) = some (DirEntry.dir dataName true scenarioListing) ∧
    scanFits (rootC ++ dataName).length true scenarioListing = true ∧
    ∃ calls,
      scanDirectory recordCall rootC.length (rootC ++ dataName) (rootC.length + 5)
        true scenarioListing [] = some calls ∧
      looseFiles_init [] scenarioFs true (fun _ => Alloc.ok) (some rootC) Globals.initial =
        (calls.foldl (fun st c => scanInsert (fun _ => Alloc.ok) st c.1 c.2)
          (0, some (freshAt 3))).2 ∧
      ∀ c : List Nat × List Nat,
        c ∈ calls ↔
          (true = true ∧ ∃ dirs file, ListingHasFile scenarioListing dirs file ∧
            isMpqFile file = false ∧ c.1 = joinPath (dirs ++ [file]) ∧
            c.2 = dataName ++ 92 :: c.1) :=
  ⟨grow_at 3, rfl, by decide,
    key_disk_anchoring [] scenarioFs true (fun _ => Alloc.ok) rootC Globals.initial
      (freshAt 3) true (grow_at 3) dataName true scenarioListing rfl (by decide)⟩

/-- Counterexample to C18 as stated (for every root and every file reached):
under the root `"C:\"`, `Data` holds one regular file, not an archive, named
`longName`; its child path has 260 bytes and does not fit
`childPath[MAX_PATH]` with its NUL: the scan, and with it `looseFiles_init`,
has no defined result, and no pair is passed to `hashSet_insert`. -/
theorem long_child_path_overruns :
    longNameFs (rootC ++ dataName) = some (DirEntry.dir dataName true longListing) ∧
    isMpqFile longName = false ∧
    ((rootC ++ dataName) ++ 92 :: longName).length = 260 ∧
    scanDirectory recordCall rootC.length (rootC ++ dataName) (rootC.length + 5) true
      longListing [] = none ∧
    looseFiles_init [] longNameFs true (fun _ => Alloc.ok) (some rootC) Globals.initial
      = none := by
  have hfits : scanFits (rootC ++ dataName).length true longListing = false := by
    unfold scanFits longListing
    rw [listingFits, entryFits, isDotEntry_longName, longName_length]
    decide
  have hscan := (scan_calls rootC true longListing).2 hfits
  refine ⟨if_pos rfl, isMpqFile_longName,
    by rw [List.length_append, List.length_cons, longName_length]; rfl, hscan, ?_⟩
  rw [init_calls [] longNameFs true (fun _ => Alloc.ok) (some rootC) rootC rfl
    Globals.initial (freshAt 3) true (grow_at 3) (by decide) dataName true longListing
    (if_pos rfl), hscan]
  rfl

/-- Claim C19: after any run of `hashSet_insert` calls with C-string keys on the
fresh table, whatever their allocation outcomes, a lookup of a C string `q`
that returns `v` has an earlier call `hashSet_insert(k, v)` with
`normalizePath k = normalizePath q`; and when no inserted key has the normal
form of `q`, the lookup returns not-found, whatever the hashes are. -/
theorem no_false_hits (calls : List (Alloc × List Nat × List Nat))
    (hk : ∀ c ∈ calls, IsCStr c.2.1) {s : Globals} (hr : runInserts fresh calls = some s)
    {q : List Nat} (hq : IsCStr q) :
    (∀ v, hashSet_lookup s q = some (some v) →
      ∃ c ∈ calls, c.2.2 = v ∧ normalizePath c.2.1 = normalizePath q) ∧
    ((∀ c ∈ calls, normalizePath c.2.1 ≠ normalizePath q) →
      hashSet_lookup s q = some none) := by
  obtain ⟨hinv, hsub⟩ := runInserts_content calls hk inv_fresh hr
  have horigin : ∀ e ∈ content s, ∃ c ∈ calls, e = toEntry (c.2.1, c.2.2) := by
    intro e he
    rcases hsub e he with h | h
    · rw [content_of_populated populated_fresh, entries_fresh] at h
      simp at h
    · exact h
  constructor
  · intro v hv
    rcases lookup_inv hinv hq with ⟨e, he, hkey, hl⟩ | ⟨-, hl⟩
    · obtain ⟨c, hc, rfl⟩ := horigin e he
      rw [hl] at hv
      simp only [Option.some.injEq] at hv
      exact ⟨c, hc, hv, hkey⟩
    · rw [hl] at hv
      simp at hv
  · intro hno
    rcases lookup_inv hinv hq with ⟨e, he, hkey, -⟩ | ⟨-, hl⟩
    · obtain ⟨c, hc, rfl⟩ := horigin e he
      exact absurd hkey (hno c hc)
    · exact hl

/-- Witness for C19: `"a~"` and `"b]"` have the same hash; after the insert of
`"a~"` the lookup of `"b]"` returns not-found. -/
theorem no_false_hits_witness :
    computeHash keyTilde = computeHash keyBracket ∧
    ∃ s, runInserts fresh [(Alloc.ok, keyTilde, diskX)] = some s ∧
      hashSet_lookup s keyBracket = some none := by
  refine ⟨by decide, ?_⟩
  obtain ⟨s2, t2, h1, -⟩ := insert_fresh_key populated_fresh (by decide)
    (show IsCStr keyTilde by decide) diskX
    (by intro e he; rw [entries_fresh] at he; simp at he)
  have hr : runInserts fresh [(Alloc.ok, keyTilde, diskX)] = some s2 := by
    simp only [runInserts, h1]
  exact ⟨s2, hr,
    (no_false_hits [(Alloc.ok, keyTilde, diskX)] (by decide) hr
      (show IsCStr keyBracket by decide)).2 (by decide)⟩

/-- Claim C20: in every reachable state whose capacity is not zero (a table has
been allocated), the slot array has `g_hashCapacity` slots, `g_hashCount` is the
number of occupied slots and is less than the capacity, some slot is empty, and
for every key the probe loops of `hashSet_lookup` and of `hashSet_insert`, run
for at most `g_hashCapacity` steps, come to an end; `hashSet_lookup` returns for
every key, and below `2^31` slots so does `hashSet_insert` for every C-string
key. -/
theorem probe_termination {s : Globals} (hs : Reachable s) (hcap : s.g_hashCapacity ≠ 0) :
    ∃ t, s.g_hashTable = some t ∧ t.length = s.g_hashCapacity ∧
      s.g_hashCount = (entries t).length ∧ s.g_hashCount < s.g_hashCapacity ∧
      (∃ j, j < s.g_hashCapacity ∧ t[j]? = some none) ∧
      (∀ key,
        probe (stopLookup key) t (maskOf s.g_hashCapacity) s.g_hashCapacity
            (computeHash key &&& maskOf s.g_hashCapacity) ≠ none ∧
        probe (stopInsert key) t (maskOf s.g_hashCapacity) s.g_hashCapacity
            (computeHash key &&& maskOf s.g_hashCapacity) ≠ none) ∧
      (∀ key, hashSet_lookup s key ≠ none) ∧
      (s.g_hashCapacity < 2147483648 → ∀ a key diskPath, IsCStr key →
        hashSet_insert a s key diskPath ≠ none) := by
  have hinv := reachable_inv hs
  obtain ⟨t, hp⟩ := populated_of_cap hinv hcap
  have hroom := populated_room hp
  refine ⟨t, hp.tbl, hp.ok.len, hp.cnt, by rw [hp.cnt]; exact hroom, ?_, ?_,
    lookup_defined hinv, fun hlt a key diskPath hk => insert_defined hinv hlt a hk diskPath⟩
  · have hlen : (entries t).length < t.length := by rw [hp.ok.len]; exact hroom
    obtain ⟨j, hj⟩ := exists_empty_of_lt t hlen
    refine ⟨j, ?_, hj⟩
    have := (List.getElem?_eq_some_iff.1 hj).1
    rw [hp.ok.len] at this
    exact this
  · intro key
    constructor
    · obtain ⟨slot, r, h, -⟩ := probe_table hp.ok hroom (stopLookup key) (computeHash key)
      rw [h]; simp
    · obtain ⟨slot, r, h, -⟩ := probe_table hp.ok hroom (stopInsert key) (computeHash key)
      rw [h]; simp

/-- Witness for C20: the table holding `"a\b"`. -/
theorem probe_termination_witness :
    Reachable oneEntry ∧ oneEntry.g_hashCapacity ≠ 0 ∧
    ∃ t, oneEntry.g_hashTable = some t ∧ t.length = oneEntry.g_hashCapacity ∧
      oneEntry.g_hashCount = (entries t).length ∧
      oneEntry.g_hashCount < oneEntry.g_hashCapacity ∧
      (∃ j, j < oneEntry.g_hashCapacity ∧ t[j]? = some none) ∧
      (∀ key,
        probe (stopLookup key) t (maskOf oneEntry.g_hashCapacity) oneEntry.g_hashCapacity
            (computeHash key &&& maskOf oneEntry.g_hashCapacity) ≠ none ∧
        probe (stopInsert key) t (maskOf oneEntry.g_hashCapacity) oneEntry.g_hashCapacity
            (computeHash key &&& maskOf oneEntry.g_hashCapacity) ≠ none) ∧
      (∀ key, hashSet_lookup oneEntry key ≠ none) ∧
      (oneEntry.g_hashCapacity < 2147483648 → ∀ a key diskPath, IsCStr key →
        hashSet_insert a oneEntry key diskPath ≠ none) :=
  ⟨reachable_oneEntry, by decide, probe_termination reachable_oneEntry (by decide)⟩

end LooseFiles
